import Mathlib

/-!
The hyadmin CPU engine: worker pool, task queue, slicing, tinyBLAS tiling, MoE dispatch.

A shallow embedding of the parts of `engine/csrc` that the specification's
claims are about, followed by the theorems that settle those claims.

Conventions of the embedding:

* C++ `int` and `long` values are `Int`; `/` and `%` of C++ are `Int.tdiv` and
  `Int.tmod` (truncation towards zero).  Where a product of two inputs is
  formed in 32-bit `int` arithmetic the result is reduced with `wrap32`.
* `for (int i = a; i < b; i++)` loops are folds over `List.range`.
* A `std::vector` is a `List`; indexing outside the vector is undefined in
  C++ and reads a default element / writes nothing here.
* Callables (`std::function`) are observed through the events they produce.
-/

set_option autoImplicit false

namespace heyi

/-! ## cpu_backend/backend.h, backend.cpp -/

/-- The enum `ThreadStatus` of `backend.h`. -/
inductive ThreadStatus
  | WORKING
  | WAITING
  | EXIT
  deriving DecidableEq, Repr

/-- The struct `ThreadState` of `backend.h`; the field `end` is spelled `end_`. -/
structure ThreadState where
  status : ThreadStatus
  curr : Int
  end_ : Int
  deriving DecidableEq, Repr

instance : Inhabited ThreadState := ⟨⟨ThreadStatus.WAITING, 0, 0⟩⟩

/-- The fields of `class Backend` that dispatching reads and writes.  The three
callables are kept as "is not `nullptr`" flags (`compute_func_` is always called). -/
structure Backend where
  one_shot_mode : Bool
  thread_num_ : Int
  max_thread_num_ : Int
  thread_state_ : List ThreadState
  init_func_ : Bool
  finalize_func_ : Bool
  deriving DecidableEq, Repr

/-- What a worker does that the outside can observe. -/
inductive Event
  | init (thread_id : Int)
  | compute (task_id : Int)
  | finalize (thread_id : Int)
  | store_waiting (thread_id : Int)
  deriving DecidableEq, Repr

/-- The constructor `Backend::Backend(max_thread_num)`: every worker starts `WAITING`
with a value-initialised `curr` and `end`. -/
def Backend.new (max_thread_num : Int) : Backend :=
  { one_shot_mode := false
    thread_num_ := 0
    max_thread_num_ := max_thread_num
    thread_state_ := List.replicate max_thread_num.toNat ⟨ThreadStatus.WAITING, 0, 0⟩
    init_func_ := false
    finalize_func_ := false }

/-- Read `thread_state_[i]`. -/
def Backend.state (b : Backend) (i : Nat) : ThreadState :=
  b.thread_state_.getD i default

/-- The write `thread_state_[i].status->store(s)`. -/
def store_status (ts : List ThreadState) (i : Nat) (s : ThreadStatus) : List ThreadState :=
  ts.set i { ts.getD i default with status := s }

/-- The write `thread_state_[i].curr->store(c)`. -/
def store_curr (ts : List ThreadState) (i : Nat) (c : Int) : List ThreadState :=
  ts.set i { ts.getD i default with curr := c }

/-- The write `thread_state_[i].end = e`. -/
def store_end (ts : List ThreadState) (i : Nat) (e : Int) : List ThreadState :=
  ts.set i { ts.getD i default with end_ := e }

/-- The C++ conversion of a `bool` to `int`. -/
def b2i (p : Bool) : Int := if p then 1 else 0

/-- Body of the loop `for (int i = 1; i < thread_num_; i++)` of the striped branch
(backend.cpp lines 136-142). -/
def stripe_step (base remain : Int) (ts : List ThreadState) (i : Nat) : List ThreadState :=
  let ts1 := store_curr ts i (ts.getD (i - 1) default).end_
  let ts2 := store_end ts1 i ((ts1.getD (i - 1) default).end_ + base + b2i (decide ((i : Int) < remain)))
  store_status ts2 i ThreadStatus.WORKING

/-- The dispatching part of `Backend::do_work_stealing_job` (backend.cpp lines 112-143):
everything the caller writes before it starts to wait.  `USE_NUMA` is the compile-time
variant. -/
def do_work_stealing_job (USE_NUMA : Bool) (b : Backend) (task_num : Int)
    (init_func finalize_func : Bool) : Backend :=
  let thread_num_ : Int := if USE_NUMA then b.max_thread_num_ else min b.max_thread_num_ task_num
  let one_shot_mode : Bool := decide (task_num ≤ b.max_thread_num_)
  let ts : List ThreadState :=
    if one_shot_mode then
      (List.range (min thread_num_ task_num).toNat).foldl
        (fun ts i => store_status ts i ThreadStatus.WORKING) b.thread_state_
    else
      let base := Int.tdiv task_num thread_num_
      let remain := Int.tmod task_num thread_num_
      let ts0 := store_end b.thread_state_ 0 (base + b2i (decide (0 < remain)))
      let ts1 := store_curr ts0 0 0
      let ts2 := store_status ts1 0 ThreadStatus.WORKING
      (List.range' 1 (thread_num_.toNat - 1)).foldl (stripe_step base remain) ts2
  { one_shot_mode := one_shot_mode
    thread_num_ := thread_num_
    max_thread_num_ := b.max_thread_num_
    thread_state_ := ts
    init_func_ := init_func
    finalize_func_ := finalize_func }

/-- The condition the waiting loop of `do_work_stealing_job` (lines 145-153) waits for:
no worker below `thread_num_` is `WORKING` any more. -/
def job_done (b : Backend) : Bool :=
  (List.range b.thread_num_.toNat).all (fun i => decide ((b.state i).status ≠ ThreadStatus.WORKING))

/-- The `while (true)` loop of `process_tasks` (lines 176-185) on one worker's own
`curr` and `end`: the task ids handed to `compute_func_`, and the final `curr`. -/
def fetch_loop (end_ : Int) (curr : Int) : List Int × Int :=
  let task_id := curr
  let curr1 := curr + 1
  if task_id ≥ end_ then ([], curr1)
  else
    let r := fetch_loop end_ curr1
    (task_id :: r.1, r.2)
termination_by (end_ - curr).toNat
decreasing_by omega

/-- The function `Backend::process_tasks(thread_id)` (non-tracing part): the new pool state
and the events of this worker in program order. -/
def process_tasks (b : Backend) (thread_id : Nat) : Backend × List Event :=
  let ev_init : List Event := if b.init_func_ then [Event.init thread_id] else []
  let run : List ThreadState × List Event :=
    if b.one_shot_mode then
      (b.thread_state_, [Event.compute thread_id])
    else
      let r := fetch_loop (b.state thread_id).end_ (b.state thread_id).curr
      (store_curr b.thread_state_ thread_id r.2, r.1.map Event.compute)
  let ev_fin : List Event := if b.finalize_func_ then [Event.finalize thread_id] else []
  let ts := store_status run.1 thread_id ThreadStatus.WAITING
  ({ b with thread_state_ := ts }, ev_init ++ run.2 ++ ev_fin ++ [Event.store_waiting thread_id])

/-- One iteration of the loop of `Backend::worker_thread(thread_id)`: a worker runs
`process_tasks` only when it reads `WORKING`. -/
def worker_thread_step (b : Backend) (thread_id : Nat) : Backend × List Event :=
  match (b.state thread_id).status with
  | ThreadStatus.WORKING => process_tasks b thread_id
  | ThreadStatus.WAITING => (b, [])
  | ThreadStatus.EXIT => (b, [])

/-- The arguments of the `compute_func_` calls among some events, in order. -/
def compute_calls : List Event → List Int
  | [] => []
  | Event.compute t :: es => t :: compute_calls es
  | _ :: es => compute_calls es

/-- The integers `lo, lo+1, …, hi-1` in increasing order. -/
def interval (lo hi : Int) : List Int :=
  (List.range (hi - lo).toNat).map (fun (j : Nat) => lo + (j : Int))


/-- Closed form of the boundaries written by the striped dispatch: worker `i` gets
`curr = stripe_bound base remain i` and `end = stripe_bound base remain (i+1)`. -/
def stripe_bound (base remain : Int) (i : Nat) : Int :=
  (i : Int) * base + min (i : Int) remain

/-! ## operators/moe/moe.cpp: `get_slice` -/

/-- The value a 32-bit two's-complement `int` holds after an arithmetic result `x`
(what the target computes where C++ leaves signed overflow undefined). -/
def wrap32 (x : Int) : Int := (x + 2147483648) % 4294967296 - 2147483648

/-- The function `get_slice(size, nth, ith)` of moe.cpp (lines 95-102), all three
arguments and every intermediate result being `int`; the result is
`(local_stride, bias_stride)`. -/
def get_slice (size nth ith : Int) : Int × Int :=
  let local_stride : Int :=
    wrap32 (wrap32 (Int.tdiv (wrap32 (wrap32 (ith + 1) * size)) nth)
      - wrap32 (Int.tdiv (wrap32 (ith * size)) nth))
  let bias_stride : Int := wrap32 (Int.tdiv (wrap32 (ith * size)) nth)
  (local_stride, bias_stride)

/-! ## operators/moe/moe.cpp: configuration and `MOE::forward` -/

/-- The element format tags of the external catalog that the engine uses. -/
inductive ggml_type
  | F32
  | F16
  | BF16
  | F8_E4M3
  | Q8_0
  | Q4_0
  deriving DecidableEq, Repr

/-- The fields of `MOEConfig` that moe.cpp reads (weight and scale pointers left out). -/
structure MOEConfig where
  expert_num : Int
  routed_expert_num : Int
  hidden_size : Int
  intermediate_size : Int
  group_min_len : Int
  group_max_len : Int
  hidden_type : ggml_type
  gate_type : ggml_type
  up_type : ggml_type
  down_type : ggml_type
  deriving DecidableEq, Repr

/-- A call that `MOE::forward` makes.  The four pointer arguments are kept as offsets from
the buffers of the outermost call: `expert_ids` and `weights` in elements, `input` and
`output` in bytes. -/
inductive MoeCall
  | forward_one (k expert_ids weights input output : Int)
  | forward_many (qlen k expert_ids weights input output : Int)
  deriving DecidableEq, Repr

/-- The byte offset `i * config_.hidden_size * ggml_type_size(hidden_type) /
ggml_blck_size(hidden_type)` of row `i`; `ts` and `bs` are the two catalog values. -/
def row_offset (cfg : MOEConfig) (ts bs : Int) (i : Int) : Int :=
  Int.tdiv (i * cfg.hidden_size * ts) bs

/-- The function `MOE::forward` (moe.cpp lines 555-565) as the list of calls it makes.  The
C++ function is recursive without a bound, so the embedding takes `fuel` and answers
`none` when the recursion is deeper than `fuel`. -/
def forward (cfg : MOEConfig) (ts bs : Int) :
    Nat → (qlen k expert_ids weights input output : Int) → Option (List MoeCall)
  | 0, _, _, _, _, _, _ => none
  | fuel + 1, qlen, k, expert_ids, weights, input, output =>
    if qlen < cfg.group_min_len then
      some ((List.range qlen.toNat).map (fun (i : Nat) =>
        MoeCall.forward_one k (expert_ids + (i : Int) * k) (weights + (i : Int) * k)
          (input + row_offset cfg ts bs i) (output + row_offset cfg ts bs i)))
    else
      let forward_len := min cfg.group_max_len qlen
      match forward cfg ts bs fuel (qlen - forward_len) k (expert_ids + forward_len * k)
          (weights + forward_len * k) (input + row_offset cfg ts bs forward_len)
          (output + row_offset cfg ts bs forward_len) with
      | none => none
      | some rest =>
        some (MoeCall.forward_many forward_len k expert_ids weights input output :: rest)

/-- Number of tokens a call processes. -/
def call_len : MoeCall → Int
  | MoeCall.forward_one _ _ _ _ _ => 1
  | MoeCall.forward_many qlen _ _ _ _ _ => qlen

/-- The `expert_ids` argument of a call. -/
def call_expert_ids : MoeCall → Int
  | MoeCall.forward_one _ e _ _ _ => e
  | MoeCall.forward_many _ _ e _ _ _ => e

/-- The `weights` argument of a call. -/
def call_weights : MoeCall → Int
  | MoeCall.forward_one _ _ w _ _ => w
  | MoeCall.forward_many _ _ _ w _ _ => w

/-- The token indices a sequence of calls processes, in order, when the first call starts
at token `start` and every call starts where the one before it stopped. -/
def token_list : Int → List MoeCall → List Int
  | _, [] => []
  | start, c :: cs => interval start (start + call_len c) ++ token_list (start + call_len c) cs

/-- Every call of the sequence receives the routing pointers of the token it starts at:
`expert_ids + start * k` and `weights + start * k`. -/
def starts_ok (k expert_ids weights : Int) : Int → List MoeCall → Prop
  | _, [] => True
  | start, c :: cs =>
    call_expert_ids c = expert_ids + start * k ∧ call_weights c = weights + start * k ∧
      starts_ok k expert_ids weights (start + call_len c) cs

/-- A configuration for examples: 4 experts, 2 routed, 128 x 128, all `F32`. -/
def cfg_example (group_min_len group_max_len : Int) : MOEConfig :=
  { expert_num := 4, routed_expert_num := 2, hidden_size := 128, intermediate_size := 128,
    group_min_len := group_min_len, group_max_len := group_max_len,
    hidden_type := ggml_type.F32, gate_type := ggml_type.F32, up_type := ggml_type.F32,
    down_type := ggml_type.F32 }

/-! ## operators/moe/llamafile/tinyblas_cpu.h: the generic `tinyBLAS` kernel

The `long` quantities `m0, m, n0, n`, `tiles`, `job` and the `int` pair `ith, nth` are
natural numbers here.  From `mnpack(0, m, 0, n)` with `m, n >= 0` every recursive call has
`m0 <= m` and `n0 <= n`; where the truncated difference of naturals is 0 the switch key has
a zero nibble and takes the `default: return`, as the C++ switch does on a non-positive
difference. -/

/-- The job loop `for (long job = start; job < end; ++job)` of `tinyBLAS::gemm`
(tinyblas_cpu.h lines 572-580) for thread `ith` of `nth`: the jobs the thread runs. -/
def gemm_jobs (tiles nth ith : Nat) : List Nat :=
  let duty := (tiles + nth - 1) / nth
  let start := duty * ith
  let end0 := start + duty
  let end_ := if end0 > tiles then tiles else end0
  List.range' start (end_ - start)

/-- The cells `(row, column)` of `C` that one job of `gemm<RM, RN>` stores: the loop nest
`for j < RN, for i < RM: store(INDEX(C, ldc, jj + j, ii + i), …)`. -/
def gemm_tile (RM RN ii jj : Nat) : List (Nat × Nat) :=
  (List.range RN).flatMap (fun j => (List.range RM).map (fun i => (ii + i, jj + j)))

/-- The function `tinyBLAS::gemm<RM, RN, PRECISE>(m0, m, n0, n)` (lines 566-606) for thread
`ith` of `nth`: the cells of `C` it stores, in program order. -/
def gemm (RM RN : Nat) (nth ith : Nat) (m0 m n0 n : Nat) : List (Nat × Nat) :=
  let ytiles := if RM > 1 then (m - m0) / RM else 1
  let xtiles := if RN > 1 then (n - n0) / RN else 1
  let tiles := xtiles * ytiles
  (gemm_jobs tiles nth ith).flatMap (fun job =>
    let ii := m0 + job / xtiles * RM
    let jj := n0 + job % xtiles * RN
    gemm_tile RM RN ii jj)

/-- The `switch` of `tinyBLAS::mnpack` for `VECTOR_REGISTERS == 32` without `FLAG_PRECISE`
(lines 398-440): the tile `(mc, nc)` chosen for a key, `none` for `default: return`. -/
def mnpack_tile (key : Nat) : Option (Nat × Nat) :=
  match key with
  | 0x55 => some (5, 5)
  | 0x54 | 0x53 | 0x52 | 0x45 | 0x44 | 0x43 | 0x42
  | 0x35 | 0x34 | 0x33 | 0x32 | 0x25 | 0x24 | 0x23 | 0x22 => some (2, 2)
  | 0x51 | 0x41 | 0x31 | 0x21 => some (2, 1)
  | 0x15 | 0x14 | 0x13 | 0x12 => some (1, 2)
  | 0x11 => some (1, 1)
  | _ => none

/-- The switch key `(MIN(m - m0, 5) << 4) | MIN(n - n0, 5)`. -/
def mnpack_key (m0 m n0 n : Nat) : Nat :=
  (min (m - m0) 5 <<< 4) ||| min (n - n0) 5

/-- A check of the switch table against `a = MIN(m - m0, 5)` and `b = MIN(n - n0, 5)`: where
no tile is chosen one of the two is 0; a chosen tile `mc x nc` fits into `a x b`, and it has
one row (one column) only where exactly one row (one column) is left. -/
def mnpack_tile_fits (a b : Nat) : Bool :=
  match mnpack_tile ((a <<< 4) ||| b) with
  | none => decide (a = 0 ∨ b = 0)
  | some (mc, nc) =>
    decide (1 ≤ mc ∧ mc ≤ a ∧ 1 ≤ nc ∧ nc ≤ b ∧ (mc = 1 → a = 1) ∧ (nc = 1 → b = 1))

/-- The function `tinyBLAS::mnpack(m0, m, n0, n)` (lines 395-448 and 561-564) for thread
`ith` of `nth`: the cells of `C` stored by the `gemm` call and the two recursive calls, in
program order. -/
def mnpack (nth ith : Nat) (m0 m n0 n : Nat) : List (Nat × Nat) :=
  match h : mnpack_tile (mnpack_key m0 m n0 n) with
  | none => []
  | some (mc, nc) =>
    let mp := m0 + (m - m0) / mc * mc
    let np := n0 + (n - n0) / nc * nc
    gemm mc nc nth ith m0 m n0 n ++ (mnpack nth ith mp m n0 np ++ mnpack nth ith m0 m np n)
termination_by (m - m0) + (n - n0)
decreasing_by
  all_goals
    have key : ∀ a, a < 6 → ∀ b, b < 6 → mnpack_tile_fits a b = true := by decide
    have hk := key (min (m - m0) 5) (by omega) (min (n - n0) 5) (by omega)
    unfold mnpack_key at h
    unfold mnpack_tile_fits at hk
    rw [h] at hk
    simp only [decide_eq_true_eq] at hk
    obtain ⟨h1, h2, h3, h4, -, -⟩ := hk
    have hm : mc ≤ m - m0 := le_trans h2 (min_le_left _ _)
    have hn : nc ≤ n - n0 := le_trans h4 (min_le_left _ _)
    have hq1 : mc ≤ (m - m0) / mc * mc := by
      have := Nat.div_pos hm (by omega)
      nlinarith
    have hq2 : (m - m0) / mc * mc ≤ m - m0 := Nat.div_mul_le_self _ _
    have hq3 : nc ≤ (n - n0) / nc * nc := by
      have := Nat.div_pos hn (by omega)
      nlinarith
    have hq4 : (n - n0) / nc * nc ≤ n - n0 := Nat.div_mul_le_self _ _
    omega

/-- The matrix cells stored by all `nth` threads of one `sgemm` call through
`matmul(m, n, GGML_TASK_TYPE_COMPUTE)`, that is `mnpack(0, m, 0, n)` on each thread. -/
def matmul_all_threads (nth m n : Nat) : List (Nat × Nat) :=
  (List.range nth).flatMap (fun ith => mnpack nth ith 0 m 0 n)

/-! ## cpu_backend/task_queue.cpp

Every access to `tasks` happens with `mutex` held and the flags are `seq_cst` atomics, so
the queue is modelled as a state machine whose steps are the critical sections and the
callback run, interleaved in any order. A callback is a function on a world `W` (whatever
the callbacks share). -/

/-- Where the consumer thread stands in the loop of `TaskQueue::processTasks`. -/
inductive Consumer (W : Type)
  | waiting
  | holding (task_id : Int) (task : W → W)
  | finished (task_id : Int)
  | exited

/-- The members of `class TaskQueue`, the position of the consumer thread, the world the
callbacks act on, and the ids of the callbacks that have returned, in order. -/
structure TaskQueue (W : Type) where
  tasks : List (Int × (W → W))
  sync_flags : List Bool
  exit_flag : Bool
  consumer : Consumer W
  world : W
  executed : List Int

/-- The constructor `TaskQueue::TaskQueue(max_task_num)`: every flag is stored `true`,
`exit_flag` is `false`, the queue is empty. -/
def TaskQueue.new {W : Type} (max_task_num : Int) (world : W) : TaskQueue W :=
  { tasks := []
    sync_flags := List.replicate max_task_num.toNat true
    exit_flag := false
    consumer := Consumer.waiting
    world := world
    executed := [] }

/-- The read `sync_flags.at(task_id).load()`; `none` where `at` throws. -/
def TaskQueue.flag {W : Type} (q : TaskQueue W) (task_id : Int) : Option Bool :=
  if 0 ≤ task_id then q.sync_flags[task_id.toNat]? else none

/-- The function `TaskQueue::enqueue(task_id, task)`: push, then store `false` into the
flag of `task_id`; `none` where `sync_flags.at(task_id)` throws. -/
def TaskQueue.enqueue {W : Type} (q : TaskQueue W) (task_id : Int) (task : W → W) :
    Option (TaskQueue W) :=
  let tasks := q.tasks ++ [(task_id, task)]
  if 0 ≤ task_id ∧ task_id.toNat < q.sync_flags.length then
    some { q with tasks := tasks, sync_flags := q.sync_flags.set task_id.toNat false }
  else none

/-- Whether `TaskQueue::sync(task_id)` leaves its loop in this state: it does as soon as it
loads `true` from the flag. -/
def TaskQueue.sync_returns {W : Type} (q : TaskQueue W) (task_id : Int) : Bool :=
  q.flag task_id == some true

/-- One step of the consumer thread in `TaskQueue::processTasks`: the first critical section
(wait, `front`, `pop`), the call `task()`, or the second critical section (store `true`);
where `sync_flags.at(task_id)` throws the thread function is left. -/
def TaskQueue.processTasks_step {W : Type} (q : TaskQueue W) : TaskQueue W :=
  match q.consumer with
  | Consumer.waiting =>
    match q.tasks with
    | [] => if q.exit_flag then { q with consumer := Consumer.exited } else q
    | (task_id, task) :: rest => { q with tasks := rest, consumer := Consumer.holding task_id task }
  | Consumer.holding task_id task =>
    { q with world := task q.world, executed := q.executed ++ [task_id],
             consumer := Consumer.finished task_id }
  | Consumer.finished task_id =>
    if 0 ≤ task_id ∧ task_id.toNat < q.sync_flags.length then
      { q with sync_flags := q.sync_flags.set task_id.toNat true, consumer := Consumer.waiting }
    else { q with consumer := Consumer.exited }
  | Consumer.exited => q

/-- What a schedule is made of: a producer's `enqueue`, or one step of the consumer. -/
inductive QueueAction (W : Type)
  | enqueue (task_id : Int) (task : W → W)
  | consumer

/-- Run a schedule; `none` if an `enqueue` throws. -/
def TaskQueue.run {W : Type} : TaskQueue W → List (QueueAction W) → Option (TaskQueue W)
  | q, [] => some q
  | q, QueueAction.enqueue task_id task :: rest =>
    match q.enqueue task_id task with
    | none => none
    | some q1 => TaskQueue.run q1 rest
  | q, QueueAction.consumer :: rest => TaskQueue.run q.processTasks_step rest

/-- The consumer alone for `n` steps. -/
def TaskQueue.drain {W : Type} : Nat → TaskQueue W → TaskQueue W
  | 0, q => q
  | n + 1, q => TaskQueue.drain n q.processTasks_step

/-- The ids passed to `enqueue` by a schedule, in order. -/
def enqueued_ids {W : Type} : List (QueueAction W) → List Int
  | [] => []
  | QueueAction.enqueue task_id _ :: rest => task_id :: enqueued_ids rest
  | QueueAction.consumer :: rest => enqueued_ids rest

/-- The ids in flight: the task the consumer has taken and not yet flagged done, followed by
the queued tasks. -/
def TaskQueue.in_flight {W : Type} (q : TaskQueue W) : List Int :=
  (match q.consumer with
    | Consumer.holding task_id _ => [task_id]
    | Consumer.finished task_id => [task_id]
    | _ => []) ++ q.tasks.map Prod.fst

/-- The ids whose callback has not returned yet: the task the consumer has taken and not yet
run, followed by the queued tasks. -/
def TaskQueue.not_yet_run {W : Type} (q : TaskQueue W) : List Int :=
  (match q.consumer with
    | Consumer.holding task_id _ => [task_id]
    | _ => []) ++ q.tasks.map Prod.fst

/-- Every id in flight is an index of `sync_flags`. -/
def TaskQueue.in_range {W : Type} (q : TaskQueue W) : Prop :=
  ∀ id, id ∈ q.in_flight → 0 ≤ id ∧ id.toNat < q.sync_flags.length

/-- The client obligation of the task queue: an id is passed to `enqueue` only while no task
with that id is in flight. -/
def ids_unique {W : Type} : TaskQueue W → List (QueueAction W) → Prop
  | _, [] => True
  | q, QueueAction.enqueue task_id task :: rest =>
    task_id ∉ q.in_flight ∧
      match q.enqueue task_id task with
      | none => True
      | some q1 => ids_unique q1 rest
  | q, QueueAction.consumer :: rest => ids_unique q.processTasks_step rest

/-- The schedule of the ordering scenario: enqueue `0..n-1`, the callback of task `i`
appending `i` to a shared list. -/
def append_schedule (n : Nat) : List (QueueAction (List Int)) :=
  (List.range n).map (fun (i : Nat) => QueueAction.enqueue (i : Int) (fun w => w ++ [(i : Int)]))

/-! ## operators/moe/moe.cpp: NUMA sharding (`numadist`) and gathering (`numamerge`)

A buffer is a map from byte offsets to byte values.  `ts` and `bs` stand for
`ggml_type_size(type)` and `ggml_blck_size(type)` of the external catalog. -/

/-- A byte buffer: the byte stored at each offset from its base pointer. -/
abbrev Buffer := Nat → Nat

/-- The call `memcpy(dst + doff, src + soff, len)`. -/
def memcpy (dst : Buffer) (doff : Nat) (src : Buffer) (soff len : Nat) : Buffer :=
  fun a => if doff ≤ a ∧ a < doff + len then src (soff + (a - doff)) else dst a

/-- The conversion of an `int` to `size_t` (64 bit). -/
def to_size_t (x : Int) : Nat := (x % 18446744073709551616).toNat

/-- The function `numadist` (moe.cpp lines 22-72): the shard written for every NUMA node.
`fresh i` is the content of the block `numa_alloc_onnode` returns for node `i`. -/
def numadist (numa_nodes : Nat) (src : Buffer) (fresh : Nat → Buffer)
    (strided_dim_size non_strided_dim_size ts bs expert_num : Nat) : List Buffer :=
  let half_stride := strided_dim_size / 2
  let expert_half_size := half_stride * non_strided_dim_size
  (List.range numa_nodes).map (fun inuma =>
    (List.range expert_num).foldl (fun (d : Buffer) iexpert =>
      memcpy d (iexpert * half_stride * non_strided_dim_size * ts / bs) src
        ((iexpert * strided_dim_size + inuma * half_stride) * non_strided_dim_size * ts / bs)
        (expert_half_size * ts / bs)) (fresh inuma))

/-- The function `numaget` (moe.cpp lines 74-92): the index `numa_node` into `base` and the
byte `offset` added to `base[numa_node]`. -/
def numaget (expert_id bias_stride strided_dim_size non_strided_dim_size ts bs : Nat) :
    Nat × Nat :=
  let half_stride := strided_dim_size / 2
  let numa_node := if bias_stride < half_stride then 0 else 1
  let bias_stride_ := bias_stride % half_stride
  let offset := (expert_id * half_stride + bias_stride_) * non_strided_dim_size * ts / bs
  (numa_node, offset)

/-- The task `ith` of `numamerge` (moe.cpp lines 580-607): one `memcpy` from the shard of
node `inuma` into the destination.  `get_slice` takes `int`s, its results go back into
`size_t` arithmetic. -/
def numamerge_task (iexpert : Nat) (src : List Buffer)
    (strided_dim_size non_strided_dim_size ts bs numa_nodes nth : Nat)
    (dst : Buffer) (ith : Nat) : Buffer :=
  let half_stride := strided_dim_size / 2
  let expert_half_size := half_stride * non_strided_dim_size
  let nth_on_node := nth / numa_nodes
  let inuma := ith * numa_nodes / nth
  let ith_on_node := ith % nth_on_node
  let slice := get_slice (wrap32 expert_half_size) (wrap32 nth_on_node) (wrap32 ith_on_node)
  let local_size := to_size_t slice.1
  let bias_size := to_size_t slice.2
  let src_off := iexpert * half_stride * non_strided_dim_size * ts / bs
  let dst_off := inuma * half_stride * non_strided_dim_size * ts / bs
  memcpy dst (dst_off + bias_size * ts / bs) (src.getD inuma (fun _ => 0))
    (src_off + bias_size * ts / bs) (local_size * ts / bs)

/-- The function `numamerge` (moe.cpp lines 568-608): the destination after the `nth` tasks
that `do_work_stealing_job(nth, …)` runs, each once. -/
def numamerge (iexpert : Nat) (src : List Buffer)
    (strided_dim_size non_strided_dim_size ts bs numa_nodes nth : Nat) (dst : Buffer) : Buffer :=
  (List.range nth).foldl
    (numamerge_task iexpert src strided_dim_size non_strided_dim_size ts bs numa_nodes nth) dst

/-- Expert `iexpert`'s block of the un-sharded matrix, as a buffer of its own. -/
def expert_block (src : Buffer) (iexpert strided_dim_size non_strided_dim_size ts bs : Nat) :
    Buffer :=
  fun a => src (iexpert * strided_dim_size * non_strided_dim_size * ts / bs + a)

/-! ## operators/moe/moe.cpp: the operand `B` of the gate and up products -/

/-- Modelled from the spec: `vec_dot_type` of the external type-traits table (`ggml_internal_get_type_traits`, not part
of this repository's sources).  §3 gives `vec_dot_type ∈ {F32, BF16, Q8_0}` and the
format table of §4.4 pairs `F32` with `F32`, `BF16` and `F8_E4M3` with `BF16`, `Q8_0` and
`Q4_0` with `Q8_0`, and `F16` with "F16 or F32". -/
def vec_dot_type : ggml_type → ggml_type
  | ggml_type.F32 => ggml_type.F32
  | ggml_type.F16 => ggml_type.F32
  | ggml_type.BF16 => ggml_type.BF16
  | ggml_type.F8_E4M3 => ggml_type.BF16
  | ggml_type.Q8_0 => ggml_type.Q8_0
  | ggml_type.Q4_0 => ggml_type.Q8_0

/-- The buffers a token's row can be read from as operand `B`. -/
inductive InputBuffer
  | input
  | s_gate_input_
  | m_gate_input_
  | m_up_input_
  deriving DecidableEq, Repr

/-- The operand `B` handed to one `llamafile_sgemm` call: the buffer the pointer points to,
the format of the data that was written there, and the `Btype` argument of the call. -/
structure OperandB where
  buffer : InputBuffer
  holds : ggml_type
  Btype : ggml_type
  deriving DecidableEq, Repr

/-- The pair `(gate_input_ptr, up_input_ptr)` of `MOE::forward_one` (moe.cpp lines 227-255)
with the formats written by `from_float`, and the `Btype` of the two calls (lines 281-315). -/
def forward_one_operands (cfg : MOEConfig) : OperandB × OperandB :=
  if cfg.hidden_type = vec_dot_type cfg.gate_type ∧ cfg.hidden_type = vec_dot_type cfg.up_type then
    (⟨InputBuffer.input, cfg.hidden_type, vec_dot_type cfg.gate_type⟩,
     ⟨InputBuffer.input, cfg.hidden_type, vec_dot_type cfg.up_type⟩)
  else
    let s_gate_input_type := vec_dot_type cfg.gate_type
    (⟨InputBuffer.s_gate_input_, s_gate_input_type, vec_dot_type cfg.gate_type⟩,
     ⟨InputBuffer.s_gate_input_, s_gate_input_type, vec_dot_type cfg.up_type⟩)

/-- The pair `(gate_input_ptr, up_input_ptr)` of the token pack of `MOE::forward_many`
(moe.cpp lines 405-432), which is copied into the expert queues read by the two calls
(lines 456-489), with the `Btype` of those calls. -/
def forward_many_operands (cfg : MOEConfig) : OperandB × OperandB :=
  if cfg.hidden_type = vec_dot_type cfg.gate_type ∧ cfg.hidden_type = vec_dot_type cfg.up_type then
    (⟨InputBuffer.input, cfg.hidden_type, vec_dot_type cfg.gate_type⟩,
     ⟨InputBuffer.input, cfg.hidden_type, vec_dot_type cfg.up_type⟩)
  else if vec_dot_type cfg.gate_type = vec_dot_type cfg.up_type then
    (⟨InputBuffer.m_gate_input_, vec_dot_type cfg.gate_type, vec_dot_type cfg.gate_type⟩,
     ⟨InputBuffer.m_gate_input_, vec_dot_type cfg.gate_type, vec_dot_type cfg.up_type⟩)
  else
    (if cfg.hidden_type ≠ vec_dot_type cfg.gate_type then
        ⟨InputBuffer.m_gate_input_, vec_dot_type cfg.gate_type, vec_dot_type cfg.gate_type⟩
      else ⟨InputBuffer.input, cfg.hidden_type, vec_dot_type cfg.gate_type⟩,
     if cfg.hidden_type ≠ vec_dot_type cfg.up_type then
        ⟨InputBuffer.m_up_input_, vec_dot_type cfg.up_type, vec_dot_type cfg.up_type⟩
      else ⟨InputBuffer.input, cfg.hidden_type, vec_dot_type cfg.up_type⟩)

/-- A configuration whose gate and up formats have different `vec_dot_type`s: `BF16` rows,
`Q8_0` gate weights, `BF16` up and down weights. -/
def cfg_mixed : MOEConfig :=
  { expert_num := 1, routed_expert_num := 1, hidden_size := 128, intermediate_size := 128,
    group_min_len := 1, group_max_len := 4,
    hidden_type := ggml_type.BF16, gate_type := ggml_type.Q8_0, up_type := ggml_type.BF16,
    down_type := ggml_type.BF16 }

/-- The destructor `Backend::~Backend` (backend.cpp lines 79-83): the owner of the pool stores
`EXIT` into the status of every worker (and then joins the threads). -/
def Backend.destroy (b : Backend) : Backend :=
  let ts := (List.range b.max_thread_num_.toNat).foldl
    (fun ts i => store_status ts i ThreadStatus.EXIT) b.thread_state_
  { b with thread_state_ := ts }

/-! ## operators/moe/llamafile/tinyblas_cpu.h: expansion of `F8_E4M3` to `BF16`

The AVX-512 intrinsics act on 32 lanes of 16 bits independently, so the function is given
for one lane; a lane is a natural number below `2^16`. -/

/-- One lane of `_mm512_slli_epi16(x, n)`: shift left inside 16 bits. -/
def slli_epi16 (x n : Nat) : Nat := (x <<< n) % 65536

/-- One lane of `_mm512_add_epi16(x, y)`: addition inside 16 bits. -/
def add_epi16 (x y : Nat) : Nat := (x + y) % 65536

/-- One lane of the constant `sign_mask = _mm512_set1_epi16(0b10000000)`. -/
def sign_mask : Nat := 0b10000000

/-- One lane of the constant `e_m_mask = _mm512_set1_epi16(0b01111111)`. -/
def e_m_mask : Nat := 0b01111111

/-- One lane of the constant `exponent_bias = _mm512_set1_epi16((127 - 7) << 7)`. -/
def exponent_bias : Nat := ((127 - 7) <<< 7) % 65536

/-- One lane of `load<__m512bh>(const ggml_f8_e4m3_t* p)` (tinyblas_cpu.h lines 325-350) for the
input byte `b`: zero extension, the two masks, the two shifts, the bias and the final `or`. -/
def load_f8_e4m3_lane (b : Nat) : Nat :=
  let fp8_16 := b % 256
  let sign := fp8_16 &&& sign_mask
  let e_m := fp8_16 &&& e_m_mask
  let sign := slli_epi16 sign 8
  let e_m := slli_epi16 e_m 4
  let e_m := add_epi16 e_m exponent_bias
  sign ||| e_m

/-- The function `load<__m512bh>(const ggml_f8_e4m3_t* p)` on the 32 bytes at `p`. -/
def load_f8_e4m3 (p : List Nat) : List Nat := p.map load_f8_e4m3_lane

/-- The sign bit of a 16-bit `BF16` pattern. -/
def bf16_sign (x : Nat) : Nat := (x >>> 15) &&& 1

/-- The 8-bit exponent field of a 16-bit `BF16` pattern. -/
def bf16_exponent (x : Nat) : Nat := (x >>> 7) &&& 0xff

/-- The 7-bit mantissa field of a 16-bit `BF16` pattern. -/
def bf16_mantissa (x : Nat) : Nat := x &&& 0x7f

/-- Modelled from the spec: the number a `BF16` pattern with a normal exponent field (1..254)
stands for; `ggml_bf16_t` belongs to the external catalog, whose layout (1 sign bit, 8
exponent bits with bias 127, 7 mantissa bits) the spec refers to in §4.4.1 and §8. -/
def bf16_value (x : Nat) : ℚ :=
  (-1 : ℚ) ^ bf16_sign x * (2 : ℚ) ^ ((bf16_exponent x : Int) - 127)
    * (1 + (bf16_mantissa x : ℚ) / 128)

/-! ## operators/moe/moe.cpp: the bucket build of `forward_many` (lines 385-392) -/

/-- Modelled from the spec: the members `m_local_num_` and `m_local_pos_` of `MOE` are declared in
`moe.h`, not part of this repository's sources; §3 and §4.6 describe them as a count per
expert and a position per (token, slot), modelled as vectors of naturals. -/
structure Buckets where
  m_local_num_ : List Nat
  m_local_pos_ : List (List Nat)
  deriving DecidableEq, Repr

/-- The element `m_local_num_[e]`. -/
def Buckets.num (st : Buckets) (e : Nat) : Nat := st.m_local_num_.getD e 0

/-- The element `m_local_pos_[i][j]`. -/
def Buckets.pos (st : Buckets) (i j : Nat) : Nat := (st.m_local_pos_.getD i []).getD j 0

/-- The statement `m_local_pos_[i][j] = m_local_num_[expert_ids[i * k + j]]++` (line 390). -/
def bucket_step (k : Nat) (expert_ids : Nat → Nat) (st : Buckets) (i j : Nat) : Buckets :=
  let e := expert_ids (i * k + j)
  let old := st.m_local_num_.getD e 0
  { m_local_num_ := st.m_local_num_.set e (old + 1),
    m_local_pos_ := st.m_local_pos_.set i ((st.m_local_pos_.getD i []).set j old) }

/-- The first two loops of `forward_many` (moe.cpp lines 385-392): zero the `expert_num`
counts, then visit the pairs `(i, j)` with `i < qlen`, `j < k` in row-major order. -/
def forward_many_buckets (expert_num qlen k : Int) (expert_ids : Nat → Nat) (st : Buckets) :
    Buckets :=
  let num := (List.range expert_num.toNat).foldl (fun (num : List Nat) i => num.set i 0)
    st.m_local_num_
  (List.range qlen.toNat).foldl (fun st i =>
      (List.range k.toNat).foldl (fun st j => bucket_step k.toNat expert_ids st i j) st)
    { m_local_num_ := num, m_local_pos_ := st.m_local_pos_ }

/-- The pairs `(i, j)` with `i < qlen`, `j < k` in row-major order. -/
def token_slots (qlen k : Nat) : List (Nat × Nat) :=
  (List.range qlen).flatMap (fun i => (List.range k).map (fun j => (i, j)))

/-- The pairs of `token_slots qlen k` routed to expert `e`, in row-major order. -/
def routed_to (qlen k : Nat) (expert_ids : Nat → Nat) (e : Nat) : List (Nat × Nat) :=
  (token_slots qlen k).filter (fun p => decide (expert_ids (p.1 * k + p.2) = e))

/-- A routing of 2 tokens to 2 of 3 experts each: token 0 to experts 1 and 2, token 1 to
expert 1 twice. -/
def expert_ids_example : Nat → Nat := fun n => [1, 2, 1, 1].getD n 0

/-- A bucket state left by an earlier call: 3 counts and 2 rows of 2 positions. -/
def buckets_example : Buckets :=
  { m_local_num_ := [7, 7, 7], m_local_pos_ := [[9, 9], [9, 9]] }

/-! ## operators/moe/llamafile/sgemm.cpp: format dispatch of `llamafile_sgemm` -/

/-- The preprocessor symbols that select the branches of `llamafile_sgemm_impl`. -/
structure Target where
  AVX512F : Bool
  AVX512BF16 : Bool
  AVX : Bool
  AVX2 : Bool
  F16C : Bool
  FLAG_PRECISE : Bool
  deriving DecidableEq, Repr

/-- The three kinds of `return` statement in `llamafile_sgemm_impl`: `return true` after
`tb.matmul`, `return WANT_QUANTIZATION` and `return NOT_SUPPORTED`. -/
inductive Outcome
  | proceeded
  | WANT_QUANTIZATION
  | NOT_SUPPORTED
  deriving DecidableEq, Repr

/-- The value each `return` statement returns: `true`, and the expansions of the macros
`WANT_QUANTIZATION` and `NOT_SUPPORTED` (tinyblas_cpu.h lines 81-86), both `false`. -/
def Outcome.value : Outcome → Bool
  | Outcome.proceeded => true
  | Outcome.WANT_QUANTIZATION => false
  | Outcome.NOT_SUPPORTED => false

/-- The `case GGML_TYPE_BF16` block of `llamafile_sgemm_impl` (sgemm.cpp lines 61-116).
A type argument is an `int`; `none` stands for a tag other than the six formats. -/
def sgemm_case_BF16 (tg : Target) (n k : Int) (Btype : Option ggml_type) : Outcome :=
  if tg.AVX512BF16 then
    if Int.tmod k 32 ≠ 0 then Outcome.NOT_SUPPORTED
    else if Btype = some ggml_type.F32 ∧ n < 2 then Outcome.proceeded
    else if Btype = some ggml_type.F32 then Outcome.WANT_QUANTIZATION
    else if Btype ≠ some ggml_type.BF16 then Outcome.NOT_SUPPORTED
    else Outcome.proceeded
  else if tg.AVX512F then
    if Int.tmod k 16 ≠ 0 then Outcome.NOT_SUPPORTED else Outcome.proceeded
  else if tg.AVX2 then
    if Int.tmod k 8 ≠ 0 then Outcome.NOT_SUPPORTED
    else if Btype ≠ some ggml_type.F32 then Outcome.NOT_SUPPORTED
    else Outcome.proceeded
  else Outcome.NOT_SUPPORTED

/-- The body shared by the two variants of `case GGML_TYPE_F16` (sgemm.cpp lines 119-169),
with the vector width `w` (16 or 8). -/
def sgemm_case_F16_body (w : Int) (n k : Int) (Btype : Option ggml_type) : Outcome :=
  if Int.tmod k w ≠ 0 then Outcome.NOT_SUPPORTED
  else if Btype = some ggml_type.F32 ∧ n < 2 then Outcome.proceeded
  else if Btype = some ggml_type.F32 then Outcome.WANT_QUANTIZATION
  else if Btype ≠ some ggml_type.F16 then Outcome.NOT_SUPPORTED
  else Outcome.proceeded

/-- The body of `case GGML_TYPE_Q8_0` and of `case GGML_TYPE_Q4_0` (sgemm.cpp lines 172-200). -/
def sgemm_case_Q0 (tg : Target) (Btype : Option ggml_type) : Outcome :=
  if Btype = some ggml_type.F32 then Outcome.WANT_QUANTIZATION
  else if Btype ≠ some ggml_type.Q8_0 then Outcome.NOT_SUPPORTED
  else if tg.AVX2 ∨ tg.AVX512F then Outcome.proceeded
  else Outcome.NOT_SUPPORTED

/-- The `return` statement that `llamafile_sgemm_impl` (sgemm.cpp lines 12-207) reaches.  With
`__AVX512BF16__` and `FLAG_PRECISE` the `F8_E4M3` case has no `return` of its own and runs
into the `BF16` case. -/
def llamafile_sgemm_impl_outcome (tg : Target) (n k : Int) (Atype Btype : Option ggml_type) :
    Outcome :=
  match Atype with
  | some ggml_type.F32 =>
    if Btype ≠ some ggml_type.F32 then Outcome.NOT_SUPPORTED
    else if tg.AVX512F then
      if Int.tmod k 16 ≠ 0 then Outcome.NOT_SUPPORTED else Outcome.proceeded
    else if tg.AVX ∨ tg.AVX2 then
      if Int.tmod k 8 ≠ 0 then Outcome.NOT_SUPPORTED else Outcome.proceeded
    else Outcome.NOT_SUPPORTED
  | some ggml_type.F8_E4M3 =>
    if tg.AVX512BF16 then
      if Int.tmod k 32 ≠ 0 then Outcome.NOT_SUPPORTED
      else if Btype ≠ some ggml_type.BF16 then Outcome.NOT_SUPPORTED
      else if !tg.FLAG_PRECISE then Outcome.proceeded
      else sgemm_case_BF16 tg n k Btype
    else Outcome.NOT_SUPPORTED
  | some ggml_type.BF16 => sgemm_case_BF16 tg n k Btype
  | some ggml_type.F16 =>
    if tg.AVX512F then sgemm_case_F16_body 16 n k Btype
    else if (tg.AVX ∨ tg.AVX2) ∧ tg.F16C then sgemm_case_F16_body 8 n k Btype
    else Outcome.NOT_SUPPORTED
  | some ggml_type.Q8_0 => sgemm_case_Q0 tg Btype
  | some ggml_type.Q4_0 => sgemm_case_Q0 tg Btype
  | none => Outcome.NOT_SUPPORTED

/-- The function `llamafile_sgemm_impl`: what it returns. -/
def llamafile_sgemm_impl (tg : Target) (n k : Int) (Atype Btype : Option ggml_type) : Bool :=
  (llamafile_sgemm_impl_outcome tg n k Atype Btype).value

/-- The function `llamafile_sgemm` (sgemm.cpp lines 258-299) for arguments that pass its
`assert`s: `iqk` is the result of the external `iqk_mul_mat` (`false` where the call is
compiled out), tried first when `Ctype` is `F32`. -/
def llamafile_sgemm (tg : Target) (iqk : Bool) (n k : Int)
    (Atype Btype Ctype : Option ggml_type) : Bool :=
  if Ctype = some ggml_type.F32 ∧ iqk then true
  else
    match Ctype with
    | some ggml_type.F32 => llamafile_sgemm_impl tg n k Atype Btype
    | _ => Outcome.NOT_SUPPORTED.value

/-- A target with AVX-512 and its BF16 extension, built without `FLAG_PRECISE`. -/
def target_avx512bf16 : Target :=
  { AVX512F := true, AVX512BF16 := true, AVX := true, AVX2 := true, F16C := true,
    FLAG_PRECISE := false }

/-! ## operators/moe/moe.cpp: the gate, up and activation step of both paths

The `float` scratch arrays are maps from element offsets to values of a type `F`; `act_fn`
and the product of two `float`s are parameters.  `blck` stands for `ggml_blck_size` of the
external catalog.  A `llamafile_sgemm` call that is serviced stores into its operand `C`
what its kernel computes (`kernel`, a parameter); a call that returns `false` has returned
before any kernel was built, so it stores nothing. -/

/-- A `float` array: the value at each element offset. -/
abbrev FloatArray (F : Type) := Int → F

/-- The assignment `m[a] = v`. -/
def fstore {F : Type} (m : FloatArray F) (a : Int) (v : F) : FloatArray F :=
  fun x => if x = a then v else m x

/-- The array `rows[e]` replaced by `row`. -/
def set_row {F : Type} (rows : Int → FloatArray F) (e : Int) (row : FloatArray F) :
    Int → FloatArray F :=
  fun x => if x = e then row else rows x

/-- What a `llamafile_sgemm` call leaves in the array holding its operand `C`. -/
def sgemm_effect {F : Type} (serviced : Bool) (kernel : FloatArray F → FloatArray F)
    (C : FloatArray F) : FloatArray F :=
  if serviced then kernel C else C

/-- The single-token scratch the gate, up and activation step works on. -/
structure OneScratch (F : Type) where
  s_gate_output_ : Int → FloatArray F
  s_up_output_ : Int → FloatArray F
  s_intermediate_fp32_ : Int → FloatArray F

/-- The gate product, up product and activation loop of a task of `forward_one`'s first
dispatch (moe.cpp lines 258-321).  The result of neither `llamafile_sgemm` call is used. -/
def forward_one_gate_up_act {F : Type} (cfg : MOEConfig) (blck : ggml_type → Int)
    (tg : Target) (iqk_gate iqk_up : Bool) (act_fn : F → F) (mul : F → F → F)
    (gate_kernel up_kernel : FloatArray F → FloatArray F) (nth k task_id : Int)
    (s : OneScratch F) : OneScratch F :=
  let expert_idx := Int.tmod task_id k
  let ith := Int.tdiv task_id k
  let slice := get_slice cfg.intermediate_size nth ith
  let local_stride := slice.1
  let bias_stride := slice.2
  let gate := sgemm_effect
    (llamafile_sgemm tg iqk_gate 1 (Int.tdiv cfg.hidden_size (blck cfg.gate_type))
      (some cfg.gate_type) (some (vec_dot_type cfg.gate_type)) (some ggml_type.F32))
    gate_kernel (s.s_gate_output_ expert_idx)
  let up := sgemm_effect
    (llamafile_sgemm tg iqk_up 1 (Int.tdiv cfg.hidden_size (blck cfg.up_type))
      (some cfg.up_type) (some (vec_dot_type cfg.up_type)) (some ggml_type.F32))
    up_kernel (s.s_up_output_ expert_idx)
  let interm := (interval bias_stride (bias_stride + local_stride)).foldl
    (fun (m : FloatArray F) i => fstore m i (mul (act_fn (gate i)) (up i)))
    (s.s_intermediate_fp32_ expert_idx)
  { s_gate_output_ := set_row s.s_gate_output_ expert_idx gate,
    s_up_output_ := set_row s.s_up_output_ expert_idx up,
    s_intermediate_fp32_ := set_row s.s_intermediate_fp32_ expert_idx interm }

/-- The batched scratch the gate, up and activation step works on, per expert (the arrays
the `m_local_*_ptr_[expert_idx]` point to). -/
structure ManyScratch (F : Type) where
  m_local_gate_output_ptr_ : Int → FloatArray F
  m_local_up_output_ptr_ : Int → FloatArray F
  m_local_intermediate_fp32_ptr_ : Int → FloatArray F

/-- The three arrays of expert `e`. -/
def ManyScratch.row {F : Type} (s : ManyScratch F) (e : Int) :
    FloatArray F × FloatArray F × FloatArray F :=
  (s.m_local_gate_output_ptr_ e, s.m_local_up_output_ptr_ e,
    s.m_local_intermediate_fp32_ptr_ e)

/-- One iteration of the expert loop of `forward_many`'s gate, up and activation task
(moe.cpp lines 441-494).  The result of neither `llamafile_sgemm` call is used. -/
def forward_many_gate_up_act_expert {F : Type} (cfg : MOEConfig) (blck : ggml_type → Int)
    (tg : Target) (iqk_gate iqk_up : Int → Bool) (act_fn : F → F) (mul : F → F → F)
    (gate_kernel up_kernel : Int → FloatArray F → FloatArray F) (m_local_num_ : List Nat)
    (local_stride bias_stride : Int) (s : ManyScratch F) (expert_idx : Int) :
    ManyScratch F :=
  let num : Int := ((m_local_num_.getD expert_idx.toNat 0 : Nat) : Int)
  let gate := sgemm_effect
    (llamafile_sgemm tg (iqk_gate expert_idx) num
      (Int.tdiv cfg.hidden_size (blck cfg.gate_type))
      (some cfg.gate_type) (some (vec_dot_type cfg.gate_type)) (some ggml_type.F32))
    (gate_kernel expert_idx) (s.m_local_gate_output_ptr_ expert_idx)
  let up := sgemm_effect
    (llamafile_sgemm tg (iqk_up expert_idx) num
      (Int.tdiv cfg.hidden_size (blck cfg.up_type))
      (some cfg.up_type) (some (vec_dot_type cfg.up_type)) (some ggml_type.F32))
    (up_kernel expert_idx) (s.m_local_up_output_ptr_ expert_idx)
  let interm := (interval 0 num).foldl
    (fun (m : FloatArray F) i =>
      (interval bias_stride (bias_stride + local_stride)).foldl
        (fun (m : FloatArray F) j =>
          fstore m (i * cfg.intermediate_size + j)
            (mul (act_fn (gate (i * cfg.intermediate_size + j)))
              (up (i * cfg.intermediate_size + j)))) m)
    (s.m_local_intermediate_fp32_ptr_ expert_idx)
  { m_local_gate_output_ptr_ := set_row s.m_local_gate_output_ptr_ expert_idx gate,
    m_local_up_output_ptr_ := set_row s.m_local_up_output_ptr_ expert_idx up,
    m_local_intermediate_fp32_ptr_ :=
      set_row s.m_local_intermediate_fp32_ptr_ expert_idx interm }

/-- The gate, up and activation task `task_id` of `forward_many` (moe.cpp lines 436-496). -/
def forward_many_gate_up_act {F : Type} (cfg : MOEConfig) (blck : ggml_type → Int)
    (tg : Target) (iqk_gate iqk_up : Int → Bool) (act_fn : F → F) (mul : F → F → F)
    (gate_kernel up_kernel : Int → FloatArray F → FloatArray F) (m_local_num_ : List Nat)
    (nth task_id : Int) (s : ManyScratch F) : ManyScratch F :=
  let ith := task_id
  let slice := get_slice cfg.intermediate_size nth ith
  (interval 0 cfg.expert_num).foldl
    (forward_many_gate_up_act_expert cfg blck tg iqk_gate iqk_up act_fn mul gate_kernel
      up_kernel m_local_num_ slice.1 slice.2) s

/-- A `float` value kept symbolic: what a scratch cell held before the step (`stale a c`,
array `a`, cell `c`), what a kernel stored, or the result of an operation on such values. -/
inductive FloatTerm
  | stale (array : Nat) (cell : Int)
  | product (array : Nat) (cell : Int)
  | act_fn (x : FloatTerm)
  | times (x y : FloatTerm)
  deriving DecidableEq, Repr

/-- A build for a target that has AVX only: `__AVX2__` is not defined, so the `iqk_mul_mat`
call of `llamafile_sgemm` is compiled out. -/
def target_avx : Target :=
  { AVX512F := false, AVX512BF16 := false, AVX := true, AVX2 := false, F16C := false,
    FLAG_PRECISE := false }

/-- A configuration of 4 experts, 2 per token, sizes 128, all four formats `BF16`. -/
def cfg_bf16 : MOEConfig :=
  { expert_num := 4, routed_expert_num := 2, hidden_size := 128, intermediate_size := 128,
    group_min_len := 2, group_max_len := 4, hidden_type := ggml_type.BF16,
    gate_type := ggml_type.BF16, up_type := ggml_type.BF16, down_type := ggml_type.BF16 }

/-- Single-token scratch whose cells hold distinct stale values. -/
def one_scratch_stale : OneScratch FloatTerm :=
  { s_gate_output_ := fun _ c => FloatTerm.stale 0 c,
    s_up_output_ := fun _ c => FloatTerm.stale 1 c,
    s_intermediate_fp32_ := fun _ c => FloatTerm.stale 2 c }

/-- Batched scratch whose cells hold distinct stale values. -/
def many_scratch_stale : ManyScratch FloatTerm :=
  { m_local_gate_output_ptr_ := fun _ c => FloatTerm.stale 0 c,
    m_local_up_output_ptr_ := fun _ c => FloatTerm.stale 1 c,
    m_local_intermediate_fp32_ptr_ := fun _ c => FloatTerm.stale 2 c }

/-! ## operators/moe/moe.cpp: what a `forward` call dispatches and whether it ends in `exit(1)`

Only the process-level behaviour is kept: the `task_num` of each
`backend->do_work_stealing_job(task_num, …)` in program order, and the one `exit(1)` of the
file (moe.cpp line 222).  `thread_num` is `backend->get_thread_num()`. -/

/-- The object that `MOE::MOE(MOEConfig config)` (moe.cpp lines 104-178) builds.  The
constructor stores `config`, requests scratch memory and resizes vectors; no statement of it
tests a field of `config`, returns early, throws or exits.  Only `config_` is kept. -/
structure MOE where
  config_ : MOEConfig
  deriving DecidableEq, Repr

/-- The constructor `MOE::MOE(MOEConfig config)`. -/
def MOE.new (config : MOEConfig) : MOE := { config_ := config }

/-- The dispatches of a run in program order, and whether the run ended in `exit(1)`. -/
structure Run where
  dispatches : List Int
  exited : Bool
  deriving DecidableEq, Repr

/-- The function `MOE::forward_one` (moe.cpp lines 212-382): under `USE_NUMA` the test
`thread_num % (2 * k) != 0` leads to `exit(1)` before the first dispatch; else it dispatches
`nth * k` tasks with `nth = max(1, thread_num / k)`, then `thread_num` tasks. -/
def forward_one_run (USE_NUMA : Bool) (thread_num k : Int) : Run :=
  if USE_NUMA = true ∧ Int.tmod thread_num (2 * k) ≠ 0 then
    { dispatches := [], exited := true }
  else
    let nth := max 1 (Int.tdiv thread_num k)
    { dispatches := [nth * k, thread_num], exited := false }

/-- The function `MOE::forward_many` (moe.cpp lines 384-553): five dispatches, of `qlen`,
`nth`, `nth`, `nth` and `qlen` tasks with `nth = thread_num`, in both compile variants. -/
def forward_many_run (thread_num qlen : Int) : Run :=
  let nth := thread_num
  { dispatches := [qlen, nth, nth, nth, qlen], exited := false }

/-- The run of one call of `forward`. -/
def call_run (USE_NUMA : Bool) (thread_num : Int) : MoeCall → Run
  | MoeCall.forward_one k _ _ _ _ => forward_one_run USE_NUMA thread_num k
  | MoeCall.forward_many qlen _ _ _ _ _ => forward_many_run thread_num qlen

/-- The run of a sequence of calls: a call that exits ends the run. -/
def run_calls (USE_NUMA : Bool) (thread_num : Int) : List MoeCall → Run
  | [] => { dispatches := [], exited := false }
  | c :: cs =>
    if (call_run USE_NUMA thread_num c).exited then call_run USE_NUMA thread_num c
    else
      { dispatches := (call_run USE_NUMA thread_num c).dispatches
          ++ (run_calls USE_NUMA thread_num cs).dispatches,
        exited := (run_calls USE_NUMA thread_num cs).exited }

/-- The run of `moe.forward(qlen, k, …)`; `none` when the recursion of `forward` is deeper
than `fuel`. -/
def MOE.forward_run (moe : MOE) (USE_NUMA : Bool) (thread_num ts bs : Int) (fuel : Nat)
    (qlen k : Int) : Option Run :=
  (forward moe.config_ ts bs fuel qlen k 0 0 0 0).map (run_calls USE_NUMA thread_num)

/-- A configuration whose sizes are not multiples of 128. -/
def cfg_invalid : MOEConfig :=
  { expert_num := 4, routed_expert_num := 2, hidden_size := 100, intermediate_size := 100,
    group_min_len := 2, group_max_len := 4, hidden_type := ggml_type.F32,
    gate_type := ggml_type.F32, up_type := ggml_type.F32, down_type := ggml_type.F32 }

/-- Whether a call of `forward` is a `forward_one` call. -/
def MoeCall.is_forward_one : MoeCall → Bool
  | MoeCall.forward_one _ _ _ _ _ => true
  | MoeCall.forward_many _ _ _ _ _ _ => false

/-- The third loop of `forward_many` (moe.cpp lines 393-403): the value of `offset` with
which the seven pointers of expert `i` are formed (`m_local_gate_output_ptr_[i] =
m_local_gate_output_ + offset * intermediate_size`, and likewise for the others), for
`i = 0, …, expert_num - 1`, and the final value of `offset`. -/
def forward_many_offsets (expert_num : Int) (m_local_num_ : List Nat) : List Nat × Nat :=
  (List.range expert_num.toNat).foldl
    (fun (acc : List Nat × Nat) i => (acc.1 ++ [acc.2], acc.2 + m_local_num_.getD i 0))
    ([], 0)

/-! ## operators/moe/llamafile/tinyblas_cpu.h: the `F8_E4M3` kernel (lines 619-825)

The `long` and `int` quantities `m`, `bias_m`, `l`, `r`, `m0`, `ii`, `lda` are natural
numbers here: `llamafile_sgemm` asserts `m >= 0`, and `bias_m` is the `bias_stride` of a
slice.  On naturals `/` and `%` agree with the truncating operators of C++. -/

/-- The constant `BLOCK_SIZE` (tinyblas_cpu.h line 619). -/
def BLOCK_SIZE : Nat := 128

/-- The `while (l < m)` loop of `matmul(m, n, task)` (tinyblas_cpu.h lines 633-643), started
at `l`: the row ranges `(l, r)` of its calls `mnpack(l, r, 0, n)` in order; `none` when the
loop makes more than `fuel` iterations. -/
def f8_matmul_ranges (bias_m m : Nat) : Nat → Nat → Option (List (Nat × Nat))
  | 0, l => if l < m then none else some []
  | fuel + 1, l =>
    if l < m then
      let r := min (((l + bias_m) / BLOCK_SIZE + 1) * BLOCK_SIZE - bias_m) m
      (f8_matmul_ranges bias_m m fuel r).map (fun rest => (l, r) :: rest)
    else some []

/-- The member `last_block_offset`, set by the constructor to `bias_m % BLOCK_SIZE`. -/
def last_block_offset (bias_m : Nat) : Nat := bias_m % BLOCK_SIZE

/-- The index into the scale array `S` that `gemv` (with `row = m0`, line 749) and `gemm`
(with `row = ii`, line 786) use for the 128-column chunk starting at column `ll`:
`(lda / 128) * ((row + last_block_offset) / 128) + ll / 128`. -/
def f8_scale_index (lda bias_m row ll : Nat) : Nat :=
  (lda / 128) * ((row + last_block_offset bias_m) / 128) + ll / 128

/-- The element offset of the scale pointer the orchestrator passes as `S` (moe.cpp lines
274-277 and the five sibling sites):
`(expert_id * strided_size / 128 + bias_stride / 128) * non_strided_size / 128`. -/
def inv_ptr_offset (expert_id strided_size bias_stride non_strided_size : Nat) : Nat :=
  (expert_id * strided_size / 128 + bias_stride / 128) * non_strided_size / 128

/-- A kernel call made by the `F8_E4M3` `mnpack`: `gemv<TILESZ>(m0, m, n0)` or
`gemm<RM, RN, false>(m0, m, n0, n)`. -/
inductive F8Call
  | gemv (TILESZ m0 m n0 : Nat)
  | gemm (RM RN m0 m n0 n : Nat)
  deriving DecidableEq, Repr

/-- The function `gemv<TILESZ>(m0, m, n0)` (tinyblas_cpu.h lines 742-764): the cells
`(row, column)` of `C` it stores in program order.  The outer loop
`for (ii = m0; ii + TILESZ - 1 < m; ii += TILESZ)` runs `(m - m0) / TILESZ` times, the inner
loop stores `INDEX(C, ldc, n0, ii + i)` for `i < TILESZ`. -/
def f8_gemv (TILESZ m0 m n0 : Nat) : List (Nat × Nat) :=
  (List.range ((m - m0) / TILESZ)).flatMap (fun t =>
    (List.range TILESZ).map (fun i => (m0 + t * TILESZ + i, n0)))

/-- The `switch (MIN(m - m0, 10))` of the `n - n0 == 1` branch of the `F8_E4M3` `mnpack`
(lines 653-676): the tile height `mc` chosen for a key, `none` for `default: return`. -/
def f8_gemv_switch (key : Nat) : Option Nat :=
  match key with
  | 10 => some 10
  | 9 | 8 | 7 | 6 | 5 | 4 | 3 | 2 => some 2
  | 1 => some 1
  | _ => none

/-- A check of that switch against `a = MIN(m - m0, 10)`: no tile is chosen only for
`a = 0`, and a chosen tile height is between 1 and `a`. -/
def f8_gemv_switch_fits (a : Nat) : Bool :=
  match f8_gemv_switch a with
  | none => decide (a = 0)
  | some mc => decide (1 ≤ mc ∧ mc ≤ a)

/-- The `F8_E4M3` `mnpack(m0, m, n0, n)` (tinyblas_cpu.h lines 646-740, `VECTOR_REGISTERS ==
32`): the kernel calls it makes, itself and through its two recursive calls, in program
order.  The `else` branch has the switch table of the generic `mnpack`. -/
def f8_mnpack (m0 m n0 n : Nat) : List F8Call :=
  if hn : n - n0 = 1 then
    match h : f8_gemv_switch (min (m - m0) 10) with
    | none => []
    | some mc =>
      let nc := 1
      let mp := m0 + (m - m0) / mc * mc
      let np := n0 + (n - n0) / nc * nc
      F8Call.gemv mc m0 m n0 :: (f8_mnpack mp m n0 np ++ f8_mnpack m0 m np n)
  else
    match h : mnpack_tile (mnpack_key m0 m n0 n) with
    | none => []
    | some (mc, nc) =>
      let mp := m0 + (m - m0) / mc * mc
      let np := n0 + (n - n0) / nc * nc
      F8Call.gemm mc nc m0 m n0 n :: (f8_mnpack mp m n0 np ++ f8_mnpack m0 m np n)
termination_by (m - m0) + (n - n0)
decreasing_by
  · have key : ∀ a, a < 11 → f8_gemv_switch_fits a = true := by decide
    have hk := key (min (m - m0) 10) (by omega)
    unfold f8_gemv_switch_fits at hk
    rw [h] at hk
    simp only [decide_eq_true_eq] at hk
    obtain ⟨h1, h2⟩ := hk
    have hm : mc ≤ m - m0 := le_trans h2 (min_le_left _ _)
    have hq1 : mc ≤ (m - m0) / mc * mc := by
      have := Nat.div_pos hm (by omega)
      nlinarith
    have hq2 : (m - m0) / mc * mc ≤ m - m0 := Nat.div_mul_le_self _ _
    simp only [Nat.div_one, Nat.mul_one]
    omega
  · simp only [Nat.div_one, Nat.mul_one]
    omega
  all_goals
    have key : ∀ a, a < 6 → ∀ b, b < 6 → mnpack_tile_fits a b = true := by decide
    have hk := key (min (m - m0) 5) (by omega) (min (n - n0) 5) (by omega)
    unfold mnpack_key at h
    unfold mnpack_tile_fits at hk
    rw [h] at hk
    simp only [decide_eq_true_eq] at hk
    obtain ⟨h1, h2, h3, h4, -, -⟩ := hk
    have hm : mc ≤ m - m0 := le_trans h2 (min_le_left _ _)
    have hn1 : nc ≤ n - n0 := le_trans h4 (min_le_left _ _)
    have hq1 : mc ≤ (m - m0) / mc * mc := by
      have := Nat.div_pos hm (by omega)
      nlinarith
    have hq2 : (m - m0) / mc * mc ≤ m - m0 := Nat.div_mul_le_self _ _
    have hq3 : nc ≤ (n - n0) / nc * nc := by
      have := Nat.div_pos hn1 (by omega)
      nlinarith
    have hq4 : (n - n0) / nc * nc ≤ n - n0 := Nat.div_mul_le_self _ _
    omega

/-- The cells of `C` stored by a kernel call of the `F8_E4M3` `mnpack` on thread `ith` of
`nth` (`gemv` does not look at `ith` and `nth`). -/
def F8Call.cells (nth ith : Nat) : F8Call → List (Nat × Nat)
  | F8Call.gemv TILESZ m0 m n0 => f8_gemv TILESZ m0 m n0
  | F8Call.gemm RM RN m0 m n0 n => heyi.gemm RM RN nth ith m0 m n0 n

/-! ## operators/moe/moe.cpp: the tasks of `forward_one`'s first dispatch -/

/-- The number `nth = std::max(1, thread_num / k)` of stripes per expert (moe.cpp line
225); `forward_one` dispatches `nth * k` tasks. -/
def forward_one_nth (thread_num k : Int) : Int := max 1 (Int.tdiv thread_num k)

/-- The elements `s_intermediate_fp32_[expert_idx][i]` that task `task_id` of `forward_one`
writes (moe.cpp lines 260-266 and 319-321), as pairs `(expert_idx, i)` in program order:
`expert_idx = task_id % k`, `ith = task_id / k`, `i` over the slice
`get_slice(intermediate_size, nth, ith)`. -/
def forward_one_act_cells (intermediate_size nth k task_id : Int) : List (Int × Int) :=
  let expert_idx := Int.tmod task_id k
  let ith := Int.tdiv task_id k
  let slice := get_slice intermediate_size nth ith
  (interval slice.2 (slice.2 + slice.1)).map (fun i => (expert_idx, i))

/-! ## operators/moe/moe.cpp: the input conversion of `forward_one` (lines 216-253)

`input_conv_stride` and `input_conv_nth` are computed in `float` and rounded up with
`std::ceil`.  The embedding takes the quotients as exact, so that `std::ceil(1.0f * a / b)`
is the least integer not below `a / b`; the `float` operations are exact on the operands of
the examples (integers below `2^24` whose quotients are integers or dyadic fractions). -/

/-- The constant `QK_K`. -/
def QK_K : Int := 256

/-- The value of `std::ceil(1.0f * a / b)` for `a >= 0` and `b > 0`. -/
def ceil_div (a b : Int) : Int := (a + b - 1) / b

/-- The value `input_conv_stride = QK_K * std::ceil(1.0f * hidden_size / thread_num / QK_K)`
(moe.cpp line 216). -/
def input_conv_stride (hidden_size thread_num : Int) : Int :=
  QK_K * ceil_div hidden_size (thread_num * QK_K)

/-- The value `input_conv_nth = std::ceil(1.0f * hidden_size / input_conv_stride)`
(moe.cpp line 217). -/
def input_conv_nth (hidden_size thread_num : Int) : Int :=
  ceil_div hidden_size (input_conv_stride hidden_size thread_num)

/-- The elements `[bias, bias + input_conv_stride)` that the stripe `ith` converts (moe.cpp
lines 234-243): `to_float` reads that many elements of the input row from `bias` on and
writes them to `s_input_fp32_ + bias`, `from_float` writes as many to `s_gate_input_`. -/
def input_conv_range (hidden_size thread_num ith : Int) : Int × Int :=
  let bias := ith * input_conv_stride hidden_size thread_num
  (bias, bias + input_conv_stride hidden_size thread_num)

/-! ## operators/moe/moe.cpp: the stripe barriers of `forward_one`

The barrier on `input_conv_syn` (lines 232-253) and the barrier on
`interm_conv_grp_syn[expert_idx]` (lines 260-333) have the same shape.  A task that owns a
stripe stores 0 into the stripe's flag, writes its slice and stores 1; then every task spins
on the flags `0, …, stripes - 1` in this order.  The flags are `std::atomic<int>` accessed
with the default (sequentially consistent) order, so a run of a kernel is an interleaving of
the steps of its tasks.  Nothing but these stores writes the flags: the dispatcher does not
reset them between kernels. -/

/-- Where a task stands in the barrier code. -/
inductive BarrierPc
  | start
  | zeroed
  | written
  | waiting (i_chk : Nat)
  | passed
  deriving DecidableEq, Repr

/-- The flags, which stripes have had their slice written in the current kernel, and where
each task stands. -/
structure BarrierState where
  syn : Nat → Nat
  slice_written : Nat → Bool
  pc : Nat → BarrierPc

/-- The state in which a kernel starts: the flags are whatever they were, no slice is
written yet, every task is at the start. -/
def BarrierState.init (syn : Nat → Nat) : BarrierState :=
  { syn := syn, slice_written := fun _ => false, pc := fun _ => BarrierPc.start }

/-- One step of task `t`, of a kernel with `stripes` stripes; task `t` owns stripe `t` if
`t < stripes` (`task_id < input_conv_nth`, resp. `ith < nth`).  A task that reads 0 in the
flag it spins on stays where it is. -/
def barrier_step (stripes : Nat) (s : BarrierState) (t : Nat) : BarrierState :=
  match s.pc t with
  | BarrierPc.start =>
    if t < stripes then
      { s with syn := Function.update s.syn t 0, pc := Function.update s.pc t BarrierPc.zeroed }
    else { s with pc := Function.update s.pc t (BarrierPc.waiting 0) }
  | BarrierPc.zeroed =>
    { s with slice_written := Function.update s.slice_written t true,
             pc := Function.update s.pc t BarrierPc.written }
  | BarrierPc.written =>
    { s with syn := Function.update s.syn t 1,
             pc := Function.update s.pc t (BarrierPc.waiting 0) }
  | BarrierPc.waiting i_chk =>
    if i_chk < stripes then
      if s.syn i_chk ≠ 0 then
        { s with pc := Function.update s.pc t (BarrierPc.waiting (i_chk + 1)) }
      else s
    else { s with pc := Function.update s.pc t BarrierPc.passed }
  | BarrierPc.passed => s

/-- A run of a kernel: the tasks take steps in the order of `schedule`. -/
def barrier_run (stripes : Nat) (syn : Nat → Nat) (schedule : List Nat) : BarrierState :=
  schedule.foldl (barrier_step stripes) (BarrierState.init syn)

/-! ## cpu_backend/backend.cpp: the threads of a pool, step by step

A `Backend` is used by the thread that owns it and by its workers.  The owner constructs the
pool, calls `do_work_stealing_job` any number of times, one call after the other, and
destroys the pool; worker `thread_id` runs the loop of `worker_thread(thread_id)`.  The
status words are `std::atomic`, so a run is an interleaving of steps of these threads.

The owner takes one step per iteration of a loop: the stores for worker `i` of the dispatch
loops (lines 122-143), one test of the waiting loop (lines 145-153), one store of the
destructor (lines 80-83).  A worker takes two kinds of steps: the load of its status at line
201, and, once it has read `WORKING`, the call of `process_tasks` that ends with the store at
line 191.  What `process_tasks` writes in the pool before that store is the `curr` of the
worker, which the owner writes only before it stores `WORKING` for this worker. -/

/-- The assignments of `do_work_stealing_job` before its loops (backend.cpp lines 112-120). -/
def dispatch_begin (USE_NUMA : Bool) (b : Backend) (task_num : Int)
    (init_func finalize_func : Bool) : Backend :=
  { one_shot_mode := decide (task_num ≤ b.max_thread_num_)
    thread_num_ := if USE_NUMA then b.max_thread_num_ else min b.max_thread_num_ task_num
    max_thread_num_ := b.max_thread_num_
    thread_state_ := b.thread_state_
    init_func_ := init_func
    finalize_func_ := finalize_func }

/-- The number of workers `do_work_stealing_job` stores for: the iterations of the loop of
lines 123-126 in one-shot mode; worker 0 (lines 130-134) and the iterations of the loop of
lines 135-142 otherwise. -/
def dispatch_stores (b : Backend) (task_num : Int) : Nat :=
  if b.one_shot_mode then (min b.thread_num_ task_num).toNat
  else 1 + (b.thread_num_.toNat - 1)

/-- The stores of `do_work_stealing_job` for worker `i`: lines 124-125 in one-shot mode, lines
130-134 for worker 0 and lines 136-141 for a later worker otherwise. -/
def dispatch_store (b : Backend) (task_num : Int) (i : Nat) : Backend :=
  if b.one_shot_mode then
    { b with thread_state_ := store_status b.thread_state_ i ThreadStatus.WORKING }
  else
    let base := Int.tdiv task_num b.thread_num_
    let remain := Int.tmod task_num b.thread_num_
    if i = 0 then
      let ts0 := store_end b.thread_state_ 0 (base + b2i (decide (0 < remain)))
      let ts1 := store_curr ts0 0 0
      { b with thread_state_ := store_status ts1 0 ThreadStatus.WORKING }
    else { b with thread_state_ := stripe_step base remain b.thread_state_ i }

/-- One iteration of the first loop of `~Backend` (lines 80-83). -/
def destroy_store (b : Backend) (i : Nat) : Backend :=
  { b with thread_state_ := store_status b.thread_state_ i ThreadStatus.EXIT }

/-- Where the owner of the pool stands: outside the member functions; inside
`do_work_stealing_job(task_num, …)` before the stores for worker `i`; in its waiting loop at
index `i`; in the first loop of `~Backend` at index `i`; in the second loop of `~Backend`,
joining the workers. -/
inductive OwnerPc
  | idle
  | dispatching (task_num : Int) (i : Nat)
  | waiting (i : Nat)
  | destroying (i : Nat)
  | joining
  deriving DecidableEq, Repr

/-- Where a worker stands in `worker_thread`: before the load of its status (line 201);
inside `process_tasks`, having read `WORKING`; returned, having read `EXIT`. -/
inductive WorkerPc
  | at_load
  | in_process_tasks
  | returned
  deriving DecidableEq, Repr

/-- A pool with its threads. -/
structure Pool where
  b : Backend
  owner : OwnerPc
  worker : Nat → WorkerPc

/-- The pool after the constructor: every worker thread has been started. -/
def Pool.new (max_thread_num : Int) : Pool :=
  { b := Backend.new max_thread_num
    owner := OwnerPc.idle
    worker := fun _ => WorkerPc.at_load }

/-- A step some thread of the pool takes. -/
inductive PoolAction
  | owner_call (task_num : Int) (init_func finalize_func : Bool)
  | owner_destroy
  | owner_step
  | worker_load (thread_id : Nat)
  | worker_finish (thread_id : Nat)
  deriving DecidableEq, Repr

/-- The owner enters `do_work_stealing_job(task_num, …)`. -/
def owner_call (USE_NUMA : Bool) (p : Pool) (task_num : Int) (init_func finalize_func : Bool) :
    Pool :=
  match p.owner with
  | OwnerPc.idle =>
    { p with b := dispatch_begin USE_NUMA p.b task_num init_func finalize_func,
             owner := OwnerPc.dispatching task_num 0 }
  | _ => p

/-- The owner enters `~Backend`. -/
def owner_destroy (p : Pool) : Pool :=
  match p.owner with
  | OwnerPc.idle => { p with owner := OwnerPc.destroying 0 }
  | _ => p

/-- The owner runs one iteration of the loop it is in.  In the waiting loop it stays at index
`i` as long as it reads `WORKING` there. -/
def owner_step (p : Pool) : Pool :=
  match p.owner with
  | OwnerPc.idle => p
  | OwnerPc.dispatching task_num i =>
    if i < dispatch_stores p.b task_num then
      { p with b := dispatch_store p.b task_num i, owner := OwnerPc.dispatching task_num (i + 1) }
    else { p with owner := OwnerPc.waiting 0 }
  | OwnerPc.waiting i =>
    if (i : Int) < p.b.thread_num_ then
      if (p.b.state i).status = ThreadStatus.WORKING then p
      else { p with owner := OwnerPc.waiting (i + 1) }
    else { p with owner := OwnerPc.idle }
  | OwnerPc.destroying i =>
    if (i : Int) < p.b.max_thread_num_ then
      { p with b := destroy_store p.b i, owner := OwnerPc.destroying (i + 1) }
    else { p with owner := OwnerPc.joining }
  | OwnerPc.joining => p

/-- Worker `thread_id` loads its status (backend.cpp lines 201-218): on `WORKING` it enters
`process_tasks`, on `WAITING` it comes back to the load, on `EXIT` it returns. -/
def worker_load (p : Pool) (thread_id : Nat) : Pool :=
  match p.worker thread_id with
  | WorkerPc.at_load =>
    match (p.b.state thread_id).status with
    | ThreadStatus.WORKING =>
      { p with worker := Function.update p.worker thread_id WorkerPc.in_process_tasks }
    | ThreadStatus.WAITING => p
    | ThreadStatus.EXIT =>
      { p with worker := Function.update p.worker thread_id WorkerPc.returned }
  | _ => p

/-- Worker `thread_id` runs `process_tasks(thread_id)` to its end, the store of `WAITING`
(line 191), and comes back to the load. -/
def worker_finish (p : Pool) (thread_id : Nat) : Pool :=
  match p.worker thread_id with
  | WorkerPc.in_process_tasks =>
    { p with b := (process_tasks p.b thread_id).1,
             worker := Function.update p.worker thread_id WorkerPc.at_load }
  | _ => p

/-- One step of the pool. -/
def pool_step (USE_NUMA : Bool) (p : Pool) : PoolAction → Pool
  | PoolAction.owner_call task_num init_func finalize_func =>
    owner_call USE_NUMA p task_num init_func finalize_func
  | PoolAction.owner_destroy => owner_destroy p
  | PoolAction.owner_step => owner_step p
  | PoolAction.worker_load thread_id => worker_load p thread_id
  | PoolAction.worker_finish thread_id => worker_finish p thread_id

/-- The pool after the steps of `schedule`, from its construction on. -/
def pool_run (USE_NUMA : Bool) (max_thread_num : Int) (schedule : List PoolAction) : Pool :=
  schedule.foldl (pool_step USE_NUMA) (Pool.new max_thread_num)

/-- The status of worker `j`. -/
def Pool.status (p : Pool) (j : Nat) : ThreadStatus := (p.b.state j).status

/-- What the position of the owner tells about the status words: outside the member functions
every worker is `WAITING`; during a call no status is `EXIT` and only workers below
`thread_num_` are `WORKING`, and the waiting loop has seen the workers below its index
`WAITING`; in the destructor no worker is `WORKING`. -/
def owner_inv (b : Backend) : OwnerPc → Prop
  | OwnerPc.idle => ∀ j, (b.state j).status = ThreadStatus.WAITING
  | OwnerPc.dispatching _ _ =>
    (∀ j, (b.state j).status = ThreadStatus.WAITING ∨
      ((b.state j).status = ThreadStatus.WORKING ∧ j < b.thread_num_.toNat)) ∧
    (b.one_shot_mode = false → b.thread_num_ = b.max_thread_num_)
  | OwnerPc.waiting i =>
    (∀ j, (b.state j).status = ThreadStatus.WAITING ∨
      ((b.state j).status = ThreadStatus.WORKING ∧ j < b.thread_num_.toNat)) ∧
    (∀ j, j < i → (b.state j).status = ThreadStatus.WAITING)
  | OwnerPc.destroying _ => ∀ j, (b.state j).status ≠ ThreadStatus.WORKING
  | OwnerPc.joining => ∀ j, (b.state j).status ≠ ThreadStatus.WORKING

/-- The invariant of the pool: `thread_state_` has `max_thread_num_` entries, the status
words fit the position of the owner, and a worker inside `process_tasks` is `WORKING`. -/
def pool_inv (p : Pool) : Prop :=
  p.b.thread_state_.length = p.b.max_thread_num_.toNat ∧
  owner_inv p.b p.owner ∧
  (∀ t, p.worker t = WorkerPc.in_process_tasks → (p.b.state t).status = ThreadStatus.WORKING)

/-- The status of worker `j` after each prefix of `schedule`, the empty one included. -/
def status_trace (USE_NUMA : Bool) (max_thread_num : Int) (schedule : List PoolAction)
    (j : Nat) : List ThreadStatus :=
  (List.range (schedule.length + 1)).map
    (fun n => (pool_run USE_NUMA max_thread_num (schedule.take n)).status j)

/-- A run of a pool of 2 workers: one call of `do_work_stealing_job` with 2 tasks, during
which worker 0 starts before the owner has stored for worker 1, then the destructor. -/
def schedule_example : List PoolAction :=
  [ PoolAction.owner_call 2 false false,
    PoolAction.owner_step,
    PoolAction.worker_load 0,
    PoolAction.owner_step,
    PoolAction.worker_finish 0,
    PoolAction.owner_step,
    PoolAction.worker_load 1,
    PoolAction.owner_step,
    PoolAction.owner_step,
    PoolAction.worker_finish 1,
    PoolAction.owner_step,
    PoolAction.owner_step,
    PoolAction.owner_destroy,
    PoolAction.owner_step,
    PoolAction.owner_step,
    PoolAction.owner_step,
    PoolAction.worker_load 0,
    PoolAction.worker_load 1 ]

/-! # Theorems -/

theorem interval_nil (lo hi : Int) (h : hi ≤ lo) : interval lo hi = [] := by
  unfold interval
  have : (hi - lo).toNat = 0 := by omega
  rw [this]; rfl

theorem interval_cons (lo hi : Int) (h : lo < hi) : interval lo hi = lo :: interval (lo + 1) hi := by
  unfold interval
  have : (hi - lo).toNat = (hi - (lo + 1)).toNat + 1 := by omega
  rw [this, List.range_succ_eq_map]
  simp only [List.map_cons, List.map_map]
  congr 1
  · simp
  · apply List.map_congr_left
    intro a _
    simp only [Function.comp, Nat.succ_eq_add_one]
    push_cast
    ring

theorem mem_interval (lo hi t : Int) : t ∈ interval lo hi ↔ lo ≤ t ∧ t < hi := by
  unfold interval
  simp only [List.mem_map, List.mem_range]
  constructor
  · rintro ⟨j, hj, rfl⟩
    omega
  · intro h
    exact ⟨(t - lo).toNat, by omega, by omega⟩

theorem interval_append (a b c : Int) (hab : a ≤ b) (hbc : b ≤ c) :
    interval a b ++ interval b c = interval a c := by
  obtain ⟨n, hn⟩ : ∃ n : Nat, (b - a).toNat = n := ⟨_, rfl⟩
  induction n generalizing a with
  | zero =>
    have : a = b := by omega
    subst this
    rw [interval_nil a a (le_refl _)]; rfl
  | succ n ih =>
    rw [interval_cons a b (by omega), interval_cons a c (by omega), List.cons_append,
      ih (a + 1) (by omega) (by omega)]

theorem fetch_loop_fst (n : Nat) : ∀ (end_ curr : Int), (end_ - curr).toNat = n →
    (fetch_loop end_ curr).1 = interval curr end_ := by
  induction n with
  | zero =>
    intro end_ curr h
    rw [fetch_loop]
    have hle : curr ≥ end_ := by omega
    simp only [hle, if_true]
    rw [interval_nil curr end_ hle]
  | succ n ih =>
    intro end_ curr h
    rw [fetch_loop]
    have hlt : ¬ curr ≥ end_ := by omega
    simp only [hlt, if_false]
    rw [ih end_ (curr + 1) (by omega), interval_cons curr end_ (by omega)]

theorem compute_calls_map (l : List Int) : compute_calls (l.map Event.compute) = l := by
  induction l with
  | nil => rfl
  | cons a l ih => simp [compute_calls, ih]

theorem compute_calls_append (l₁ l₂ : List Event) :
    compute_calls (l₁ ++ l₂) = compute_calls l₁ ++ compute_calls l₂ := by
  induction l₁ with
  | nil => rfl
  | cons a l ih => cases a <;> simp [compute_calls, ih]


theorem getD_set (ts : List ThreadState) (i j : Nat) (a : ThreadState) :
    (ts.set i a).getD j default = if i = j ∧ i < ts.length then a else ts.getD j default := by
  simp only [List.getD_eq_getElem?_getD, List.getElem?_set]
  by_cases hij : i = j
  · subst hij
    by_cases hl : i < ts.length
    · simp [hl]
    · simp [hl, List.getElem?_eq_none (Nat.le_of_not_lt hl)]
  · simp [hij]

theorem stripe_step_eq (base remain : Int) (ts : List ThreadState) (i : Nat) (hi : 1 ≤ i) :
    stripe_step base remain ts i =
      ts.set i ⟨ThreadStatus.WORKING, (ts.getD (i - 1) default).end_,
        (ts.getD (i - 1) default).end_ + base + b2i (decide ((i : Int) < remain))⟩ := by
  have hne : ¬ i = i - 1 := by omega
  by_cases hl : i < ts.length
  · simp [stripe_step, store_curr, store_end, store_status, getD_set, hne, hl]
  · simp only [stripe_step, store_curr, store_end, store_status]
    have hl' : ts.length ≤ i := by omega
    rw [List.set_eq_of_length_le (l := ts) hl', List.set_eq_of_length_le (l := ts) hl',
      List.set_eq_of_length_le (l := ts) hl', List.set_eq_of_length_le (l := ts) hl']

/-- Invariant of the striped dispatch loop after the workers `0..k` have been written. -/
theorem stripe_loop_inv (base remain : Int) (hr : 0 ≤ remain) (ts : List ThreadState)
    (h0 : 0 < ts.length) (k : Nat) (hk : k < ts.length) :
    let ts0 := store_status (store_curr (store_end ts 0 (base + b2i (decide (0 < remain)))) 0 0) 0
      ThreadStatus.WORKING
    let r := (List.range' 1 k).foldl (stripe_step base remain) ts0
    r.length = ts.length ∧
    ∀ j, j ≤ k → r.getD j default =
      ⟨ThreadStatus.WORKING, stripe_bound base remain j, stripe_bound base remain (j + 1)⟩ := by
  induction k with
  | zero =>
    intro ts0 r
    refine ⟨by simp [r, ts0, store_status, store_curr, store_end], ?_⟩
    intro j hj
    have : j = 0 := by omega
    subst this
    simp only [r, ts0, List.range'_zero, List.foldl_nil, store_status, store_curr, store_end,
      getD_set, List.length_set, h0, and_self, if_true, stripe_bound, b2i]
    by_cases hr0 : 0 < remain
    · have : min (1 : Int) remain = 1 := by omega
      simp [hr0, this, hr]
    · have h1 : remain = 0 := by omega
      simp [h1]
  | succ k ih =>
    intro ts0 r
    obtain ⟨hlen, hget⟩ := ih (by omega)
    have hr' : r = stripe_step base remain
        ((List.range' 1 k).foldl (stripe_step base remain) ts0) (k + 1) := by
      simp only [r, List.range'_1_concat, List.foldl_append, List.foldl_cons, List.foldl_nil]
      rw [Nat.add_comm 1 k]
    rw [stripe_step_eq _ _ _ _ (by omega)] at hr'
    refine ⟨by rw [hr']; simpa using hlen, ?_⟩
    intro j hj
    rw [hr', getD_set]
    by_cases hjk : k + 1 = j
    · subst hjk
      have hlt : k + 1 < ((List.range' 1 k).foldl (stripe_step base remain) ts0).length := by
        rw [hlen]; exact hk
      simp only [hlt, and_self, if_true, Nat.add_sub_cancel]
      rw [hget k (le_refl _)]
      simp only [stripe_bound, b2i]
      congr 1
      push_cast
      by_cases hc : ((k : Int) + 1) < remain
      · simp only [hc, decide_True, if_true]
        rw [min_eq_left (by omega), min_eq_left (by omega)]
        ring
      · simp only [hc, decide_False]
        rw [min_eq_right (by omega), min_eq_right (by omega)]
        simp
        ring
    · simp only [hjk, false_and, if_false]
      exact hget j (by omega)

theorem flatMap_interval (f : Nat → Int) (n : Nat) (hmono : ∀ i, i < n → f i ≤ f (i + 1)) :
    (List.range n).flatMap (fun i => interval (f i) (f (i + 1))) = interval (f 0) (f n) := by
  induction n with
  | zero => simp [interval_nil]
  | succ n ih =>
    have hle : ∀ k, k ≤ n → f 0 ≤ f k := by
      intro k hk
      induction k with
      | zero => exact le_refl _
      | succ k ihk => exact le_trans (ihk (by omega)) (hmono k (by omega))
    rw [List.range_succ, List.flatMap_append, ih (fun i hi => hmono i (by omega))]
    simp only [List.flatMap_cons, List.flatMap_nil, List.append_nil]
    exact interval_append _ _ _ (hle n (le_refl _)) (hmono n (by omega))

theorem nodup_interval (lo hi : Int) : (interval lo hi).Nodup := by
  unfold interval
  refine List.Nodup.map ?_ (List.nodup_range _)
  intro a b h
  simpa using h

theorem count_interval (lo hi t : Int) :
    (interval lo hi).count t = if lo ≤ t ∧ t < hi then 1 else 0 := by
  by_cases h : lo ≤ t ∧ t < hi
  · rw [if_pos h]
    exact List.count_eq_one_of_mem (nodup_interval lo hi) ((mem_interval lo hi t).2 h)
  · rw [if_neg h]
    exact List.count_eq_zero_of_not_mem (fun hm => h ((mem_interval lo hi t).1 hm))

theorem stripe_bound_mono (base remain : Int) (hb : 0 ≤ base) (i : Nat) :
    stripe_bound base remain i ≤ stripe_bound base remain (i + 1) := by
  unfold stripe_bound
  push_cast
  have : min (i : Int) remain ≤ min ((i : Int) + 1) remain := by
    apply min_le_min_right
    omega
  nlinarith

theorem process_tasks_striped_calls (b : Backend) (i : Nat) (h : b.one_shot_mode = false) :
    compute_calls (process_tasks b i).2 = interval (b.state i).curr (b.state i).end_ := by
  simp only [process_tasks, h, compute_calls_append, compute_calls_map]
  rw [fetch_loop_fst _ _ _ rfl]
  cases b.init_func_ <;> cases b.finalize_func_ <;> simp [compute_calls, compute_calls_map]

/-- C1: in striped mode (`task_num > max_thread_num >= 1`) the dispatcher hands worker `i`
the range `[curr_i, end_i)` with `curr_0 = 0`, `curr_{i+1} = end_i` and
`end_{thread_num-1} = task_num`; each worker is woken and calls `compute` on exactly the
ids of its range, so all workers together call `compute` on `0, 1, …, task_num-1`, every id
once and no other id. -/
theorem C1_striped_every_task_once (USE_NUMA : Bool) (b : Backend) (task_num : Int)
    (init_func finalize_func : Bool)
    (hmax : 1 ≤ b.max_thread_num_) (htask : b.max_thread_num_ < task_num)
    (hlen : b.thread_state_.length = b.max_thread_num_.toNat) :
    (do_work_stealing_job USE_NUMA b task_num init_func finalize_func).one_shot_mode = false ∧
    (do_work_stealing_job USE_NUMA b task_num init_func finalize_func).thread_num_
      = b.max_thread_num_ ∧
    ((do_work_stealing_job USE_NUMA b task_num init_func finalize_func).state 0).curr = 0 ∧
    (∀ i, i + 1 < b.max_thread_num_.toNat →
      ((do_work_stealing_job USE_NUMA b task_num init_func finalize_func).state (i + 1)).curr
        = ((do_work_stealing_job USE_NUMA b task_num init_func finalize_func).state i).end_) ∧
    ((do_work_stealing_job USE_NUMA b task_num init_func finalize_func).state
      (b.max_thread_num_.toNat - 1)).end_ = task_num ∧
    (∀ i, i < b.max_thread_num_.toNat →
      ((do_work_stealing_job USE_NUMA b task_num init_func finalize_func).state i).status
        = ThreadStatus.WORKING ∧
      compute_calls (worker_thread_step
          (do_work_stealing_job USE_NUMA b task_num init_func finalize_func) i).2
        = interval
            ((do_work_stealing_job USE_NUMA b task_num init_func finalize_func).state i).curr
            ((do_work_stealing_job USE_NUMA b task_num init_func finalize_func).state i).end_) ∧
    (List.range b.max_thread_num_.toNat).flatMap (fun i => compute_calls (worker_thread_step
        (do_work_stealing_job USE_NUMA b task_num init_func finalize_func) i).2)
      = interval 0 task_num ∧
    (∀ t : Int, ((List.range b.max_thread_num_.toNat).flatMap (fun i => compute_calls
        (worker_thread_step
          (do_work_stealing_job USE_NUMA b task_num init_func finalize_func) i).2)).count t
      = if 0 ≤ t ∧ t < task_num then 1 else 0) := by
  obtain ⟨n, hn⟩ : ∃ n : Nat, b.max_thread_num_ = n := ⟨b.max_thread_num_.toNat, by omega⟩
  have hn1 : 1 ≤ n := by omega
  have htn : (if USE_NUMA then b.max_thread_num_ else min b.max_thread_num_ task_num)
      = b.max_thread_num_ := by
    cases USE_NUMA
    · simp only [Bool.false_eq_true, if_false]; omega
    · simp
  have hos : decide (task_num ≤ b.max_thread_num_) = false := by
    simp only [decide_eq_false_iff_not]; omega
  set base := Int.tdiv task_num b.max_thread_num_ with hbase
  set remain := Int.tmod task_num b.max_thread_num_ with hremain
  have hbase' : base = task_num / b.max_thread_num_ := Int.tdiv_eq_ediv (by omega) (by omega)
  have hremain' : remain = task_num % b.max_thread_num_ := Int.tmod_eq_emod (by omega) (by omega)
  have hb0 : 0 ≤ base := by rw [hbase']; exact Int.ediv_nonneg (by omega) (by omega)
  have hr0 : 0 ≤ remain := by rw [hremain']; exact Int.emod_nonneg _ (by omega)
  have hrn : remain < n := by rw [hremain', ← hn]; exact Int.emod_lt_of_pos _ (by omega)
  have hsum : (n : Int) * base + remain = task_num := by
    rw [hbase', hremain', ← hn]; exact Int.ediv_add_emod _ _
  have hntoNat : b.max_thread_num_.toNat = n := by omega
  have hinv := stripe_loop_inv base remain hr0 b.thread_state_ (by omega) (n - 1) (by omega)
  obtain ⟨-, hget⟩ := hinv
  have hstate : ∀ j, j < n →
      (do_work_stealing_job USE_NUMA b task_num init_func finalize_func).state j
        = ⟨ThreadStatus.WORKING, stripe_bound base remain j, stripe_bound base remain (j + 1)⟩ := by
    intro j hj
    simp only [do_work_stealing_job, Backend.state, htn, hos, Bool.false_eq_true, if_false,
      hntoNat]
    exact hget j (by omega)
  have hmode : (do_work_stealing_job USE_NUMA b task_num init_func finalize_func).one_shot_mode
      = false := by
    simp only [do_work_stealing_job, hos]
  have hcalls : ∀ i, i < n → compute_calls (worker_thread_step
      (do_work_stealing_job USE_NUMA b task_num init_func finalize_func) i).2
      = interval (stripe_bound base remain i) (stripe_bound base remain (i + 1)) := by
    intro i hi
    simp only [worker_thread_step, hstate i hi]
    rw [process_tasks_striped_calls _ _ hmode, hstate i hi]
  have hflat : (List.range n).flatMap (fun i => compute_calls (worker_thread_step
        (do_work_stealing_job USE_NUMA b task_num init_func finalize_func) i).2)
      = interval 0 task_num := by
    rw [List.flatMap_congr (fun i hi => hcalls i (List.mem_range.1 hi)),
      flatMap_interval (stripe_bound base remain) n
        (fun i _ => stripe_bound_mono base remain hb0 i)]
    congr 1
    · simp [stripe_bound, hr0]
    · simp only [stripe_bound]
      rw [min_eq_right (by omega)]
      exact hsum
  rw [hntoNat]
  refine ⟨hmode, ?_, ?_, ?_, ?_, ?_, hflat, ?_⟩
  · simp only [do_work_stealing_job, htn]
  · rw [hstate 0 (by omega)]
    simp [stripe_bound, hr0]
  · intro i hi
    rw [hstate (i + 1) hi, hstate i (by omega)]
  · rw [hstate (n - 1) (by omega)]
    simp only [stripe_bound]
    have : n - 1 + 1 = n := by omega
    rw [this, min_eq_right (by omega)]
    exact hsum
  · intro i hi
    refine ⟨by rw [hstate i hi], ?_⟩
    rw [hcalls i hi, hstate i hi]
  · intro t
    rw [hflat, count_interval]

/-- Instance of C1 on a fresh pool of 4 workers and 10 tasks. -/
theorem C1_striped_every_task_once_witness :
    (List.range 4).flatMap (fun i => compute_calls (worker_thread_step
        (do_work_stealing_job false (Backend.new 4) 10 false false) i).2)
      = interval 0 10 :=
  (C1_striped_every_task_once false (Backend.new 4) 10 false false (by decide) (by decide)
    (by decide)).2.2.2.2.2.2.1

theorem store_status_length (ts : List ThreadState) (i : Nat) (s : ThreadStatus) :
    (store_status ts i s).length = ts.length := by
  simp [store_status]

theorem store_status_getD (ts : List ThreadState) (i j : Nat) (s : ThreadStatus) :
    (store_status ts i s).getD j default
      = if i = j ∧ i < ts.length then { ts.getD i default with status := s }
        else ts.getD j default := by
  simp only [store_status, getD_set]

theorem one_shot_loop (s : ThreadStatus) (ts : List ThreadState) (m : Nat) :
    ((List.range m).foldl (fun ts i => store_status ts i s) ts).length = ts.length ∧
    ∀ j, ((List.range m).foldl (fun ts i => store_status ts i s) ts).getD j default
      = if j < m ∧ j < ts.length then { ts.getD j default with status := s }
        else ts.getD j default := by
  induction m with
  | zero => simp
  | succ m ih =>
    obtain ⟨hlen, hget⟩ := ih
    rw [List.range_succ, List.foldl_append]
    simp only [List.foldl_cons, List.foldl_nil]
    generalize List.foldl (fun ts i => store_status ts i s) ts (List.range m) = r at hlen hget
    refine ⟨by rw [store_status_length, hlen], ?_⟩
    intro j
    rw [store_status_getD, hlen]
    by_cases hjm : m = j
    · subst hjm
      by_cases hl : m < ts.length
      · have h2 : ¬ (m < m ∧ m < ts.length) := by omega
        have h3 : r.getD m default = ts.getD m default := by rw [hget m, if_neg h2]
        simp only [hl, and_self, if_true, h3, Nat.lt_succ_self]
      · have h2 : ¬ (m < m ∧ m < ts.length) := by omega
        simp only [hl, and_false, if_false, hget m, h2]
    · have h1 : (j < m + 1 ∧ j < ts.length) ↔ (j < m ∧ j < ts.length) := by omega
      simp only [hjm, false_and, if_false, h1, hget j]

/-- C2: in one-shot mode (`0 <= task_num <= max_thread_num`) the dispatcher stores
`WORKING` into exactly the workers `0..task_num-1` (every other status is left as it was),
each of those workers calls `compute` exactly once, with its own `thread_id`, and a worker
with index `>= task_num` that was idle runs nothing. -/
theorem C2_one_shot_one_call_each (USE_NUMA : Bool) (b : Backend) (task_num : Int)
    (init_func finalize_func : Bool)
    (h0 : 0 ≤ task_num) (htask : task_num ≤ b.max_thread_num_)
    (hlen : b.thread_state_.length = b.max_thread_num_.toNat) :
    (do_work_stealing_job USE_NUMA b task_num init_func finalize_func).one_shot_mode = true ∧
    (∀ i : Nat,
      (do_work_stealing_job USE_NUMA b task_num init_func finalize_func).state i
        = if (i : Int) < task_num then { b.state i with status := ThreadStatus.WORKING }
          else b.state i) ∧
    (∀ i : Nat, (i : Int) < task_num →
      compute_calls (worker_thread_step
        (do_work_stealing_job USE_NUMA b task_num init_func finalize_func) i).2 = [(i : Int)]) ∧
    (∀ i : Nat, task_num ≤ (i : Int) → (b.state i).status ≠ ThreadStatus.WORKING →
      (worker_thread_step
        (do_work_stealing_job USE_NUMA b task_num init_func finalize_func) i).2 = []) := by
  have hos : decide (task_num ≤ b.max_thread_num_) = true := by simpa using htask
  have hmin : (min (if USE_NUMA then b.max_thread_num_ else min b.max_thread_num_ task_num)
      task_num).toNat = task_num.toNat := by
    cases USE_NUMA
    · simp only [Bool.false_eq_true, if_false]
      rw [min_eq_right htask, min_self]
    · simp only [if_true]
      rw [min_eq_right htask]
  have hmode : (do_work_stealing_job USE_NUMA b task_num init_func finalize_func).one_shot_mode
      = true := by
    simp only [do_work_stealing_job, hos]
  have hstate : ∀ i : Nat,
      (do_work_stealing_job USE_NUMA b task_num init_func finalize_func).state i
        = if (i : Int) < task_num then { b.state i with status := ThreadStatus.WORKING }
          else b.state i := by
    intro i
    simp only [do_work_stealing_job, Backend.state, hos, if_true, hmin,
      (one_shot_loop ThreadStatus.WORKING b.thread_state_ task_num.toNat).2 i]
    have hiff : (i < task_num.toNat ∧ i < b.thread_state_.length) ↔ (i : Int) < task_num := by
      omega
    simp only [hiff]
  refine ⟨hmode, hstate, ?_, ?_⟩
  · intro i hi
    simp only [worker_thread_step, hstate i, hi, if_true, process_tasks, hmode]
    cases init_func <;> cases finalize_func <;>
      simp [do_work_stealing_job, compute_calls]
  · intro i hi hidle
    have hni : ¬ (i : Int) < task_num := by omega
    simp only [worker_thread_step, hstate i, hni, if_false]
    cases hs : (b.state i).status
    · exact absurd hs hidle
    · rfl
    · rfl

/-- Instance of C2 on a fresh pool of 4 workers and 2 tasks: worker 1 calls `compute(1)`
once, worker 3 runs nothing. -/
theorem C2_one_shot_one_call_each_witness :
    compute_calls (worker_thread_step
      (do_work_stealing_job true (Backend.new 4) 2 false false) 1).2 = [(1 : Int)] ∧
    (worker_thread_step (do_work_stealing_job true (Backend.new 4) 2 false false) 3).2 = [] :=
  ⟨(C2_one_shot_one_call_each true (Backend.new 4) 2 false false (by decide) (by decide)
      (by decide)).2.2.1 1 (by decide),
   (C2_one_shot_one_call_each true (Backend.new 4) 2 false false (by decide) (by decide)
      (by decide)).2.2.2 3 (by decide) (by decide)⟩


theorem wrap32_id (x : Int) (h1 : -2147483648 ≤ x) (h2 : x < 2147483648) : wrap32 x = x := by
  unfold wrap32
  omega

/-- Without overflow `get_slice` is the pair of exact quotients. -/
theorem get_slice_exact (size nth ith : Int) (hs : 0 ≤ size) (hn : 1 ≤ nth)
    (hnth : nth < 2147483648) (hov : nth * size < 2147483648) (hi0 : 0 ≤ ith) (hi : ith < nth) :
    get_slice size nth ith
      = ((ith + 1) * size / nth - ith * size / nth, ith * size / nth) := by
  have h1 : ith * size ≤ (ith + 1) * size := by nlinarith
  have h2 : (ith + 1) * size ≤ nth * size := by nlinarith
  have h3 : 0 ≤ ith * size := by positivity
  have hq1 : 0 ≤ ith * size / nth := Int.ediv_nonneg h3 (by omega)
  have hq2 : ith * size / nth ≤ (ith + 1) * size / nth := Int.ediv_le_ediv (by omega) h1
  have hq3 : (ith + 1) * size / nth ≤ (ith + 1) * size :=
    Int.ediv_le_self _ (by omega)
  have w1 : wrap32 (ith + 1) = ith + 1 := wrap32_id _ (by omega) (by omega)
  have w2 : wrap32 ((ith + 1) * size) = (ith + 1) * size := wrap32_id _ (by omega) (by omega)
  have w3 : wrap32 (ith * size) = ith * size := wrap32_id _ (by omega) (by omega)
  have t1 : Int.tdiv ((ith + 1) * size) nth = (ith + 1) * size / nth :=
    Int.tdiv_eq_ediv (by omega) (by omega)
  have t2 : Int.tdiv (ith * size) nth = ith * size / nth :=
    Int.tdiv_eq_ediv (by omega) (by omega)
  have w4 : wrap32 ((ith + 1) * size / nth) = (ith + 1) * size / nth :=
    wrap32_id _ (by omega) (by omega)
  have w5 : wrap32 (ith * size / nth) = ith * size / nth := wrap32_id _ (by omega) (by omega)
  have w6 : wrap32 ((ith + 1) * size / nth - ith * size / nth)
      = (ith + 1) * size / nth - ith * size / nth := wrap32_id _ (by omega) (by omega)
  simp only [get_slice, w1, w2, w3, t1, t2, w4, w5, w6]

theorem slice_bound_exists (size nth x : Int) (hx0 : 0 ≤ x) (j : Nat) :
    x < (j : Int) * size / nth →
      ∃ i : Nat, i < j ∧ (i : Int) * size / nth ≤ x ∧ x < ((i : Int) + 1) * size / nth := by
  induction j with
  | zero =>
    intro h
    simp at h
    omega
  | succ j ih =>
    intro h
    by_cases hj : x < (j : Int) * size / nth
    · obtain ⟨i, hi, h1, h2⟩ := ih hj
      exact ⟨i, by omega, h1, h2⟩
    · refine ⟨j, by omega, by omega, ?_⟩
      push_cast at h
      exact h

/-- C3: as long as the largest product `nth * size` fits a 32-bit `int`, the slices of
`get_slice(size, nth, ·)` start at 0, follow one another without gap or overlap and end at
`size`; every index of `[0, size)` lies in exactly one slice and every slice lies inside
`[0, size)`.  Beyond that range the products `(ith + 1) * size` overflow: for
`size = 50331648` (half of a 16384 x 6144 matrix) and `nth = 48`, the call that `numamerge`
makes with 96 threads on 2 nodes, the last slice is `(local, bias) = (1048576, -40195413)`;
it starts below 0 and does not end at `size`. -/
theorem C3_get_slice_partition :
    (∀ (size nth : Int), 0 ≤ size → 1 ≤ nth → nth < 2147483648 → nth * size < 2147483648 →
      (get_slice size nth 0).2 = 0 ∧
      (∀ i : Int, 0 ≤ i → i < nth - 1 →
        (get_slice size nth i).2 + (get_slice size nth i).1 = (get_slice size nth (i + 1)).2) ∧
      (get_slice size nth (nth - 1)).2 + (get_slice size nth (nth - 1)).1 = size ∧
      (∀ i : Int, 0 ≤ i → i < nth → 0 ≤ (get_slice size nth i).1) ∧
      (∀ x : Int, 0 ≤ x → x < size →
        ∃! i : Int, 0 ≤ i ∧ i < nth ∧ (get_slice size nth i).2 ≤ x ∧
          x < (get_slice size nth i).2 + (get_slice size nth i).1) ∧
      (∀ i x : Int, 0 ≤ i → i < nth → (get_slice size nth i).2 ≤ x →
        x < (get_slice size nth i).2 + (get_slice size nth i).1 → 0 ≤ x ∧ x < size)) ∧
    ((48 : Int) * 50331648 ≥ 2147483648 ∧
      get_slice 50331648 48 (48 - 1) = (1048576, -40195413) ∧
      (get_slice 50331648 48 (48 - 1)).2 + (get_slice 50331648 48 (48 - 1)).1 ≠ 50331648) := by
  refine ⟨?_, by decide⟩
  intro size nth hs hn hnth hov
  have hex := fun i h0 h1 => get_slice_exact size nth i hs hn hnth hov h0 h1
  have hmono : ∀ a b : Int, a ≤ b → a * size / nth ≤ b * size / nth := by
    intro a b hab
    exact Int.ediv_le_ediv (by omega) (by nlinarith)
  have hB0 : (0 : Int) * size / nth = 0 := by simp
  have hBn : nth * size / nth = size := Int.mul_ediv_cancel_left _ (by omega)
  have hnonneg : ∀ a : Int, 0 ≤ a → 0 ≤ a * size / nth := by
    intro a ha
    exact Int.ediv_nonneg (by positivity) (by omega)
  refine ⟨?_, ?_, ?_, ?_, ?_, ?_⟩
  · rw [hex 0 (le_refl _) (by omega)]
    simp
  · intro i h0 h1
    rw [hex i h0 (by omega), hex (i + 1) (by omega) (by omega)]
    simp
  · rw [hex (nth - 1) (by omega) (by omega)]
    simp only [sub_add_cancel, hBn]
    omega
  · intro i h0 h1
    rw [hex i h0 h1]
    have := hmono i (i + 1) (by omega)
    simp only
    omega
  · intro x hx0 hx1
    have hlt : x < ((nth.toNat : Nat) : Int) * size / nth := by
      rw [Int.toNat_of_nonneg (by omega), hBn]
      exact hx1
    obtain ⟨i, hi, h1, h2⟩ := slice_bound_exists size nth x hx0 nth.toNat hlt
    refine ⟨(i : Int), ⟨by omega, by omega, ?_, ?_⟩, ?_⟩
    · rw [hex i (by omega) (by omega)]
      exact h1
    · rw [hex i (by omega) (by omega)]
      simp only
      omega
    · rintro i' ⟨h0', h1', h2', h3'⟩
      rw [hex i' h0' h1'] at h2' h3'
      simp only at h2' h3'
      have h3'' : x < (i' + 1) * size / nth := by omega
      by_contra hne
      rcases lt_or_gt_of_ne hne with hlt' | hgt'
      · have := hmono (i' + 1) i (by omega)
        omega
      · have := hmono ((i : Int) + 1) i' (by omega)
        omega
  · intro i x h0 h1 h2 h3
    rw [hex i h0 h1] at h2 h3
    simp only at h2 h3
    have ha := hnonneg i h0
    have hb := hmono (i + 1) nth (by omega)
    rw [hBn] at hb
    omega

/-- Instance of C3: 10 elements over 4 slices. -/
theorem C3_get_slice_partition_witness :
    ((0 : Int) ≤ 10 ∧ (1 : Int) ≤ 4 ∧ (4 : Int) < 2147483648 ∧ (4 : Int) * 10 < 2147483648) ∧
    (get_slice 10 4 (4 - 1)).2 + (get_slice 10 4 (4 - 1)).1 = 10 :=
  ⟨by decide,
   (C3_get_slice_partition.1 10 4 (by decide) (by decide) (by decide) (by decide)).2.2.1⟩

/-- The overflow at a power of two: with `size = 2^30` and `nth = 4` the product
`(ith + 1) * size` of the last slice is `2^32`, which no `int` holds; with wrap-around the
slice is `(local, bias) = (2^28, -2^28)` and ends at 0, not at `size`. -/
theorem get_slice_overflow_example :
    (0 : Int) ≤ 1073741824 ∧ (1 : Int) ≤ 4 ∧
    get_slice 1073741824 4 3 = (268435456, -268435456) ∧
    (get_slice 1073741824 4 (4 - 1)).2 + (get_slice 1073741824 4 (4 - 1)).1 ≠ 1073741824 := by
  decide

theorem forward_one_loop_ok (k e0 w0 : Int) (n : Nat) :
    ∀ (s : Int) (fi fo : Nat → Int),
      starts_ok k e0 w0 s ((List.range n).map (fun (i : Nat) =>
        MoeCall.forward_one k (e0 + (s + (i : Int)) * k) (w0 + (s + (i : Int)) * k)
          (fi i) (fo i))) ∧
      token_list s ((List.range n).map (fun (i : Nat) =>
        MoeCall.forward_one k (e0 + (s + (i : Int)) * k) (w0 + (s + (i : Int)) * k)
          (fi i) (fo i))) = interval s (s + (n : Int)) := by
  induction n with
  | zero =>
    intro s fi fo
    simp [starts_ok, token_list, interval_nil]
  | succ n ih =>
    intro s fi fo
    obtain ⟨h1, h2⟩ := ih (s + 1) (fun i => fi (i + 1)) (fun i => fo (i + 1))
    have hshift : (List.range n).map (fun (i : Nat) =>
          MoeCall.forward_one k (e0 + (s + 1 + (i : Int)) * k) (w0 + (s + 1 + (i : Int)) * k)
            (fi (i + 1)) (fo (i + 1)))
        = (List.map Nat.succ (List.range n)).map (fun (i : Nat) =>
          MoeCall.forward_one k (e0 + (s + (i : Int)) * k) (w0 + (s + (i : Int)) * k)
            (fi i) (fo i)) := by
      rw [List.map_map]
      apply List.map_congr_left
      intro a _
      simp only [Function.comp, Nat.succ_eq_add_one]
      push_cast
      have : s + 1 + (a : Int) = s + ((a : Int) + 1) := by ring
      rw [this]
    rw [hshift] at h1 h2
    rw [List.range_succ_eq_map, List.map_cons]
    refine ⟨?_, ?_⟩
    · simp only [starts_ok, call_expert_ids, call_weights, call_len, Nat.cast_zero, add_zero,
        true_and]
      exact h1
    · simp only [token_list, call_len, h2]
      rw [interval_cons s (s + ((n + 1 : Nat) : Int)) (by push_cast; omega),
        interval_cons s (s + 1) (by omega), interval_nil (s + 1) (s + 1) (le_refl _)]
      push_cast
      have : s + 1 + (n : Int) = s + ((n : Int) + 1) := by ring
      rw [this]
      rfl

theorem forward_returns (cfg : MOEConfig) (ts bs k e0 w0 : Int)
    (hmin : 1 ≤ cfg.group_min_len) (hmax : 1 ≤ cfg.group_max_len) (n : Nat) :
    ∀ (qlen s input output : Int), qlen.toNat ≤ n →
      ∃ calls, forward cfg ts bs (n + 1) qlen k (e0 + s * k) (w0 + s * k) input output
          = some calls ∧
        starts_ok k e0 w0 s calls ∧ token_list s calls = interval s (s + qlen) ∧
        ∀ c ∈ calls, 1 ≤ call_len c := by
  induction n with
  | zero =>
    intro qlen s input output hq
    have hlt : qlen < cfg.group_min_len := by omega
    have h0 : qlen.toNat = 0 := by omega
    refine ⟨[], ?_, ?_, ?_, ?_⟩
    · simp [forward, hlt, h0]
    · simp [starts_ok]
    · simp only [token_list]
      rw [interval_nil]
      omega
    · simp
  | succ n ih =>
    intro qlen s input output hq
    by_cases hlt : qlen < cfg.group_min_len
    · have hcongr : (List.range qlen.toNat).map (fun (i : Nat) =>
            MoeCall.forward_one k (e0 + s * k + (i : Int) * k) (w0 + s * k + (i : Int) * k)
              (input + row_offset cfg ts bs i) (output + row_offset cfg ts bs i))
          = (List.range qlen.toNat).map (fun (i : Nat) =>
            MoeCall.forward_one k (e0 + (s + (i : Int)) * k) (w0 + (s + (i : Int)) * k)
              (input + row_offset cfg ts bs i) (output + row_offset cfg ts bs i)) := by
        apply List.map_congr_left
        intro a _
        have h1 : e0 + s * k + (a : Int) * k = e0 + (s + (a : Int)) * k := by ring
        have h2 : w0 + s * k + (a : Int) * k = w0 + (s + (a : Int)) * k := by ring
        rw [h1, h2]
      obtain ⟨h1, h2⟩ := forward_one_loop_ok k e0 w0 qlen.toNat s
        (fun i => input + row_offset cfg ts bs i) (fun i => output + row_offset cfg ts bs i)
      refine ⟨_, ?_, h1, ?_, ?_⟩
      · simp only [forward, hlt, if_true]
        rw [hcongr]
      · rw [h2]
        by_cases hq0 : 0 ≤ qlen
        · rw [Int.toNat_of_nonneg hq0]
        · have : qlen.toNat = 0 := by omega
          rw [this, interval_nil, interval_nil] <;> omega
      · intro c hc
        simp only [List.mem_map, List.mem_range] at hc
        obtain ⟨i, _, rfl⟩ := hc
        simp [call_len]
    · have hL1 : 1 ≤ min cfg.group_max_len qlen := by
        apply le_min hmax
        omega
      have hL2 : min cfg.group_max_len qlen ≤ qlen := min_le_right _ _
      obtain ⟨rest, hr, hs, ht, hc⟩ := ih (qlen - min cfg.group_max_len qlen)
        (s + min cfg.group_max_len qlen) (input + row_offset cfg ts bs (min cfg.group_max_len qlen))
        (output + row_offset cfg ts bs (min cfg.group_max_len qlen)) (by omega)
      have he : e0 + s * k + min cfg.group_max_len qlen * k
          = e0 + (s + min cfg.group_max_len qlen) * k := by ring
      have hw : w0 + s * k + min cfg.group_max_len qlen * k
          = w0 + (s + min cfg.group_max_len qlen) * k := by ring
      refine ⟨MoeCall.forward_many (min cfg.group_max_len qlen) k (e0 + s * k) (w0 + s * k)
        input output :: rest, ?_, ?_, ?_, ?_⟩
      · rw [forward]
        simp only [hlt, if_false, he, hw, hr]
      · simp only [starts_ok, call_expert_ids, call_weights, call_len, true_and]
        exact hs
      · simp only [token_list, call_len, ht]
        have : s + min cfg.group_max_len qlen + (qlen - min cfg.group_max_len qlen)
            = s + qlen := by ring
        rw [this]
        exact interval_append _ _ _ (by omega) (by omega)
      · intro c hcm
        rcases List.mem_cons.1 hcm with rfl | hcm
        · simpa [call_len] using hL1
        · exact hc c hcm

theorem forward_fuel_succ (cfg : MOEConfig) (ts bs : Int) (fuel : Nat) :
    ∀ (qlen k e w input output : Int) (calls : List MoeCall),
      forward cfg ts bs fuel qlen k e w input output = some calls →
      forward cfg ts bs (fuel + 1) qlen k e w input output = some calls := by
  induction fuel with
  | zero =>
    intro qlen k e w input output calls h
    simp [forward] at h
  | succ fuel ih =>
    intro qlen k e w input output calls h
    rw [forward] at h ⊢
    by_cases hlt : qlen < cfg.group_min_len
    · simpa only [hlt, if_true] using h
    · simp only [hlt, if_false] at h ⊢
      cases hrec : forward cfg ts bs fuel (qlen - min cfg.group_max_len qlen) k
          (e + min cfg.group_max_len qlen * k) (w + min cfg.group_max_len qlen * k)
          (input + row_offset cfg ts bs (min cfg.group_max_len qlen))
          (output + row_offset cfg ts bs (min cfg.group_max_len qlen)) with
      | none => simp [hrec] at h
      | some rest =>
        rw [ih _ _ _ _ _ _ rest hrec]
        simpa only [hrec] using h

theorem forward_fuel_mono (cfg : MOEConfig) (ts bs : Int) (fuel extra : Nat)
    (qlen k e w input output : Int) (calls : List MoeCall)
    (h : forward cfg ts bs fuel qlen k e w input output = some calls) :
    forward cfg ts bs (fuel + extra) qlen k e w input output = some calls := by
  induction extra with
  | zero => exact h
  | succ extra ih => exact forward_fuel_succ cfg ts bs _ _ _ _ _ _ _ _ ih

/-- C5 (as amended): for a configuration with `group_min_len >= 1` and `group_max_len >= 1`,
`forward` below `group_min_len` makes one `forward_one` call per token `i = 0..qlen-1` in
order (routing pointers advanced by `i*k`, rows by the byte offset of row `i`); otherwise
it makes `forward_many` on the first `min(qlen, group_max_len)` tokens and continues as
`forward` on the rest with all four pointers advanced; the recursion returns, its result
does not depend on the fuel, every call starts at the token where the one before stopped
and the tokens processed are `0, 1, …, qlen-1` in this order. -/
theorem C5_forward_dispatch (cfg : MOEConfig) (ts bs qlen k e w input output : Int)
    (hmin : 1 ≤ cfg.group_min_len) (hmax : 1 ≤ cfg.group_max_len) :
    (qlen < cfg.group_min_len → ∀ fuel : Nat,
      forward cfg ts bs (fuel + 1) qlen k e w input output
        = some ((List.range qlen.toNat).map (fun (i : Nat) =>
            MoeCall.forward_one k (e + (i : Int) * k) (w + (i : Int) * k)
              (input + row_offset cfg ts bs i) (output + row_offset cfg ts bs i)))) ∧
    (¬ qlen < cfg.group_min_len → ∀ fuel : Nat,
      forward cfg ts bs (fuel + 1) qlen k e w input output
        = (forward cfg ts bs fuel (qlen - min cfg.group_max_len qlen) k
            (e + min cfg.group_max_len qlen * k) (w + min cfg.group_max_len qlen * k)
            (input + row_offset cfg ts bs (min cfg.group_max_len qlen))
            (output + row_offset cfg ts bs (min cfg.group_max_len qlen))).map
          (fun rest =>
            MoeCall.forward_many (min cfg.group_max_len qlen) k e w input output :: rest)) ∧
    (∃ calls, forward cfg ts bs (qlen.toNat + 1) qlen k e w input output = some calls ∧
      (∀ fuel calls1, forward cfg ts bs fuel qlen k e w input output = some calls1 →
        calls1 = calls) ∧
      starts_ok k e w 0 calls ∧ token_list 0 calls = interval 0 qlen ∧
      ∀ c ∈ calls, 1 ≤ call_len c) := by
  refine ⟨?_, ?_, ?_⟩
  · intro hlt fuel
    simp only [forward, hlt, if_true]
  · intro hlt fuel
    rw [forward]
    simp only [hlt, if_false]
    cases forward cfg ts bs fuel (qlen - min cfg.group_max_len qlen) k
        (e + min cfg.group_max_len qlen * k) (w + min cfg.group_max_len qlen * k)
        (input + row_offset cfg ts bs (min cfg.group_max_len qlen))
        (output + row_offset cfg ts bs (min cfg.group_max_len qlen)) <;> rfl
  · obtain ⟨calls, h1, h2, h3, h4⟩ := forward_returns cfg ts bs k e w hmin hmax qlen.toNat
      qlen 0 input output (le_refl _)
    simp only [zero_mul, add_zero, zero_add] at h1 h3
    refine ⟨calls, h1, ?_, h2, h3, h4⟩
    intro fuel calls1 hf
    have ha := forward_fuel_mono cfg ts bs fuel (qlen.toNat + 1) qlen k e w input output calls1 hf
    have hb := forward_fuel_mono cfg ts bs (qlen.toNat + 1) fuel qlen k e w input output calls h1
    rw [Nat.add_comm fuel] at ha
    rw [ha] at hb
    exact Option.some.inj hb

/-- Instance of C5 (as amended): 7 tokens with `group_min_len = 2`, `group_max_len = 3`. -/
theorem C5_forward_dispatch_witness :
    ∃ calls, forward (cfg_example 2 3) 4 1 ((7 : Int).toNat + 1) 7 2 0 0 0 0 = some calls ∧
      (∀ fuel calls1, forward (cfg_example 2 3) 4 1 fuel 7 2 0 0 0 0 = some calls1 →
        calls1 = calls) ∧
      starts_ok 2 0 0 0 calls ∧ token_list 0 calls = interval 0 7 ∧
      ∀ c ∈ calls, 1 ≤ call_len c :=
  (C5_forward_dispatch (cfg_example 2 3) 4 1 7 2 0 0 0 0 (by decide) (by decide)).2.2

theorem forward_never_returns (cfg : MOEConfig) (ts bs qlen k : Int)
    (hge : ¬ qlen < cfg.group_min_len) (hL : min cfg.group_max_len qlen = 0) (fuel : Nat) :
    ∀ (e w input output : Int), forward cfg ts bs fuel qlen k e w input output = none := by
  induction fuel with
  | zero =>
    intro e w input output
    rfl
  | succ fuel ih =>
    intro e w input output
    rw [forward]
    simp only [hge, if_false, hL, sub_zero, ih]

/-- C5 as stated fails where a group length is not positive.  With `group_max_len = 0`,
`forward(1, …)` keeps calling `forward_many(0, …)` and `forward(1, …)`: token 0 is never
processed and the call returns for no fuel.  With `group_min_len = 0`, `forward(0, …)`
does the same. -/
theorem C5_forward_nonpositive_group_len_counterexample :
    (¬ ∃ fuel calls, forward (cfg_example 1 0) 4 1 fuel 1 2 0 0 0 0 = some calls) ∧
    (¬ ∃ fuel calls, forward (cfg_example 0 3) 4 1 fuel 0 2 0 0 0 0 = some calls) := by
  constructor
  · rintro ⟨fuel, calls, h⟩
    rw [forward_never_returns (cfg_example 1 0) 4 1 1 2 (by decide) (by decide) fuel] at h
    exact Option.noConfusion h
  · rintro ⟨fuel, calls, h⟩
    rw [forward_never_returns (cfg_example 0 3) 4 1 0 2 (by decide) (by decide) fuel] at h
    exact Option.noConfusion h

theorem duty_mul_ge (tiles nth : Nat) (hn : 1 ≤ nth) :
    tiles ≤ (tiles + nth - 1) / nth * nth := by
  have h1 := Nat.div_add_mod (tiles + nth - 1) nth
  have h2 := Nat.mod_lt (tiles + nth - 1) (show nth > 0 by omega)
  have h3 : nth * ((tiles + nth - 1) / nth) = (tiles + nth - 1) / nth * nth := Nat.mul_comm _ _
  omega

theorem gemm_jobs_eq (tiles nth ith : Nat) :
    gemm_jobs tiles nth ith
      = List.range' ((tiles + nth - 1) / nth * ith)
          (min ((tiles + nth - 1) / nth * (ith + 1)) tiles - (tiles + nth - 1) / nth * ith) := by
  unfold gemm_jobs
  simp only [Nat.mul_add, Nat.mul_one]
  split_ifs with h
  · rw [min_eq_right (by omega)]
  · rw [min_eq_left (by omega)]

theorem mem_gemm_jobs (tiles nth ith job : Nat) :
    job ∈ gemm_jobs tiles nth ith ↔
      (tiles + nth - 1) / nth * ith ≤ job ∧
        job < min ((tiles + nth - 1) / nth * (ith + 1)) tiles := by
  rw [gemm_jobs_eq, List.mem_range'_1]
  constructor
  · rintro ⟨h1, h2⟩
    omega
  · rintro ⟨h1, h2⟩
    omega

theorem gemm_jobs_upto (tiles nth : Nat) (j : Nat) :
    (List.range j).flatMap (gemm_jobs tiles nth)
      = List.range (min ((tiles + nth - 1) / nth * j) tiles) := by
  induction j with
  | zero => simp
  | succ j ih =>
    rw [List.range_succ, List.flatMap_append, ih]
    simp only [List.flatMap_cons, List.flatMap_nil, List.append_nil]
    rw [gemm_jobs_eq, List.range_eq_range', List.range_eq_range']
    have hmono : (tiles + nth - 1) / nth * j ≤ (tiles + nth - 1) / nth * (j + 1) :=
      Nat.mul_le_mul_left _ (by omega)
    by_cases hc : (tiles + nth - 1) / nth * j ≤ tiles
    · rw [min_eq_left hc]
      have := List.range'_append 0 ((tiles + nth - 1) / nth * j)
        (min ((tiles + nth - 1) / nth * (j + 1)) tiles - (tiles + nth - 1) / nth * j) 1
      simp only [Nat.one_mul, Nat.zero_add] at this
      rw [this]
      congr 1
      have : (tiles + nth - 1) / nth * j ≤ min ((tiles + nth - 1) / nth * (j + 1)) tiles :=
        le_min hmono hc
      omega
    · rw [min_eq_right (by omega), min_eq_right (by omega)]
      have : tiles - (tiles + nth - 1) / nth * j = 0 := by omega
      rw [this]
      simp

theorem gemm_jobs_all (tiles nth : Nat) (hn : 1 ≤ nth) :
    (List.range nth).flatMap (gemm_jobs tiles nth) = List.range tiles := by
  rw [gemm_jobs_upto, min_eq_right (duty_mul_ge tiles nth hn)]

theorem gemm_jobs_single (tiles : Nat) : gemm_jobs tiles 1 0 = List.range tiles := by
  have h := gemm_jobs_all tiles 1 (le_refl _)
  simpa [List.range_succ] using h

theorem gemm_all_threads (RM RN nth m0 m n0 n : Nat) (hn : 1 ≤ nth) :
    (List.range nth).flatMap (fun ith => gemm RM RN nth ith m0 m n0 n)
      = gemm RM RN 1 0 m0 m n0 n := by
  unfold gemm
  simp only []
  rw [← List.flatMap_assoc, gemm_jobs_all _ nth hn]
  rw [gemm_jobs_single]

/-- C7: in `gemm<RM, RN>` thread `ith` of `nth` runs the jobs
`[duty*ith, min(duty*(ith+1), tiles))` with `duty = ceil(tiles / nth)`; for every `tiles` and
`nth >= 1` the job ranges of different threads are disjoint, each job of `[0, tiles)` is run
by exactly one thread, the jobs of all threads in thread order are `0, 1, …, tiles-1`, which
is what a single thread (`nth = 1`) runs, and so the cells stored (each by the same job, which
accumulates over `l` independently of `ith` and `nth`) are the same for `nth = N` and
`nth = 1`. -/
theorem C7_gemm_thread_slicing (tiles nth : Nat) (hn : 1 ≤ nth) :
    (∀ ith job, job ∈ gemm_jobs tiles nth ith ↔
      (tiles + nth - 1) / nth * ith ≤ job ∧
        job < min ((tiles + nth - 1) / nth * (ith + 1)) tiles) ∧
    (∀ ith1 ith2, ith1 ≠ ith2 → List.Disjoint (gemm_jobs tiles nth ith1) (gemm_jobs tiles nth ith2)) ∧
    (∀ job, job < tiles → ∃! ith, ith < nth ∧ job ∈ gemm_jobs tiles nth ith) ∧
    (∀ ith job, job ∈ gemm_jobs tiles nth ith → job < tiles) ∧
    (List.range nth).flatMap (gemm_jobs tiles nth) = List.range tiles ∧
    (List.range nth).flatMap (gemm_jobs tiles nth) = gemm_jobs tiles 1 0 ∧
    (∀ RM RN m0 m n0 n,
      (List.range nth).flatMap (fun ith => gemm RM RN nth ith m0 m n0 n)
        = gemm RM RN 1 0 m0 m n0 n) := by
  have hdisj : ∀ ith1 ith2, ith1 < ith2 →
      List.Disjoint (gemm_jobs tiles nth ith1) (gemm_jobs tiles nth ith2) := by
    intro a b hab job h1 h2
    rw [mem_gemm_jobs] at h1 h2
    have : (tiles + nth - 1) / nth * (a + 1) ≤ (tiles + nth - 1) / nth * b :=
      Nat.mul_le_mul_left _ (by omega)
    have := min_le_left ((tiles + nth - 1) / nth * (a + 1)) tiles
    omega
  have hall := gemm_jobs_all tiles nth hn
  have hone := gemm_jobs_single tiles
  refine ⟨fun ith job => mem_gemm_jobs tiles nth ith job, ?_, ?_, ?_, hall, ?_, ?_⟩
  · intro a b hne
    rcases Nat.lt_or_gt_of_ne hne with h | h
    · exact hdisj a b h
    · exact (hdisj b a h).symm
  · intro job hjob
    have hmem : job ∈ (List.range nth).flatMap (gemm_jobs tiles nth) := by
      rw [hall]; exact List.mem_range.2 hjob
    obtain ⟨ith, hi, hj⟩ := List.mem_flatMap.1 hmem
    refine ⟨ith, ⟨List.mem_range.1 hi, hj⟩, ?_⟩
    rintro ith' ⟨_, hj'⟩
    by_contra hne
    rcases Nat.lt_or_gt_of_ne hne with h | h
    · exact hdisj ith' ith h hj' hj
    · exact hdisj ith ith' h hj hj'
  · intro ith job h
    rw [mem_gemm_jobs] at h
    have := min_le_right ((tiles + nth - 1) / nth * (ith + 1)) tiles
    omega
  · rw [hall, hone]
  · intro RM RN m0 m n0 n
    exact gemm_all_threads RM RN nth m0 m n0 n hn

/-- Instance of C7: 5 tiles over 3 threads. -/
theorem C7_gemm_thread_slicing_witness :
    (List.range 3).flatMap (gemm_jobs 5 3) = List.range 5 :=
  (C7_gemm_thread_slicing 5 3 (by decide)).2.2.2.2.1

theorem mem_gemm_tile (RM RN ii jj r c : Nat) :
    (r, c) ∈ gemm_tile RM RN ii jj ↔ (ii ≤ r ∧ r < ii + RM) ∧ (jj ≤ c ∧ c < jj + RN) := by
  simp only [gemm_tile, List.mem_flatMap, List.mem_map, List.mem_range, Prod.mk.injEq]
  constructor
  · rintro ⟨j, hj, i, hi, h1, h2⟩
    omega
  · rintro ⟨⟨h1, h2⟩, h3, h4⟩
    exact ⟨c - jj, by omega, r - ii, by omega, by omega, by omega⟩

theorem nodup_gemm_tile (RM RN ii jj : Nat) : (gemm_tile RM RN ii jj).Nodup := by
  unfold gemm_tile
  rw [List.nodup_flatMap]
  constructor
  · intro j _
    refine List.Nodup.map ?_ (List.nodup_range _)
    intro a b h
    simp only [Prod.mk.injEq] at h
    omega
  · refine List.Pairwise.imp ?_ (List.nodup_range RN)
    intro a b hab x h1 h2
    simp only [List.mem_map, List.mem_range] at h1 h2
    obtain ⟨i1, _, rfl⟩ := h1
    obtain ⟨i2, _, h⟩ := h2
    simp only [Prod.mk.injEq] at h
    omega

theorem quot_unique (q1 q2 i1 i2 R : Nat) (h1 : i1 < R) (h2 : i2 < R)
    (h : q1 * R + i1 = q2 * R + i2) : q1 = q2 := by
  by_contra hne
  rcases Nat.lt_or_gt_of_ne hne with hlt | hlt
  · have := Nat.mul_le_mul_right R (show q1 + 1 ≤ q2 by omega)
    rw [Nat.add_mul] at this
    omega
  · have := Nat.mul_le_mul_right R (show q2 + 1 ≤ q1 by omega)
    rw [Nat.add_mul] at this
    omega

/-- The cells stored by the jobs `0..xt*yt-1` of a `gemm<RM, RN>` call. -/
theorem mem_gemm_grid (RM RN xt yt m0 n0 r c : Nat) (hRM : 1 ≤ RM) (hRN : 1 ≤ RN) :
    (r, c) ∈ (List.range (xt * yt)).flatMap
        (fun job => gemm_tile RM RN (m0 + job / xt * RM) (n0 + job % xt * RN)) ↔
      (m0 ≤ r ∧ r < m0 + yt * RM) ∧ (n0 ≤ c ∧ c < n0 + xt * RN) := by
  simp only [List.mem_flatMap, List.mem_range, mem_gemm_tile]
  constructor
  · rintro ⟨job, hjob, ⟨h1, h2⟩, h3, h4⟩
    have hxt : 0 < xt := by
      rcases Nat.eq_zero_or_pos xt with h | h
      · simp [h] at hjob
      · exact h
    have hq : job / xt < yt := by
      rw [Nat.div_lt_iff_lt_mul hxt, Nat.mul_comm]
      exact hjob
    have hm : job % xt < xt := Nat.mod_lt _ hxt
    have e1 := Nat.mul_le_mul_right RM (show job / xt + 1 ≤ yt by omega)
    have e2 := Nat.mul_le_mul_right RN (show job % xt + 1 ≤ xt by omega)
    rw [Nat.add_mul] at e1 e2
    omega
  · rintro ⟨⟨h1, h2⟩, h3, h4⟩
    have hxt : 0 < xt := by
      rcases Nat.eq_zero_or_pos xt with h | h
      · simp [h] at h4
        omega
      · exact h
    have ha : (r - m0) / RM < yt := by
      rw [Nat.div_lt_iff_lt_mul (by omega)]
      omega
    have hb : (c - n0) / RN < xt := by
      rw [Nat.div_lt_iff_lt_mul (by omega)]
      omega
    have hdiv : ((c - n0) / RN + (r - m0) / RM * xt) / xt = (r - m0) / RM := by
      rw [Nat.add_mul_div_right _ _ hxt, Nat.div_eq_of_lt hb, Nat.zero_add]
    have hmod : ((c - n0) / RN + (r - m0) / RM * xt) % xt = (c - n0) / RN := by
      rw [Nat.add_mul_mod_self_right, Nat.mod_eq_of_lt hb]
    refine ⟨(c - n0) / RN + (r - m0) / RM * xt, ?_, ?_⟩
    · have := Nat.mul_le_mul_right xt (show (r - m0) / RM + 1 ≤ yt by omega)
      rw [Nat.add_mul] at this
      rw [Nat.mul_comm xt yt]
      omega
    · rw [hdiv, hmod]
      have d1 := Nat.div_add_mod (r - m0) RM
      have d2 := Nat.mod_lt (r - m0) (show RM > 0 by omega)
      have d3 := Nat.div_add_mod (c - n0) RN
      have d4 := Nat.mod_lt (c - n0) (show RN > 0 by omega)
      rw [Nat.mul_comm] at d1 d3
      omega

theorem nodup_gemm_grid (RM RN xt yt m0 n0 : Nat) :
    ((List.range (xt * yt)).flatMap
        (fun job => gemm_tile RM RN (m0 + job / xt * RM) (n0 + job % xt * RN))).Nodup := by
  rw [List.nodup_flatMap]
  constructor
  · intro job _
    exact nodup_gemm_tile _ _ _ _
  · refine List.Pairwise.imp ?_ (List.nodup_range _)
    intro a b hab x h1 h2
    obtain ⟨r, c⟩ := x
    rw [mem_gemm_tile] at h1 h2
    obtain ⟨⟨a1, a2⟩, a3, a4⟩ := h1
    obtain ⟨⟨b1, b2⟩, b3, b4⟩ := h2
    have hq : a / xt = b / xt :=
      quot_unique (a / xt) (b / xt) (r - (m0 + a / xt * RM)) (r - (m0 + b / xt * RM)) RM
        (by omega) (by omega) (by omega)
    have hm : a % xt = b % xt :=
      quot_unique (a % xt) (b % xt) (c - (n0 + a % xt * RN)) (c - (n0 + b % xt * RN)) RN
        (by omega) (by omega) (by omega)
    have da := Nat.div_add_mod a xt
    have db := Nat.div_add_mod b xt
    rw [hq, hm] at da
    exact hab (by omega)

theorem count_eq_one_of_nodup_mem {α : Type} [BEq α] [LawfulBEq α] (l : List α) (a : α)
    (hn : l.Nodup) (hm : a ∈ l) : l.count a = 1 := by
  induction l with
  | nil => simp at hm
  | cons x xs ih =>
    rw [List.nodup_cons] at hn
    rw [List.count_cons]
    by_cases hx : x = a
    · subst hx
      rw [List.count_eq_zero_of_not_mem hn.1]
      simp
    · have hmem : a ∈ xs := by
        rcases List.mem_cons.1 hm with h | h
        · exact absurd h.symm hx
        · exact h
      rw [ih hn.2 hmem]
      simp [hx]

theorem count_gemm_grid (RM RN xt yt m0 n0 r c : Nat) (hRM : 1 ≤ RM) (hRN : 1 ≤ RN) :
    ((List.range (xt * yt)).flatMap
        (fun job => gemm_tile RM RN (m0 + job / xt * RM) (n0 + job % xt * RN))).count (r, c)
      = if (m0 ≤ r ∧ r < m0 + yt * RM) ∧ (n0 ≤ c ∧ c < n0 + xt * RN) then 1 else 0 := by
  by_cases h : (m0 ≤ r ∧ r < m0 + yt * RM) ∧ (n0 ≤ c ∧ c < n0 + xt * RN)
  · rw [if_pos h]
    exact count_eq_one_of_nodup_mem _ _ (nodup_gemm_grid _ _ _ _ _ _)
      ((mem_gemm_grid RM RN xt yt m0 n0 r c hRM hRN).2 h)
  · rw [if_neg h]
    exact List.count_eq_zero_of_not_mem
      (fun hm => h ((mem_gemm_grid RM RN xt yt m0 n0 r c hRM hRN).1 hm))

theorem mnpack_tile_fits_all : ∀ a, a < 6 → ∀ b, b < 6 → mnpack_tile_fits a b = true := by
  decide

theorem mnpack_tile_none (m0 m n0 n : Nat)
    (h : mnpack_tile (mnpack_key m0 m n0 n) = none) : m - m0 = 0 ∨ n - n0 = 0 := by
  have hk := mnpack_tile_fits_all (min (m - m0) 5) (by omega) (min (n - n0) 5) (by omega)
  unfold mnpack_key at h
  unfold mnpack_tile_fits at hk
  rw [h] at hk
  simp only [decide_eq_true_eq] at hk
  omega

theorem mnpack_tile_some (m0 m n0 n mc nc : Nat)
    (h : mnpack_tile (mnpack_key m0 m n0 n) = some (mc, nc)) :
    1 ≤ mc ∧ mc ≤ m - m0 ∧ 1 ≤ nc ∧ nc ≤ n - n0 ∧ (mc = 1 → m - m0 = 1) ∧
      (nc = 1 → n - n0 = 1) := by
  have hk := mnpack_tile_fits_all (min (m - m0) 5) (by omega) (min (n - n0) 5) (by omega)
  unfold mnpack_key at h
  unfold mnpack_tile_fits at hk
  rw [h] at hk
  simp only [decide_eq_true_eq] at hk
  obtain ⟨h1, h2, h3, h4, h5, h6⟩ := hk
  refine ⟨h1, by omega, h3, by omega, ?_, ?_⟩
  · intro e
    have := h5 e
    omega
  · intro e
    have := h6 e
    omega

theorem mnpack_none (nth ith m0 m n0 n : Nat)
    (h : mnpack_tile (mnpack_key m0 m n0 n) = none) : mnpack nth ith m0 m n0 n = [] := by
  rw [mnpack]
  split
  · rfl
  · rename_i mc nc h'
    rw [h] at h'
    exact Option.noConfusion h'

theorem mnpack_some (nth ith m0 m n0 n mc nc : Nat)
    (h : mnpack_tile (mnpack_key m0 m n0 n) = some (mc, nc)) :
    mnpack nth ith m0 m n0 n
      = gemm mc nc nth ith m0 m n0 n ++
          (mnpack nth ith (m0 + (m - m0) / mc * mc) m n0 (n0 + (n - n0) / nc * nc) ++
            mnpack nth ith m0 m (n0 + (n - n0) / nc * nc) n) := by
  rw [mnpack]
  split
  · rename_i h'
    rw [h] at h'
    exact Option.noConfusion h'
  · rename_i mc' nc' h'
    rw [h] at h'
    simp only [Option.some.injEq, Prod.mk.injEq] at h'
    obtain ⟨rfl, rfl⟩ := h'
    rfl

theorem count_flatMap_append {α β : Type} [BEq β] (l : List α) (f g : α → List β) (x : β) :
    (l.flatMap (fun i => f i ++ g i)).count x
      = (l.flatMap f).count x + (l.flatMap g).count x := by
  induction l with
  | nil => simp
  | cons a l ih =>
    simp only [List.flatMap_cons, List.count_append, ih]
    omega

theorem gemm_single_grid (RM RN m0 m n0 n : Nat) (hRM : 1 ≤ RM) (hRN : 1 ≤ RN)
    (h1 : RM = 1 → m - m0 = 1) (h2 : RN = 1 → n - n0 = 1) :
    gemm RM RN 1 0 m0 m n0 n
      = (List.range ((n - n0) / RN * ((m - m0) / RM))).flatMap
          (fun job => gemm_tile RM RN (m0 + job / ((n - n0) / RN) * RM)
            (n0 + job % ((n - n0) / RN) * RN)) := by
  have hy : (if RM > 1 then (m - m0) / RM else 1) = (m - m0) / RM := by
    split_ifs with h
    · rfl
    · have : RM = 1 := by omega
      rw [this, h1 this]
  have hx : (if RN > 1 then (n - n0) / RN else 1) = (n - n0) / RN := by
    split_ifs with h
    · rfl
    · have : RN = 1 := by omega
      rw [this, h2 this]
  unfold gemm
  simp only [hx, hy, gemm_jobs_single]

theorem flatMap_const_nil {α β : Type} (l : List α) :
    l.flatMap (fun _ => ([] : List β)) = [] := by
  induction l with
  | nil => rfl
  | cons a l ih => simp [ih]

theorem count_mnpack_all (nth : Nat) (hn : 1 ≤ nth) (d : Nat) :
    ∀ m0 m n0 n, m0 ≤ m → n0 ≤ n → (m - m0) + (n - n0) ≤ d → ∀ r c,
      ((List.range nth).flatMap (fun ith => mnpack nth ith m0 m n0 n)).count (r, c)
        = if (m0 ≤ r ∧ r < m) ∧ (n0 ≤ c ∧ c < n) then 1 else 0 := by
  induction d with
  | zero =>
    intro m0 m n0 n hm hn' hd r c
    have ht : mnpack_tile (mnpack_key m0 m n0 n) = none := by
      have h0 : m - m0 = 0 := by omega
      have h1 : n - n0 = 0 := by omega
      simp only [mnpack_key, h0, h1]
      decide
    simp only [mnpack_none nth _ m0 m n0 n ht, flatMap_const_nil]
    have : ¬ ((m0 ≤ r ∧ r < m) ∧ (n0 ≤ c ∧ c < n)) := by omega
    rw [if_neg this]
    rfl
  | succ d ih =>
    intro m0 m n0 n hm hn' hd r c
    cases ht : mnpack_tile (mnpack_key m0 m n0 n) with
    | none =>
      simp only [mnpack_none nth _ m0 m n0 n ht, flatMap_const_nil]
      have he := mnpack_tile_none m0 m n0 n ht
      have : ¬ ((m0 ≤ r ∧ r < m) ∧ (n0 ≤ c ∧ c < n)) := by omega
      rw [if_neg this]
      rfl
    | some t =>
      obtain ⟨mc, nc⟩ := t
      obtain ⟨h1, h2, h3, h4, h5, h6⟩ := mnpack_tile_some m0 m n0 n mc nc ht
      have hq1 : mc ≤ (m - m0) / mc * mc := by
        have := Nat.div_pos h2 (by omega)
        nlinarith
      have hq2 : (m - m0) / mc * mc ≤ m - m0 := Nat.div_mul_le_self _ _
      have hq3 : nc ≤ (n - n0) / nc * nc := by
        have := Nat.div_pos h4 (by omega)
        nlinarith
      have hq4 : (n - n0) / nc * nc ≤ n - n0 := Nat.div_mul_le_self _ _
      simp only [mnpack_some nth _ m0 m n0 n mc nc ht]
      rw [count_flatMap_append, count_flatMap_append, gemm_all_threads mc nc nth m0 m n0 n hn,
        gemm_single_grid mc nc m0 m n0 n h1 h3 h5 h6, count_gemm_grid _ _ _ _ _ _ _ _ h1 h3,
        ih (m0 + (m - m0) / mc * mc) m n0 (n0 + (n - n0) / nc * nc) (by omega) (by omega)
          (by omega),
        ih m0 m (n0 + (n - n0) / nc * nc) n hm (by omega) (by omega)]
      generalize (m - m0) / mc * mc = a at hq1 hq2
      generalize (n - n0) / nc * nc = b at hq3 hq4
      split_ifs <;> omega

/-- C6: for the generic kernel with the 32-register non-precise tile table, and every
`m, n >= 0` and `nth >= 1`, the recursion `mnpack(0, m, 0, n)` terminates (`mnpack` is a total
function whose recursive calls are those of the C++ code) and the stores of all threads
`ith < nth` taken together hit every cell `C[i, j]` with `i < m`, `j < n` exactly once and no
cell outside that rectangle. -/
theorem C6_sgemm_output_coverage (nth m n : Nat) (hn : 1 ≤ nth) :
    (∀ i j, (matmul_all_threads nth m n).count (i, j) = if i < m ∧ j < n then 1 else 0) ∧
    (∀ i j, (i, j) ∈ matmul_all_threads nth m n ↔ i < m ∧ j < n) := by
  have hcount : ∀ i j,
      (matmul_all_threads nth m n).count (i, j) = if i < m ∧ j < n then 1 else 0 := by
    intro i j
    unfold matmul_all_threads
    rw [count_mnpack_all nth hn (m + n) 0 m 0 n (Nat.zero_le _) (Nat.zero_le _) (by omega) i j]
    simp
  refine ⟨hcount, ?_⟩
  intro i j
  rw [← List.count_pos_iff, hcount]
  split_ifs with h
  · simp [h]
  · simp [h]

/-- Instance of C6: a 7 x 6 product on 3 threads. -/
theorem C6_sgemm_output_coverage_witness :
    (matmul_all_threads 3 7 6).count (6, 5) = (if 6 < 7 ∧ 5 < 6 then 1 else 0) ∧
    (matmul_all_threads 3 7 6).count (7, 0) = (if 7 < 7 ∧ 0 < 6 then 1 else 0) :=
  ⟨(C6_sgemm_output_coverage 3 7 6 (by decide)).1 6 5,
   (C6_sgemm_output_coverage 3 7 6 (by decide)).1 7 0⟩


theorem enqueue_not_yet_run {W : Type} (q q1 : TaskQueue W) (task_id : Int) (task : W → W)
    (h : q.enqueue task_id task = some q1) :
    q1.executed = q.executed ∧ q1.not_yet_run = q.not_yet_run ++ [task_id] ∧
      q1.in_flight = q.in_flight ++ [task_id] ∧ q1.consumer = q.consumer ∧
      q1.exit_flag = q.exit_flag ∧
      q1.sync_flags = q.sync_flags.set task_id.toNat false ∧
      0 ≤ task_id ∧ task_id.toNat < q.sync_flags.length := by
  unfold TaskQueue.enqueue at h
  by_cases hr : 0 ≤ task_id ∧ task_id.toNat < q.sync_flags.length
  · simp only [hr, and_self, if_true, Option.some.injEq] at h
    subst h
    simp [TaskQueue.not_yet_run, TaskQueue.in_flight, hr]
  · simp only [hr, if_false] at h
    exact Option.noConfusion h

theorem step_waiting_nil {W : Type} (q : TaskQueue W) (hc : q.consumer = Consumer.waiting)
    (ht : q.tasks = []) (he : q.exit_flag = false) : q.processTasks_step = q := by
  simp [TaskQueue.processTasks_step, hc, ht, he]

theorem step_waiting_cons {W : Type} (q : TaskQueue W) (task_id : Int) (task : W → W)
    (rest : List (Int × (W → W))) (hc : q.consumer = Consumer.waiting)
    (ht : q.tasks = (task_id, task) :: rest) :
    q.processTasks_step = { q with tasks := rest, consumer := Consumer.holding task_id task } := by
  simp [TaskQueue.processTasks_step, hc, ht]

theorem step_holding {W : Type} (q : TaskQueue W) (task_id : Int) (task : W → W)
    (hc : q.consumer = Consumer.holding task_id task) :
    q.processTasks_step
      = { q with world := task q.world, executed := q.executed ++ [task_id],
                 consumer := Consumer.finished task_id } := by
  simp [TaskQueue.processTasks_step, hc]

theorem step_finished {W : Type} (q : TaskQueue W) (task_id : Int)
    (hc : q.consumer = Consumer.finished task_id)
    (hr : 0 ≤ task_id ∧ task_id.toNat < q.sync_flags.length) :
    q.processTasks_step
      = { q with sync_flags := q.sync_flags.set task_id.toNat true,
                 consumer := Consumer.waiting } := by
  simp [TaskQueue.processTasks_step, hc, hr]

theorem step_finished_throw {W : Type} (q : TaskQueue W) (task_id : Int)
    (hc : q.consumer = Consumer.finished task_id)
    (hr : ¬ (0 ≤ task_id ∧ task_id.toNat < q.sync_flags.length)) :
    q.processTasks_step = { q with consumer := Consumer.exited } := by
  simp only [TaskQueue.processTasks_step, hc, hr, if_false]

theorem step_exited {W : Type} (q : TaskQueue W) (hc : q.consumer = Consumer.exited) :
    q.processTasks_step = q := by
  simp [TaskQueue.processTasks_step, hc]

theorem step_executed {W : Type} (q : TaskQueue W) :
    q.processTasks_step.executed ++ q.processTasks_step.not_yet_run
      = q.executed ++ q.not_yet_run := by
  cases hc : q.consumer with
  | waiting =>
    cases ht : q.tasks with
    | nil =>
      by_cases he : q.exit_flag <;>
        simp [TaskQueue.processTasks_step, TaskQueue.not_yet_run, hc, ht, he]
    | cons a rest =>
      obtain ⟨task_id, task⟩ := a
      rw [step_waiting_cons q task_id task rest hc ht]
      simp [TaskQueue.not_yet_run, hc, ht]
  | holding task_id task =>
    rw [step_holding q task_id task hc]
    simp [TaskQueue.not_yet_run, hc]
  | finished task_id =>
    by_cases hr : 0 ≤ task_id ∧ task_id.toNat < q.sync_flags.length
    · rw [step_finished q task_id hc hr]
      simp [TaskQueue.not_yet_run, hc]
    · rw [step_finished_throw q task_id hc hr]
      simp [TaskQueue.not_yet_run, hc]
  | exited => rw [step_exited q hc]

theorem run_executed {W : Type} (acts : List (QueueAction W)) :
    ∀ (q q1 : TaskQueue W), q.run acts = some q1 →
      q1.executed ++ q1.not_yet_run = q.executed ++ q.not_yet_run ++ enqueued_ids acts := by
  induction acts with
  | nil =>
    intro q q1 h
    simp only [TaskQueue.run, Option.some.injEq] at h
    subst h
    simp [enqueued_ids]
  | cons a rest ih =>
    intro q q1 h
    cases a with
    | enqueue task_id task =>
      simp only [TaskQueue.run] at h
      cases he : q.enqueue task_id task with
      | none => simp [he] at h
      | some q2 =>
        simp only [he] at h
        obtain ⟨h1, h2, -⟩ := enqueue_not_yet_run q q2 task_id task he
        rw [ih q2 q1 h, h1, h2]
        simp [enqueued_ids]
    | consumer =>
      simp only [TaskQueue.run] at h
      rw [ih _ q1 h, step_executed]
      simp [enqueued_ids]

/-- A consumer step keeps the consumer thread alive and the ids in flight in range. -/
theorem step_alive {W : Type} (q : TaskQueue W) (he : q.exit_flag = false)
    (hc : q.consumer ≠ Consumer.exited) (hr : q.in_range) :
    q.processTasks_step.exit_flag = false ∧ q.processTasks_step.consumer ≠ Consumer.exited ∧
      q.processTasks_step.in_range := by
  cases hcons : q.consumer with
  | waiting =>
    cases ht : q.tasks with
    | nil =>
      rw [step_waiting_nil q hcons ht he]
      exact ⟨he, hc, hr⟩
    | cons a rest =>
      obtain ⟨task_id, task⟩ := a
      rw [step_waiting_cons q task_id task rest hcons ht]
      refine ⟨he, by simp, ?_⟩
      intro id hid
      apply hr id
      simpa [TaskQueue.in_flight, hcons, ht] using hid
  | holding task_id task =>
    rw [step_holding q task_id task hcons]
    refine ⟨he, by simp, ?_⟩
    intro id hid
    apply hr id
    simpa [TaskQueue.in_flight, hcons] using hid
  | finished task_id =>
    have hin : 0 ≤ task_id ∧ task_id.toNat < q.sync_flags.length :=
      hr task_id (by simp [TaskQueue.in_flight, hcons])
    rw [step_finished q task_id hcons hin]
    refine ⟨he, by simp, ?_⟩
    intro id hid
    simp only [List.length_set]
    apply hr id
    simp only [TaskQueue.in_flight, List.nil_append] at hid
    simp [TaskQueue.in_flight, hcons, hid]
  | exited => exact absurd hcons hc

theorem enqueue_alive {W : Type} (q q1 : TaskQueue W) (task_id : Int) (task : W → W)
    (h : q.enqueue task_id task = some q1) (he : q.exit_flag = false)
    (hc : q.consumer ≠ Consumer.exited) (hr : q.in_range) :
    q1.exit_flag = false ∧ q1.consumer ≠ Consumer.exited ∧ q1.in_range := by
  obtain ⟨-, -, e3, e4, e5, e6, e7, e8⟩ := enqueue_not_yet_run q q1 task_id task h
  refine ⟨by rw [e5]; exact he, by rw [e4]; exact hc, ?_⟩
  intro id hid
  rw [e3] at hid
  rw [e6, List.length_set]
  rcases List.mem_append.1 hid with hm | hm
  · exact hr id hm
  · simp only [List.mem_singleton] at hm
    subst hm
    exact ⟨e7, e8⟩

theorem run_alive {W : Type} (acts : List (QueueAction W)) :
    ∀ (q q1 : TaskQueue W), q.run acts = some q1 → q.exit_flag = false →
      q.consumer ≠ Consumer.exited → q.in_range →
      q1.exit_flag = false ∧ q1.consumer ≠ Consumer.exited ∧ q1.in_range := by
  induction acts with
  | nil =>
    intro q q1 h he hc hr
    simp only [TaskQueue.run, Option.some.injEq] at h
    subst h
    exact ⟨he, hc, hr⟩
  | cons a rest ih =>
    intro q q1 h he hc hr
    cases a with
    | enqueue task_id task =>
      simp only [TaskQueue.run] at h
      cases hq : q.enqueue task_id task with
      | none => simp [hq] at h
      | some q2 =>
        simp only [hq] at h
        obtain ⟨a1, a2, a3⟩ := enqueue_alive q q2 task_id task hq he hc hr
        exact ih q2 q1 h a1 a2 a3
    | consumer =>
      simp only [TaskQueue.run] at h
      obtain ⟨a1, a2, a3⟩ := step_alive q he hc hr
      exact ih _ q1 h a1 a2 a3

/-- An upper bound for the number of steps the consumer needs until every callback it has
been handed has returned. -/
theorem drain_done {W : Type} (n : Nat) :
    ∀ (q : TaskQueue W), q.exit_flag = false → q.consumer ≠ Consumer.exited → q.in_range →
      3 * q.tasks.length + (match q.consumer with
        | Consumer.holding _ _ => 2
        | Consumer.finished _ => 1
        | _ => 0) ≤ n →
      (q.drain n).executed = q.executed ++ q.not_yet_run ∧ (q.drain n).not_yet_run = [] ∧
        (q.drain n).tasks = [] := by
  induction n with
  | zero =>
    intro q he hc hr hw
    cases hcons : q.consumer with
    | waiting =>
      rw [hcons] at hw
      have hlen : q.tasks.length = 0 := by omega
      have ht : q.tasks = [] := List.length_eq_zero.1 hlen
      simp [TaskQueue.drain, TaskQueue.not_yet_run, hcons, ht]
    | holding task_id task =>
      simp only [hcons] at hw
      omega
    | finished task_id =>
      simp only [hcons] at hw
      omega
    | exited => exact absurd hcons hc
  | succ n ih =>
    intro q he hc hr hw
    have hstep := step_executed q
    obtain ⟨a1, a2, a3⟩ := step_alive q he hc hr
    rw [TaskQueue.drain]
    have hw' : 3 * q.processTasks_step.tasks.length + (match q.processTasks_step.consumer with
        | Consumer.holding _ _ => 2
        | Consumer.finished _ => 1
        | _ => 0) ≤ n := by
      cases hcons : q.consumer with
      | waiting =>
        rw [hcons] at hw
        cases ht : q.tasks with
        | nil =>
          rw [step_waiting_nil q hcons ht he, hcons, ht]
          simp
        | cons a rest =>
          obtain ⟨task_id, task⟩ := a
          rw [step_waiting_cons q task_id task rest hcons ht]
          rw [ht] at hw
          simp only [List.length_cons] at hw
          simp only []
          omega
      | holding task_id task =>
        simp only [hcons] at hw
        rw [step_holding q task_id task hcons]
        simp only []
        omega
      | finished task_id =>
        simp only [hcons] at hw
        have hin : 0 ≤ task_id ∧ task_id.toNat < q.sync_flags.length :=
          hr task_id (by simp [TaskQueue.in_flight, hcons])
        rw [step_finished q task_id hcons hin]
        simp only []
        omega
      | exited => exact absurd hcons hc
    obtain ⟨h1, h2, h3⟩ := ih q.processTasks_step a1 a2 a3 hw'
    exact ⟨by rw [h1, hstep], h2, h3⟩

theorem new_alive {W : Type} (max_task_num : Int) (w0 : W) :
    (TaskQueue.new max_task_num w0).exit_flag = false ∧
      (TaskQueue.new max_task_num w0).consumer ≠ Consumer.exited ∧
      (TaskQueue.new max_task_num w0).in_range := by
  refine ⟨rfl, by simp [TaskQueue.new], ?_⟩
  intro id hid
  simp [TaskQueue.new, TaskQueue.in_flight] at hid

/-- C8: with `enqueue` appending to the FIFO and the consumer removing the front element and
running it, for every schedule of enqueues and consumer steps on a fresh queue the ids whose
callbacks have returned, followed by the ids not yet run, are the ids in the order of their
`enqueue`; and once the consumer has had `3 * (queued tasks) + 2` further steps, the ids
executed are exactly the ids enqueued, in the same order. -/
theorem C8_task_queue_fifo {W : Type} (max_task_num : Int) (w0 : W)
    (acts : List (QueueAction W)) (q : TaskQueue W)
    (h : (TaskQueue.new max_task_num w0).run acts = some q) :
    q.executed ++ q.not_yet_run = enqueued_ids acts ∧
    (q.drain (3 * q.tasks.length + 2)).executed = enqueued_ids acts ∧
    (q.drain (3 * q.tasks.length + 2)).tasks = [] := by
  have h1 := run_executed acts _ q h
  have h0 : (TaskQueue.new max_task_num w0).executed ++ (TaskQueue.new max_task_num w0).not_yet_run
      = [] := by
    simp [TaskQueue.new, TaskQueue.not_yet_run]
  rw [h0, List.nil_append] at h1
  obtain ⟨n1, n2, n3⟩ := new_alive max_task_num w0
  obtain ⟨ha, hb, hc⟩ := run_alive acts _ q h n1 n2 n3
  have hw : 3 * q.tasks.length + (match q.consumer with
        | Consumer.holding _ _ => 2
        | Consumer.finished _ => 1
        | _ => 0) ≤ 3 * q.tasks.length + 2 := by
    cases q.consumer <;> simp
  obtain ⟨h2, -, h3⟩ := drain_done (3 * q.tasks.length + 2) q ha hb hc hw
  exact ⟨h1, by rw [h2, h1], h3⟩

/-- Instance of C8, the ordering scenario: tasks `0..9` are enqueued, the callback of task `i`
appends `i` to a shared list; the callbacks run in the order `0, 1, …, 9`. -/
theorem C8_task_queue_fifo_witness :
    ((TaskQueue.new 16 ([] : List Int)).run (append_schedule 10)).map
        (fun q => (q.drain (3 * q.tasks.length + 2)).executed)
      = some (enqueued_ids (append_schedule 10)) ∧
    enqueued_ids (append_schedule 10) = [0, 1, 2, 3, 4, 5, 6, 7, 8, 9] ∧
    ((TaskQueue.new 16 ([] : List Int)).run (append_schedule 10)).map
        (fun q => (q.drain (3 * q.tasks.length + 2)).world)
      = some [0, 1, 2, 3, 4, 5, 6, 7, 8, 9] := by
  have hsome : ((TaskQueue.new 16 ([] : List Int)).run (append_schedule 10)).isSome = true := by
    decide
  obtain ⟨q, hq⟩ := Option.isSome_iff_exists.1 hsome
  refine ⟨?_, by decide, by decide⟩
  rw [hq]
  simp only [Option.map_some']
  rw [(C8_task_queue_fifo 16 ([] : List Int) (append_schedule 10) q hq).2.1]

theorem flags_inv_enqueue {W : Type} (q q1 : TaskQueue W) (task_id : Int) (task : W → W)
    (h : q.enqueue task_id task = some q1) (hu : task_id ∉ q.in_flight)
    (h1 : q.in_flight.Nodup)
    (h3 : ∀ id, 0 ≤ id → id.toNat < q.sync_flags.length →
      (q.flag id = some false ↔ id ∈ q.in_flight)) :
    q1.sync_flags.length = q.sync_flags.length ∧ q1.in_flight.Nodup ∧
    (∀ id, 0 ≤ id → id.toNat < q1.sync_flags.length →
      (q1.flag id = some false ↔ id ∈ q1.in_flight)) := by
  obtain ⟨-, -, e3, -, -, e6, e7, e8⟩ := enqueue_not_yet_run q q1 task_id task h
  have hlen : q1.sync_flags.length = q.sync_flags.length := by rw [e6]; simp
  refine ⟨hlen, ?_, ?_⟩
  · rw [e3]
    exact List.Nodup.append h1 (List.nodup_singleton _) (by simpa using hu)
  · intro id hid0 hidl
    rw [hlen] at hidl
    rw [e3]
    by_cases hc : id = task_id
    · subst hc
      simp [TaskQueue.flag, hid0, e6, hidl]
    · have hne : ¬ task_id.toNat = id.toNat := by omega
      have hf : q1.flag id = q.flag id := by
        simp [TaskQueue.flag, hid0, e6, List.getElem?_set, hne]
      rw [hf, h3 id hid0 hidl]
      simp [hc]

theorem flags_inv_step {W : Type} (q : TaskQueue W) (he : q.exit_flag = false)
    (h1 : q.in_flight.Nodup) (h2 : q.in_range)
    (h3 : ∀ id, 0 ≤ id → id.toNat < q.sync_flags.length →
      (q.flag id = some false ↔ id ∈ q.in_flight)) :
    q.processTasks_step.sync_flags.length = q.sync_flags.length ∧
    q.processTasks_step.in_flight.Nodup ∧
    (∀ id, 0 ≤ id → id.toNat < q.processTasks_step.sync_flags.length →
      (q.processTasks_step.flag id = some false ↔ id ∈ q.processTasks_step.in_flight)) := by
  cases hcons : q.consumer with
  | waiting =>
    cases ht : q.tasks with
    | nil =>
      rw [step_waiting_nil q hcons ht he]
      exact ⟨rfl, h1, h3⟩
    | cons a rest =>
      obtain ⟨task_id, task⟩ := a
      have hq := step_waiting_cons q task_id task rest hcons ht
      have hin : q.processTasks_step.in_flight = q.in_flight := by
        rw [hq]
        simp [TaskQueue.in_flight, hcons, ht]
      have hfl : ∀ id, q.processTasks_step.flag id = q.flag id := by
        intro id
        rw [hq]
        rfl
      have hlen : q.processTasks_step.sync_flags.length = q.sync_flags.length := by
        rw [hq]
      rw [hin, hlen]
      refine ⟨rfl, h1, ?_⟩
      intro id
      rw [hfl]
      exact h3 id
  | holding task_id task =>
    have hq := step_holding q task_id task hcons
    have hin : q.processTasks_step.in_flight = q.in_flight := by
      rw [hq]
      simp [TaskQueue.in_flight, hcons]
    have hfl : ∀ id, q.processTasks_step.flag id = q.flag id := by
      intro id
      rw [hq]
      rfl
    have hlen : q.processTasks_step.sync_flags.length = q.sync_flags.length := by
      rw [hq]
    rw [hin, hlen]
    refine ⟨rfl, h1, ?_⟩
    intro id
    rw [hfl]
    exact h3 id
  | finished task_id =>
    have hr : 0 ≤ task_id ∧ task_id.toNat < q.sync_flags.length :=
      h2 task_id (by simp [TaskQueue.in_flight, hcons])
    have hq := step_finished q task_id hcons hr
    have hin0 : q.in_flight = task_id :: q.tasks.map Prod.fst := by
      simp [TaskQueue.in_flight, hcons]
    have hin : q.processTasks_step.in_flight = q.tasks.map Prod.fst := by
      rw [hq]
      simp [TaskQueue.in_flight]
    have hlen : q.processTasks_step.sync_flags.length = q.sync_flags.length := by
      rw [hq]
      simp
    rw [hin0] at h1 h3
    rw [List.nodup_cons] at h1
    rw [hin, hlen]
    refine ⟨rfl, h1.2, ?_⟩
    intro id hid0 hidl
    by_cases hc : id = task_id
    · subst hc
      have hf : q.processTasks_step.flag id = some true := by
        rw [hq]
        simp [TaskQueue.flag, hid0, hidl]
      rw [hf]
      simp [h1.1]
    · have hne : ¬ task_id.toNat = id.toNat := by omega
      have hf : q.processTasks_step.flag id = q.flag id := by
        rw [hq]
        simp [TaskQueue.flag, hid0, List.getElem?_set, hne]
      rw [hf, h3 id hid0 hidl]
      simp [hc]
  | exited =>
    rw [step_exited q hcons]
    exact ⟨rfl, h1, h3⟩

theorem flags_inv_run {W : Type} (acts : List (QueueAction W)) :
    ∀ (q q1 : TaskQueue W), q.run acts = some q1 → ids_unique q acts →
      q.exit_flag = false → q.consumer ≠ Consumer.exited → q.in_range → q.in_flight.Nodup →
      (∀ id, 0 ≤ id → id.toNat < q.sync_flags.length →
        (q.flag id = some false ↔ id ∈ q.in_flight)) →
      q1.sync_flags.length = q.sync_flags.length ∧
      (∀ id, 0 ≤ id → id.toNat < q1.sync_flags.length →
        (q1.flag id = some false ↔ id ∈ q1.in_flight)) := by
  induction acts with
  | nil =>
    intro q q1 h _ _ _ _ _ h3
    simp only [TaskQueue.run, Option.some.injEq] at h
    subst h
    exact ⟨rfl, h3⟩
  | cons a rest ih =>
    intro q q1 h hu he hc hr h1 h3
    cases a with
    | enqueue task_id task =>
      simp only [TaskQueue.run] at h
      simp only [ids_unique] at hu
      cases hq : q.enqueue task_id task with
      | none => simp [hq] at h
      | some q2 =>
        simp only [hq] at h hu
        obtain ⟨a1, a2, a3⟩ := enqueue_alive q q2 task_id task hq he hc hr
        obtain ⟨i0, i1, i3⟩ := flags_inv_enqueue q q2 task_id task hq hu.1 h1 h3
        obtain ⟨r1, r2⟩ := ih q2 q1 h hu.2 a1 a2 a3 i1 i3
        exact ⟨by rw [r1, i0], r2⟩
    | consumer =>
      simp only [TaskQueue.run] at h
      simp only [ids_unique] at hu
      obtain ⟨a1, a2, a3⟩ := step_alive q he hc hr
      obtain ⟨i0, i1, i3⟩ := flags_inv_step q he h1 hr h3
      obtain ⟨r1, r2⟩ := ih _ q1 h hu a1 a2 a3 i1 i3
      exact ⟨by rw [r1, i0], r2⟩

theorem new_flag {W : Type} (max_task_num : Int) (w0 : W) (id : Int) (h0 : 0 ≤ id)
    (h1 : id < max_task_num) : (TaskQueue.new max_task_num w0).flag id = some true := by
  have : id.toNat < max_task_num.toNat := by omega
  simp [TaskQueue.new, TaskQueue.flag, h0, this]

theorem step_sets_done {W : Type} (q : TaskQueue W) (id : Int)
    (hf : q.flag id = some false) (hs : q.processTasks_step.flag id = some true) :
    q.consumer = Consumer.finished id := by
  have hne : q.flag id ≠ some true := by rw [hf]; simp
  cases hcons : q.consumer with
  | waiting =>
    cases ht : q.tasks with
    | nil =>
      by_cases he : q.exit_flag
      · have hq : q.processTasks_step = { q with consumer := Consumer.exited } := by
          simp [TaskQueue.processTasks_step, hcons, ht, he]
        rw [hq] at hs
        exact absurd hs hne
      · rw [step_waiting_nil q hcons ht (by simpa using he)] at hs
        exact absurd hs hne
    | cons a rest =>
      obtain ⟨task_id, task⟩ := a
      rw [step_waiting_cons q task_id task rest hcons ht] at hs
      exact absurd hs hne
  | holding task_id task =>
    rw [step_holding q task_id task hcons] at hs
    exact absurd hs hne
  | finished task_id =>
    by_cases hr : 0 ≤ task_id ∧ task_id.toNat < q.sync_flags.length
    · rw [step_finished q task_id hcons hr] at hs
      by_cases h0 : 0 ≤ id
      · by_cases hc : task_id.toNat = id.toNat
        · have : task_id = id := by omega
          rw [this]
        · simp only [TaskQueue.flag, h0, if_true, List.getElem?_set, hc, if_false] at hs hf
          rw [hf] at hs
          simp at hs
      · simp [TaskQueue.flag, h0] at hf
    · rw [step_finished_throw q task_id hcons hr] at hs
      exact absurd hs hne
  | exited =>
    rw [step_exited q hcons] at hs
    exact absurd hs hne

theorem step_reaches_finished {W : Type} (q : TaskQueue W) (id : Int)
    (h : q.processTasks_step.consumer = Consumer.finished id) :
    ∃ task, q.consumer = Consumer.holding id task ∧
      q.processTasks_step.world = task q.world ∧
      q.processTasks_step.executed = q.executed ++ [id] := by
  cases hcons : q.consumer with
  | waiting =>
    cases ht : q.tasks with
    | nil =>
      by_cases he : q.exit_flag <;>
        simp [TaskQueue.processTasks_step, hcons, ht, he] at h
    | cons a rest =>
      obtain ⟨task_id, task⟩ := a
      rw [step_waiting_cons q task_id task rest hcons ht] at h
      simp at h
  | holding task_id task =>
    rw [step_holding q task_id task hcons] at h ⊢
    simp only [Consumer.finished.injEq] at h
    subst h
    exact ⟨task, rfl, rfl, rfl⟩
  | finished task_id =>
    by_cases hr : 0 ≤ task_id ∧ task_id.toNat < q.sync_flags.length
    · rw [step_finished q task_id hcons hr] at h
      simp at h
    · rw [step_finished_throw q task_id hcons hr] at h
      simp at h
  | exited =>
    rw [step_exited q hcons, hcons] at h
    simp at h

/-- C9: after construction every flag `sync_flags[id]`, `0 <= id < max_task_num`, is done
(`true`); `enqueue(id, cb)` stores pending (`false`); the only consumer step that turns a flag
from pending to done is the one taken after the callback of that id has returned; and along
every schedule with ids unique in flight, the flag of `id` is pending exactly while `id` is in
flight (queued, or taken by the consumer and not yet flagged), so `sync(id)` cannot return
while `id` is queued or its callback has not returned. -/
theorem C9_task_queue_flags {W : Type} (max_task_num : Int) (w0 : W) :
    (∀ id, 0 ≤ id → id < max_task_num → (TaskQueue.new max_task_num w0).flag id = some true) ∧
    (∀ (q q1 : TaskQueue W) id task, q.enqueue id task = some q1 → q1.flag id = some false) ∧
    (∀ (q : TaskQueue W) id, q.flag id = some false → q.processTasks_step.flag id = some true →
      q.consumer = Consumer.finished id) ∧
    (∀ (q : TaskQueue W) id, q.processTasks_step.consumer = Consumer.finished id →
      ∃ task, q.consumer = Consumer.holding id task ∧
        q.processTasks_step.world = task q.world ∧
        q.processTasks_step.executed = q.executed ++ [id]) ∧
    (∀ (acts : List (QueueAction W)) (q : TaskQueue W),
      (TaskQueue.new max_task_num w0).run acts = some q →
      ids_unique (TaskQueue.new max_task_num w0) acts →
      ∀ id, 0 ≤ id → id < max_task_num →
        (q.flag id = some false ↔ id ∈ q.in_flight) ∧
        (q.sync_returns id = true ↔ id ∉ q.in_flight) ∧
        (id ∈ q.not_yet_run → q.sync_returns id = false)) := by
  refine ⟨fun id h0 h1 => new_flag max_task_num w0 id h0 h1, ?_,
    fun q id hf hs => step_sets_done q id hf hs,
    fun q id h => step_reaches_finished q id h, ?_⟩
  · intro q q1 id task h
    obtain ⟨-, -, -, -, -, e6, e7, e8⟩ := enqueue_not_yet_run q q1 id task h
    simp [TaskQueue.flag, e6, e7, e8]
  · intro acts q hrun hu id h0 h1
    obtain ⟨n1, n2, n3⟩ := new_alive max_task_num w0
    have hnd : (TaskQueue.new max_task_num w0).in_flight.Nodup := by
      simp [TaskQueue.new, TaskQueue.in_flight]
    have hinit : ∀ id, 0 ≤ id → id.toNat < (TaskQueue.new max_task_num w0).sync_flags.length →
        ((TaskQueue.new max_task_num w0).flag id = some false ↔
          id ∈ (TaskQueue.new max_task_num w0).in_flight) := by
      intro id h0 hl
      have hl' : id.toNat < max_task_num.toNat := by simpa [TaskQueue.new] using hl
      rw [new_flag max_task_num w0 id h0 (by omega)]
      simp [TaskQueue.new, TaskQueue.in_flight]
    obtain ⟨r1, r2⟩ := flags_inv_run acts _ q hrun hu n1 n2 n3 hnd hinit
    have hlen : id.toNat < q.sync_flags.length := by
      rw [r1]
      simp only [TaskQueue.new, List.length_replicate]
      omega
    have hiff := r2 id h0 hlen
    have hsome : ∃ b, q.flag id = some b := by
      simp only [TaskQueue.flag, h0, if_true]
      exact ⟨q.sync_flags[id.toNat], List.getElem?_eq_getElem hlen⟩
    obtain ⟨b, hb⟩ := hsome
    have hsync : q.sync_returns id = true ↔ id ∉ q.in_flight := by
      rw [← hiff]
      simp only [TaskQueue.sync_returns, hb]
      cases b <;> simp
    refine ⟨hiff, hsync, ?_⟩
    intro hn
    have hin : id ∈ q.in_flight := by
      simp only [TaskQueue.not_yet_run, List.mem_append] at hn
      simp only [TaskQueue.in_flight, List.mem_append]
      rcases hn with hn | hn
      · left
        cases hc : q.consumer <;> simp_all
      · right
        exact hn
    cases hs : q.sync_returns id
    · rfl
    · exact absurd hin (hsync.1 hs)

/-- Instance of C9: task 3 is enqueued on a fresh queue of 16 ids and taken by the consumer;
while its callback has not returned, `sync(3)` does not return. -/
theorem C9_task_queue_flags_witness :
    ∃ q, (TaskQueue.new 16 ([] : List Int)).run
        [QueueAction.enqueue 3 (fun w => w ++ [3]), QueueAction.consumer] = some q ∧
      q.not_yet_run = [3] ∧ q.sync_returns 3 = false := by
  have hsome : ((TaskQueue.new 16 ([] : List Int)).run
      [QueueAction.enqueue 3 (fun w => w ++ [3]), QueueAction.consumer]).isSome = true := by
    decide
  obtain ⟨q, hq⟩ := Option.isSome_iff_exists.1 hsome
  have hu : ids_unique (TaskQueue.new 16 ([] : List Int))
      [QueueAction.enqueue 3 (fun w => w ++ [3]), QueueAction.consumer] := by
    simp [ids_unique, TaskQueue.new, TaskQueue.in_flight, TaskQueue.enqueue]
  have hn : q.not_yet_run = [3] := by
    have h1 := congrArg (Option.map TaskQueue.not_yet_run) hq
    simp only [Option.map_some'] at h1
    rw [← Option.some_inj, ← h1]
    decide
  refine ⟨q, hq, hn, ?_⟩
  exact ((C9_task_queue_flags 16 ([] : List Int)).2.2.2.2 _ q hq hu 3 (by decide)
    (by decide)).2.2 (by rw [hn]; simp)

theorem memcpy_outside (dst src : Buffer) (doff soff len a : Nat)
    (h : ¬ (doff ≤ a ∧ a < doff + len)) : memcpy dst doff src soff len a = dst a := by
  simp only [memcpy, h, if_false]

theorem memcpy_inside (dst src : Buffer) (doff soff len a : Nat)
    (h : doff ≤ a ∧ a < doff + len) : memcpy dst doff src soff len a = src (soff + (a - doff)) := by
  simp only [memcpy, h, and_self, if_true]

theorem numamerge_q8_0_gap (src dst0 : Buffer) (fresh : Nat → Buffer) :
    numamerge 0 (numadist 2 src fresh 128 128 34 32 1) 128 128 34 32 2 6 dst0 5801
      = dst0 5801 := by
  have hr : List.range 6 = [0, 1, 2, 3, 4, 5] := by decide
  simp only [numamerge, hr, List.foldl_cons, List.foldl_nil]
  unfold numamerge_task
  rw [memcpy_outside _ _ _ _ _ _ (by decide), memcpy_outside _ _ _ _ _ _ (by decide),
    memcpy_outside _ _ _ _ _ _ (by decide), memcpy_outside _ _ _ _ _ _ (by decide),
    memcpy_outside _ _ _ _ _ _ (by decide), memcpy_outside _ _ _ _ _ _ (by decide)]

/-- C10 at the failing input (gate matrix of one 128 x 128 `Q8_0` expert, 34 bytes per block
of 32 elements, 2 NUMA nodes, 6 threads): none of the six `memcpy` ranges of `numamerge`
contains byte 5801 of the destination, which keeps whatever it held before the call; with a
source of ones and a zeroed destination the gathered buffer differs from the expert's block
there. -/
theorem C10_numamerge_q8_0_byte_not_written :
    (∀ (src dst0 : Buffer) (fresh : Nat → Buffer),
      numamerge 0 (numadist 2 src fresh 128 128 34 32 1) 128 128 34 32 2 6 dst0 5801
        = dst0 5801) ∧
    (5801 < 128 * 128 * 34 / 32 ∧
      numamerge 0 (numadist 2 (fun _ => 1) (fun _ _ => 0) 128 128 34 32 1) 128 128 34 32 2 6
          (fun _ => 0) 5801
        ≠ expert_block (fun _ => 1) 0 128 128 34 32 5801) := by
  refine ⟨numamerge_q8_0_gap, by decide, ?_⟩
  rw [numamerge_q8_0_gap]
  simp [expert_block]

/-- C4 at the failing input (`BF16` rows, `Q8_0` gate, `BF16` up): `forward` on one token goes
through `forward_many`, whose two products read operands that hold the format named by their
`Btype` (this holds for every configuration, as it does for the gate product of
`forward_one`); the up product of `forward_one` is told `Btype = BF16` but is handed
`s_gate_input_`, which holds the row in the gate's `Q8_0`. -/
theorem C4_forward_one_up_operand_mismatch :
    (∀ cfg : MOEConfig,
      (forward_many_operands cfg).1.holds = (forward_many_operands cfg).1.Btype ∧
      (forward_many_operands cfg).2.holds = (forward_many_operands cfg).2.Btype ∧
      (forward_one_operands cfg).1.holds = (forward_one_operands cfg).1.Btype) ∧
    forward cfg_mixed 2 1 2 1 1 0 0 0 0 = some [MoeCall.forward_many 1 1 0 0 0 0] ∧
    (forward_many_operands cfg_mixed).2 = ⟨InputBuffer.input, ggml_type.BF16, ggml_type.BF16⟩ ∧
    (forward_one_operands cfg_mixed).2
      = ⟨InputBuffer.s_gate_input_, ggml_type.Q8_0, ggml_type.BF16⟩ := by
  refine ⟨?_, by decide, by decide, by decide⟩
  intro cfg
  obtain ⟨e, r, h, i, gmin, gmax, hidden_type, gate_type, up_type, down_type⟩ := cfg
  cases hidden_type <;> cases gate_type <;> cases up_type <;> exact ⟨rfl, rfl, rfl⟩

/-- The pool state right after a striped dispatch, in closed form. -/
theorem dispatch_striped_state (USE_NUMA : Bool) (b : Backend) (task_num : Int)
    (init_func finalize_func : Bool)
    (hmax : 1 ≤ b.max_thread_num_) (htask : b.max_thread_num_ < task_num)
    (hlen : b.thread_state_.length = b.max_thread_num_.toNat) :
    (do_work_stealing_job USE_NUMA b task_num init_func finalize_func).one_shot_mode = false ∧
    (do_work_stealing_job USE_NUMA b task_num init_func finalize_func).thread_num_
      = b.max_thread_num_ ∧
    ∀ j, j < b.max_thread_num_.toNat →
      (do_work_stealing_job USE_NUMA b task_num init_func finalize_func).state j
        = ⟨ThreadStatus.WORKING,
            stripe_bound (task_num / b.max_thread_num_) (task_num % b.max_thread_num_) j,
            stripe_bound (task_num / b.max_thread_num_) (task_num % b.max_thread_num_) (j + 1)⟩ := by
  have htn : (if USE_NUMA then b.max_thread_num_ else min b.max_thread_num_ task_num)
      = b.max_thread_num_ := by
    cases USE_NUMA
    · simp only [Bool.false_eq_true, if_false]; omega
    · simp
  have hos : decide (task_num ≤ b.max_thread_num_) = false := by
    simp only [decide_eq_false_iff_not]; omega
  have hbase : Int.tdiv task_num b.max_thread_num_ = task_num / b.max_thread_num_ :=
    Int.tdiv_eq_ediv (by omega) (by omega)
  have hremain : Int.tmod task_num b.max_thread_num_ = task_num % b.max_thread_num_ :=
    Int.tmod_eq_emod (by omega) (by omega)
  have hr0 : 0 ≤ task_num % b.max_thread_num_ := Int.emod_nonneg _ (by omega)
  obtain ⟨-, hget⟩ := stripe_loop_inv (task_num / b.max_thread_num_)
    (task_num % b.max_thread_num_) hr0 b.thread_state_ (by omega) (b.max_thread_num_.toNat - 1)
    (by omega)
  refine ⟨?_, ?_, ?_⟩
  · simp only [do_work_stealing_job, hos]
  · simp only [do_work_stealing_job, htn]
  · intro j hj
    simp only [do_work_stealing_job, Backend.state, htn, hos, Bool.false_eq_true, if_false,
      hbase, hremain]
    exact hget j (by omega)

theorem length_interval (lo hi : Int) : (interval lo hi).length = (hi - lo).toNat := by
  simp [interval]

theorem stripe_bound_step (base remain : Int) (i : Nat) :
    stripe_bound base remain (i + 1) - stripe_bound base remain i
      = base + (if (i : Int) < remain then 1 else 0) := by
  unfold stripe_bound
  push_cast
  by_cases h : (i : Int) < remain
  · rw [if_pos h, min_eq_left (by omega), min_eq_left (by omega)]
    ring
  · rw [if_neg h, min_eq_right (by omega), min_eq_right (by omega)]
    ring

/-- The number of `compute` calls of worker `i` after a striped dispatch. -/
theorem striped_call_count (USE_NUMA : Bool) (b : Backend) (task_num : Int)
    (init_func finalize_func : Bool)
    (hmax : 1 ≤ b.max_thread_num_) (htask : b.max_thread_num_ < task_num)
    (hlen : b.thread_state_.length = b.max_thread_num_.toNat) (i : Nat)
    (hi : i < b.max_thread_num_.toNat) :
    ((compute_calls (worker_thread_step
        (do_work_stealing_job USE_NUMA b task_num init_func finalize_func) i).2).length : Int)
      = task_num / b.max_thread_num_
        + (if (i : Int) < task_num % b.max_thread_num_ then 1 else 0) := by
  obtain ⟨hmode, -, hstate⟩ :=
    dispatch_striped_state USE_NUMA b task_num init_func finalize_func hmax htask hlen
  have hr0 : 0 ≤ task_num % b.max_thread_num_ := Int.emod_nonneg _ (by omega)
  have hb0 : 0 ≤ task_num / b.max_thread_num_ := Int.ediv_nonneg (by omega) (by omega)
  simp only [worker_thread_step, hstate i hi]
  rw [process_tasks_striped_calls _ _ hmode, hstate i hi, length_interval]
  have hstep := stripe_bound_step (task_num / b.max_thread_num_) (task_num % b.max_thread_num_)
    i
  simp only at hstep ⊢
  rw [Int.toNat_of_nonneg (by rw [hstep]; split_ifs <;> omega), hstep]

/-- C19: in striped mode worker `i` makes exactly
`floor(task_num / thread_num) + (1 if i < task_num mod thread_num else 0)` calls of `compute`;
the counts of any two workers differ by at most one and the counts of all workers sum to
`task_num`. -/
theorem C19_striped_balance (USE_NUMA : Bool) (b : Backend) (task_num : Int)
    (init_func finalize_func : Bool)
    (hmax : 1 ≤ b.max_thread_num_) (htask : b.max_thread_num_ < task_num)
    (hlen : b.thread_state_.length = b.max_thread_num_.toNat) :
    (do_work_stealing_job USE_NUMA b task_num init_func finalize_func).thread_num_
      = b.max_thread_num_ ∧
    (∀ i, i < b.max_thread_num_.toNat →
      ((compute_calls (worker_thread_step
          (do_work_stealing_job USE_NUMA b task_num init_func finalize_func) i).2).length : Int)
        = task_num / b.max_thread_num_
          + (if (i : Int) < task_num % b.max_thread_num_ then 1 else 0)) ∧
    (∀ i j, i < b.max_thread_num_.toNat → j < b.max_thread_num_.toNat →
      (compute_calls (worker_thread_step
          (do_work_stealing_job USE_NUMA b task_num init_func finalize_func) i).2).length
        ≤ (compute_calls (worker_thread_step
          (do_work_stealing_job USE_NUMA b task_num init_func finalize_func) j).2).length + 1) ∧
    (((List.range b.max_thread_num_.toNat).map (fun i => (compute_calls (worker_thread_step
          (do_work_stealing_job USE_NUMA b task_num init_func finalize_func) i).2).length)).sum
        : Int) = task_num := by
  have hcount := striped_call_count USE_NUMA b task_num init_func finalize_func hmax htask hlen
  obtain ⟨hmode, htn, hstate⟩ :=
    dispatch_striped_state USE_NUMA b task_num init_func finalize_func hmax htask hlen
  refine ⟨htn, hcount, ?_, ?_⟩
  · intro i j hi hj
    have h1 := hcount i hi
    have h2 := hcount j hj
    have : ((compute_calls (worker_thread_step
          (do_work_stealing_job USE_NUMA b task_num init_func finalize_func) i).2).length : Int)
        ≤ ((compute_calls (worker_thread_step
          (do_work_stealing_job USE_NUMA b task_num init_func finalize_func) j).2).length : Int)
          + 1 := by
      rw [h1, h2]
      split_ifs <;> omega
    exact_mod_cast this
  · have hr0 : 0 ≤ task_num % b.max_thread_num_ := Int.emod_nonneg _ (by omega)
    have hb0 : 0 ≤ task_num / b.max_thread_num_ := Int.ediv_nonneg (by omega) (by omega)
    have hrn : task_num % b.max_thread_num_ < b.max_thread_num_ :=
      Int.emod_lt_of_pos _ (by omega)
    have hcalls : ∀ i, i ∈ List.range b.max_thread_num_.toNat →
        compute_calls (worker_thread_step
          (do_work_stealing_job USE_NUMA b task_num init_func finalize_func) i).2
        = interval
            (stripe_bound (task_num / b.max_thread_num_) (task_num % b.max_thread_num_) i)
            (stripe_bound (task_num / b.max_thread_num_) (task_num % b.max_thread_num_)
              (i + 1)) := by
      intro i hi
      have hi' := List.mem_range.1 hi
      simp only [worker_thread_step, hstate i hi']
      rw [process_tasks_striped_calls _ _ hmode, hstate i hi']
    have hflat := flatMap_interval
      (stripe_bound (task_num / b.max_thread_num_) (task_num % b.max_thread_num_))
      b.max_thread_num_.toNat
      (fun i _ => stripe_bound_mono _ _ hb0 i)
    rw [← List.flatMap_congr hcalls] at hflat
    have hlenflat := congrArg List.length hflat
    rw [List.length_flatMap, length_interval] at hlenflat
    have hmap : (List.range b.max_thread_num_.toNat).map (fun i => (compute_calls
          (worker_thread_step
            (do_work_stealing_job USE_NUMA b task_num init_func finalize_func) i).2).length)
        = List.map (List.length ∘ fun x => compute_calls (worker_thread_step
            (do_work_stealing_job USE_NUMA b task_num init_func finalize_func) x).2)
          (List.range b.max_thread_num_.toNat) := rfl
    rw [hmap, hlenflat]
    have hn : ((b.max_thread_num_.toNat : Nat) : Int) = b.max_thread_num_ :=
      Int.toNat_of_nonneg (by omega)
    have hdiff : stripe_bound (task_num / b.max_thread_num_) (task_num % b.max_thread_num_)
          b.max_thread_num_.toNat
        - stripe_bound (task_num / b.max_thread_num_) (task_num % b.max_thread_num_) 0
        = task_num := by
      simp only [stripe_bound, Nat.cast_zero, zero_mul, hn]
      rw [min_eq_left hr0, min_eq_right (by omega)]
      have := Int.ediv_add_emod task_num b.max_thread_num_
      linarith
    rw [hdiff, Int.toNat_of_nonneg (by omega)]

/-- Instance of C19, the fan-out scenario: 100 tasks on a fresh pool of 16 workers make
exactly 100 `compute` calls, 6 or 7 per worker. -/
theorem C19_striped_balance_witness :
    (((List.range 16).map (fun i => (compute_calls (worker_thread_step
          (do_work_stealing_job false (Backend.new 16) 100 false false) i).2).length)).sum
        : Int) = 100 ∧
    ∀ i, i < 16 →
      (compute_calls (worker_thread_step
          (do_work_stealing_job false (Backend.new 16) 100 false false) i).2).length = 6 ∨
      (compute_calls (worker_thread_step
          (do_work_stealing_job false (Backend.new 16) 100 false false) i).2).length = 7 := by
  have h := C19_striped_balance false (Backend.new 16) 100 false false (by decide) (by decide)
    (by decide)
  refine ⟨h.2.2.2, ?_⟩
  intro i hi
  have hc := h.2.1 i hi
  have hq : (100 : Int) / (Backend.new 16).max_thread_num_ = 6 := by decide
  have hr : (100 : Int) % (Backend.new 16).max_thread_num_ = 4 := by decide
  rw [hq, hr] at hc
  split_ifs at hc <;> omega

/-- C20 (as amended): for every configuration with `group_min_len >= 1`, `forward(0, …)`
returns at once (one unit of fuel is enough) and makes no call of `forward_one` or
`forward_many`, hence touches no scratch buffer. -/
theorem C20_forward_zero_tokens (cfg : MOEConfig) (ts bs k e w input output : Int) (fuel : Nat)
    (hmin : 1 ≤ cfg.group_min_len) :
    forward cfg ts bs (fuel + 1) 0 k e w input output = some [] := by
  have hlt : (0 : Int) < cfg.group_min_len := by omega
  simp [forward, hlt]

/-- Instance of C20 (as amended): `group_min_len = 2`, `group_max_len = 3`. -/
theorem C20_forward_zero_tokens_witness :
    forward (cfg_example 2 3) 4 1 (0 + 1) 0 2 0 0 0 0 = some [] :=
  C20_forward_zero_tokens (cfg_example 2 3) 4 1 2 0 0 0 0 0 (by decide)

/-- C20 as stated fails for a configuration with `group_min_len <= 0`: there `0 < group_min_len`
is false, `forward(0, …)` calls `forward_many(0, …)` and then `forward(0, …)` again, and so on;
it returns for no fuel. -/
theorem C20_forward_zero_tokens_counterexample :
    (¬ ∃ fuel calls, forward (cfg_example 0 4) 4 1 fuel 0 1 0 0 0 0 = some calls) ∧
    (¬ ∃ fuel calls, forward (cfg_example (-1) 4) 4 1 fuel 0 1 0 0 0 0 = some calls) := by
  constructor
  · rintro ⟨fuel, calls, h⟩
    rw [forward_never_returns (cfg_example 0 4) 4 1 0 1 (by decide) (by decide) fuel] at h
    exact Option.noConfusion h
  · rintro ⟨fuel, calls, h⟩
    rw [forward_never_returns (cfg_example (-1) 4) 4 1 0 1 (by decide) (by decide) fuel] at h
    exact Option.noConfusion h

theorem store_curr_getD (ts : List ThreadState) (i j : Nat) (c : Int) :
    ((store_curr ts i c).getD j default).status = (ts.getD j default).status := by
  simp only [store_curr, getD_set]
  split_ifs with h
  · rw [h.1]
  · rfl

theorem store_end_getD (ts : List ThreadState) (i j : Nat) (e : Int) :
    ((store_end ts i e).getD j default).status = (ts.getD j default).status := by
  simp only [store_end, getD_set]
  split_ifs with h
  · rw [h.1]
  · rfl

theorem store_status_cases (ts : List ThreadState) (i j : Nat) (s : ThreadStatus) :
    ((store_status ts i s).getD j default).status = s ∨
      ((store_status ts i s).getD j default).status = (ts.getD j default).status := by
  rw [store_status_getD]
  split_ifs with h
  · left; rfl
  · right; rfl

theorem stripe_step_status (base remain : Int) (ts : List ThreadState) (i j : Nat) :
    ((stripe_step base remain ts i).getD j default).status = ThreadStatus.WORKING ∨
      ((stripe_step base remain ts i).getD j default).status = (ts.getD j default).status := by
  unfold stripe_step
  rcases store_status_cases
      (store_end (store_curr ts i (ts.getD (i - 1) default).end_) i
        (((store_curr ts i (ts.getD (i - 1) default).end_).getD (i - 1) default).end_ + base
          + b2i (decide ((i : Int) < remain)))) i j ThreadStatus.WORKING with h | h
  · left; exact h
  · right
    rw [h, store_end_getD, store_curr_getD]

theorem stripe_loop_status (base remain : Int) (l : List Nat) :
    ∀ (ts : List ThreadState) (j : Nat),
      ((l.foldl (stripe_step base remain) ts).getD j default).status = ThreadStatus.WORKING ∨
        ((l.foldl (stripe_step base remain) ts).getD j default).status
          = (ts.getD j default).status := by
  induction l with
  | nil =>
    intro ts j
    right; rfl
  | cons a l ih =>
    intro ts j
    rw [List.foldl_cons]
    rcases ih (stripe_step base remain ts a) j with h | h
    · left; exact h
    · rw [h]
      exact stripe_step_status base remain ts a j

/-- The caller writes no status but `WORKING`. -/
theorem dispatch_status (USE_NUMA : Bool) (b : Backend) (task_num : Int)
    (init_func finalize_func : Bool) (j : Nat) :
    ((do_work_stealing_job USE_NUMA b task_num init_func finalize_func).state j).status
        = ThreadStatus.WORKING ∨
      ((do_work_stealing_job USE_NUMA b task_num init_func finalize_func).state j).status
        = (b.state j).status := by
  unfold do_work_stealing_job Backend.state
  simp only []
  by_cases hos : task_num ≤ b.max_thread_num_
  · simp only [hos, decide_True, if_true]
    rw [(one_shot_loop ThreadStatus.WORKING b.thread_state_ _).2 j]
    split_ifs <;> first | (left; rfl) | (right; rfl)
  · simp only [hos, decide_False, Bool.false_eq_true, if_false]
    rcases stripe_loop_status _ _ _ _ j with h | h
    · left; exact h
    · rw [h]
      rcases store_status_cases _ 0 j ThreadStatus.WORKING with h1 | h1
      · left; exact h1
      · right
        rw [h1, store_curr_getD, store_end_getD]

/-- A worker writes no status but `WAITING`, into its own entry, and only after it has read
`WORKING` there. -/
theorem worker_status (b : Backend) (thread_id j : Nat) :
    ((worker_thread_step b thread_id).1.state j).status = (b.state j).status ∨
      (j = thread_id ∧ (b.state j).status = ThreadStatus.WORKING ∧
        ((worker_thread_step b thread_id).1.state j).status = ThreadStatus.WAITING) := by
  unfold worker_thread_step
  cases hs : (b.state thread_id).status with
  | WORKING =>
    have hl : thread_id < b.thread_state_.length := by
      by_contra hn
      have hd : b.state thread_id = default := by
        unfold Backend.state
        rw [List.getD_eq_getElem?_getD, List.getElem?_eq_none (by omega)]
        rfl
      rw [hd] at hs
      exact ThreadStatus.noConfusion hs
    simp only [process_tasks, Backend.state]
    rw [store_status_getD]
    by_cases hj : thread_id = j
    · right
      subst hj
      refine ⟨rfl, hs, ?_⟩
      cases b.one_shot_mode
      · simp only [Bool.false_eq_true, if_false]
        rw [if_pos ⟨trivial, by simpa [store_curr] using hl⟩]
      · simp only [if_true]
        rw [if_pos ⟨trivial, hl⟩]
    · left
      have : ¬ (thread_id = j ∧ thread_id < (if b.one_shot_mode = true then
          (b.thread_state_, [Event.compute (thread_id : Int)])
          else (store_curr b.thread_state_ thread_id
            (fetch_loop (b.thread_state_.getD thread_id default).end_
              (b.thread_state_.getD thread_id default).curr).2,
            List.map Event.compute (fetch_loop (b.thread_state_.getD thread_id default).end_
              (b.thread_state_.getD thread_id default).curr).1)).1.length) :=
        fun h => hj h.1
      rw [if_neg this]
      cases b.one_shot_mode
      · simp only [Bool.false_eq_true, if_false]
        rw [store_curr_getD]
      · rfl
  | WAITING => left; rfl
  | EXIT => left; rfl

theorem destroy_status (b : Backend) (j : Nat) (hj : j < b.thread_state_.length)
    (hlen : b.thread_state_.length = b.max_thread_num_.toNat) :
    (b.destroy.state j).status = ThreadStatus.EXIT := by
  unfold Backend.destroy Backend.state
  simp only []
  rw [(one_shot_loop ThreadStatus.EXIT b.thread_state_ _).2 j]
  have : j < b.max_thread_num_.toNat ∧ j < b.thread_state_.length := ⟨by omega, hj⟩
  rw [if_pos this]

set_option maxRecDepth 100000 in
theorem load_f8_e4m3_lane_bits : ∀ b, b < 256 →
    load_f8_e4m3_lane b = ((b &&& 0x80) <<< 8) ||| (((b &&& 0x7f) <<< 4) + (120 <<< 7)) ∧
    load_f8_e4m3_lane b < 65536 ∧
    bf16_sign (load_f8_e4m3_lane b) = b >>> 7 ∧
    bf16_exponent (load_f8_e4m3_lane b) = ((b >>> 3) &&& 0xf) + 120 ∧
    bf16_mantissa (load_f8_e4m3_lane b) = (b &&& 7) * 16 := by
  decide

/-- C13: for every input byte `b` (sign bit `s = b >> 7`, exponent field `e = (b >> 3) & 15`,
mantissa field `m = b & 7`, the cases `e = 0` and `b = 0x00` included) the 16-bit lane of
`load<__m512bh>(ggml_f8_e4m3_t*)` is `((b & 0x80) << 8) | (((b & 0x7f) << 4) + (120 << 7))`;
it fits 16 bits, its `BF16` sign bit is `s`, its exponent field is `e + 120` and its mantissa
field is `m * 16` (no carry reaches the sign bit), and it stands for
`(−1)^s · 2^(e−7) · (1 + m/8)` exactly. -/
theorem C13_f8_e4m3_to_bf16 (b : Nat) (hb : b < 256) :
    load_f8_e4m3_lane b = ((b &&& 0x80) <<< 8) ||| (((b &&& 0x7f) <<< 4) + (120 <<< 7)) ∧
    load_f8_e4m3_lane b < 65536 ∧
    bf16_sign (load_f8_e4m3_lane b) = b >>> 7 ∧
    bf16_exponent (load_f8_e4m3_lane b) = ((b >>> 3) &&& 0xf) + 120 ∧
    bf16_mantissa (load_f8_e4m3_lane b) = (b &&& 7) * 16 ∧
    bf16_value (load_f8_e4m3_lane b)
      = (-1 : ℚ) ^ (b >>> 7) * (2 : ℚ) ^ ((((b >>> 3) &&& 0xf : Nat) : Int) - 7)
          * (1 + ((b &&& 7 : Nat) : ℚ) / 8) := by
  obtain ⟨h1, h2, h3, h4, h5⟩ := load_f8_e4m3_lane_bits b hb
  refine ⟨h1, h2, h3, h4, h5, ?_⟩
  unfold bf16_value
  rw [h3, h4, h5]
  have he : ∀ n : Nat, ((n + 120 : Nat) : Int) - 127 = (n : Int) - 7 := by
    intro n
    push_cast
    ring
  have hm : ∀ n : Nat, (1 + ((n * 16 : Nat) : ℚ) / 128) = (1 + (n : ℚ) / 8) := by
    intro n
    push_cast
    ring
  rw [he, hm]

/-- Instance of C13: the byte `0x00` expands to the lane `0x3C00`, which stands for `2^(−7)`,
and the byte `0xFF` to `0xC3F0`, which stands for `−2^8 · 15/8`. -/
theorem C13_f8_e4m3_to_bf16_witness :
    bf16_value (load_f8_e4m3_lane 0)
      = (-1 : ℚ) ^ (0 >>> 7) * (2 : ℚ) ^ ((((0 >>> 3) &&& 0xf : Nat) : Int) - 7)
          * (1 + ((0 &&& 7 : Nat) : ℚ) / 8) ∧
    bf16_value (load_f8_e4m3_lane 255)
      = (-1 : ℚ) ^ (255 >>> 7) * (2 : ℚ) ^ ((((255 >>> 3) &&& 0xf : Nat) : Int) - 7)
          * (1 + ((255 &&& 7 : Nat) : ℚ) / 8) :=
  ⟨(C13_f8_e4m3_to_bf16 0 (by decide)).2.2.2.2.2, (C13_f8_e4m3_to_bf16 255 (by decide)).2.2.2.2.2⟩

/-- C14 (as amended): `llamafile_sgemm` reports two outcomes.  It returns `true` exactly when
a kernel proceeded (the external `iqk_mul_mat` serviced the call, or the dispatch reached a
`return true`), and `false` in every other case: the macros `WANT_QUANTIZATION` and
`NOT_SUPPORTED` both expand to `false`, so the result for "wants `B` re-quantized" (`A = BF16`
or `Q8_0` with `B = F32`) is the result for "not supported" (`A = F32` with `B ≠ F32`). -/
theorem C14_sgemm_two_outcomes :
    (∀ (tg : Target) (iqk : Bool) (n k : Int) (Atype Btype : Option ggml_type),
      llamafile_sgemm tg iqk n k Atype Btype (some ggml_type.F32) = true ↔
        (iqk = true ∨ llamafile_sgemm_impl_outcome tg n k Atype Btype = Outcome.proceeded)) ∧
    (∀ (tg : Target) (iqk : Bool) (n k : Int) (Atype Btype Ctype : Option ggml_type),
      Ctype ≠ some ggml_type.F32 → llamafile_sgemm tg iqk n k Atype Btype Ctype = false) ∧
    Outcome.WANT_QUANTIZATION.value = Outcome.NOT_SUPPORTED.value ∧
    (∀ (tg : Target) (n k : Int),
      llamafile_sgemm_impl_outcome tg n k (some ggml_type.Q8_0) (some ggml_type.F32)
        = Outcome.WANT_QUANTIZATION) ∧
    (∀ (n k : Int), 2 ≤ n → Int.tmod k 32 = 0 →
      llamafile_sgemm_impl_outcome target_avx512bf16 n k (some ggml_type.BF16)
        (some ggml_type.F32) = Outcome.WANT_QUANTIZATION) ∧
    (∀ (tg : Target) (n k : Int) (Btype : Option ggml_type), Btype ≠ some ggml_type.F32 →
      llamafile_sgemm_impl_outcome tg n k (some ggml_type.F32) Btype
        = Outcome.NOT_SUPPORTED) := by
  refine ⟨?_, ?_, rfl, ?_, ?_, ?_⟩
  · intro tg iqk n k Atype Btype
    cases iqk
    · simp only [llamafile_sgemm, llamafile_sgemm_impl, Bool.false_eq_true, and_false, if_false,
        false_or]
      cases llamafile_sgemm_impl_outcome tg n k Atype Btype <;> simp [Outcome.value]
    · simp [llamafile_sgemm]
  · intro tg iqk n k Atype Btype Ctype hC
    unfold llamafile_sgemm
    have h1 : ¬ (Ctype = some ggml_type.F32 ∧ iqk = true) := fun h => hC h.1
    rw [if_neg h1]
    split
    · exact absurd rfl hC
    · rfl
  · intro tg n k
    simp [llamafile_sgemm_impl_outcome, sgemm_case_Q0]
  · intro n k hn hk
    have hn' : ¬ n < 2 := by omega
    simp [llamafile_sgemm_impl_outcome, sgemm_case_BF16, target_avx512bf16, hk, hn']
  · intro tg n k Btype hB
    simp [llamafile_sgemm_impl_outcome, hB]

/-- Instance of C14 (as amended) on the AVX-512 BF16 target: with `Ctype = BF16` the call
returns `false`; `A = BF16`, `B = F32`, `n = 4`, `k = 64` reaches `return WANT_QUANTIZATION`;
`A = F32`, `B = BF16` reaches `return NOT_SUPPORTED`. -/
theorem C14_sgemm_two_outcomes_witness :
    llamafile_sgemm target_avx512bf16 false 4 64 (some ggml_type.BF16) (some ggml_type.BF16)
      (some ggml_type.BF16) = false ∧
    llamafile_sgemm_impl_outcome target_avx512bf16 4 64 (some ggml_type.BF16)
      (some ggml_type.F32) = Outcome.WANT_QUANTIZATION ∧
    llamafile_sgemm_impl_outcome target_avx512bf16 4 64 (some ggml_type.F32)
      (some ggml_type.BF16) = Outcome.NOT_SUPPORTED :=
  ⟨C14_sgemm_two_outcomes.2.1 target_avx512bf16 false 4 64 (some ggml_type.BF16)
      (some ggml_type.BF16) (some ggml_type.BF16) (by decide),
   C14_sgemm_two_outcomes.2.2.2.2.1 4 64 (by decide) (by decide),
   C14_sgemm_two_outcomes.2.2.2.2.2 target_avx512bf16 4 64 (some ggml_type.BF16) (by decide)⟩

/-- C14 as stated fails: on the AVX-512 BF16 target with `n = 4`, `k = 64`, `Ctype = F32` and
`iqk_mul_mat` declining, the call with `A = Q8_0`, `B = F32` reaches
`return WANT_QUANTIZATION` and the call with `A = F32`, `B = BF16` reaches
`return NOT_SUPPORTED`, and `llamafile_sgemm` returns the same value, `false`, for both. -/
theorem C14_want_quantization_is_not_supported_counterexample :
    llamafile_sgemm_impl_outcome target_avx512bf16 4 64 (some ggml_type.Q8_0)
      (some ggml_type.F32) = Outcome.WANT_QUANTIZATION ∧
    llamafile_sgemm_impl_outcome target_avx512bf16 4 64 (some ggml_type.F32)
      (some ggml_type.BF16) = Outcome.NOT_SUPPORTED ∧
    llamafile_sgemm target_avx512bf16 false 4 64 (some ggml_type.Q8_0) (some ggml_type.F32)
      (some ggml_type.F32) = false ∧
    llamafile_sgemm target_avx512bf16 false 4 64 (some ggml_type.F32) (some ggml_type.BF16)
      (some ggml_type.F32) = false := by
  decide

theorem mul_row_bytes (cols ts bs : Nat) (hdiv : bs ∣ cols * ts) (x : Nat) :
    x * cols * ts / bs = x * (cols * ts / bs) := by
  rw [Nat.mul_assoc, Nat.mul_div_assoc x hdiv]

theorem block_copy_fold (src : Buffer) (L : Nat) (s : Nat → Nat) (n : Nat) (d : Buffer) :
    ∀ (i a : Nat), i < n → i * L ≤ a → a < i * L + L →
      (List.range n).foldl (fun (d : Buffer) iexpert => memcpy d (iexpert * L) src (s iexpert) L)
        d a = src (s i + (a - i * L)) := by
  induction n with
  | zero => intro i a hi; omega
  | succ n ih =>
    intro i a hi hlo hhi
    rw [List.range_succ, List.foldl_append]
    simp only [List.foldl_cons, List.foldl_nil]
    by_cases hin : i = n
    · subst hin
      exact memcpy_inside _ _ _ _ _ _ ⟨hlo, hhi⟩
    · have hlt : i < n := by omega
      have hle : (i + 1) * L ≤ n * L := Nat.mul_le_mul_right L (by omega)
      rw [Nat.add_mul, Nat.one_mul] at hle
      rw [memcpy_outside _ _ _ _ _ _ (by omega)]
      exact ih i a hlt hlo hhi

theorem numadist_getD (numa_nodes : Nat) (src : Buffer) (fresh : Nat → Buffer)
    (rows cols ts bs expert_num inuma : Nat) (h : inuma < numa_nodes) (d : Buffer) :
    (numadist numa_nodes src fresh rows cols ts bs expert_num).getD inuma d
      = (List.range expert_num).foldl (fun (d : Buffer) iexpert =>
          memcpy d (iexpert * (rows / 2) * cols * ts / bs) src
            ((iexpert * rows + inuma * (rows / 2)) * cols * ts / bs)
            (rows / 2 * cols * ts / bs)) (fresh inuma) := by
  simp [numadist, List.getD_eq_getElem?_getD, List.getElem?_map, List.getElem?_range h]

/-- What `numadist` stores: byte `j` of row `e * (rows / 2) + q` of shard `inuma` is byte `j` of
row `e * rows + inuma * (rows / 2) + q` of the source. -/
theorem numadist_shard_row (numa_nodes : Nat) (src : Buffer) (fresh : Nat → Buffer)
    (rows cols ts bs expert_num inuma e q j : Nat) (hdiv : bs ∣ cols * ts)
    (hn : inuma < numa_nodes) (he : e < expert_num) (hq : q < rows / 2)
    (hj : j < cols * ts / bs) (d : Buffer) :
    (numadist numa_nodes src fresh rows cols ts bs expert_num).getD inuma d
        ((e * (rows / 2) + q) * (cols * ts / bs) + j)
      = src ((e * rows + inuma * (rows / 2) + q) * (cols * ts / bs) + j) := by
  rw [numadist_getD _ _ _ _ _ _ _ _ _ hn]
  have hfun : (fun (d : Buffer) iexpert =>
      memcpy d (iexpert * (rows / 2) * cols * ts / bs) src
        ((iexpert * rows + inuma * (rows / 2)) * cols * ts / bs) (rows / 2 * cols * ts / bs))
      = (fun (d : Buffer) iexpert =>
      memcpy d (iexpert * (rows / 2 * (cols * ts / bs))) src
        ((iexpert * rows + inuma * (rows / 2)) * (cols * ts / bs))
        (rows / 2 * (cols * ts / bs))) := by
    funext d iexpert
    rw [mul_row_bytes cols ts bs hdiv, mul_row_bytes cols ts bs hdiv,
      mul_row_bytes cols ts bs hdiv, Nat.mul_assoc]
  rw [hfun]
  have hqj : q * (cols * ts / bs) + j < rows / 2 * (cols * ts / bs) := by
    have : (q + 1) * (cols * ts / bs) ≤ rows / 2 * (cols * ts / bs) :=
      Nat.mul_le_mul_right _ hq
    rw [Nat.add_mul, Nat.one_mul] at this
    omega
  have ha : (e * (rows / 2) + q) * (cols * ts / bs) + j
      = e * (rows / 2 * (cols * ts / bs)) + (q * (cols * ts / bs) + j) := by ring
  rw [ha, block_copy_fold src (rows / 2 * (cols * ts / bs))
    (fun iexpert => (iexpert * rows + inuma * (rows / 2)) * (cols * ts / bs)) expert_num
    (fresh inuma) e _ he (by omega) (by omega)]
  congr 1
  rw [Nat.add_sub_cancel_left]
  ring

theorem numaget_row (r rows : Nat) (hrows : 2 ∣ rows) (hr : r < rows) :
    (if r < rows / 2 then 0 else 1) < 2 ∧ r % (rows / 2) < rows / 2 ∧
    (if r < rows / 2 then 0 else 1) * (rows / 2) + r % (rows / 2) = r := by
  obtain ⟨h, rfl⟩ := hrows
  rw [Nat.mul_div_cancel_left h (by decide : 0 < 2)]
  by_cases hlt : r < h
  · rw [if_pos hlt, Nat.mod_eq_of_lt hlt]
    omega
  · rw [if_neg hlt]
    have h1 : r % h = r - h := by
      rw [Nat.mod_eq_sub_mod (by omega), Nat.mod_eq_of_lt (by omega)]
    omega

theorem shard_row_unique (rows e e1 r inuma q : Nat) (hrows : 2 ∣ rows) (hr : r < rows)
    (hn : inuma < 2) (hq : q < rows / 2) :
    e1 * rows + inuma * (rows / 2) + q = e * rows + r ↔
      (inuma = (if r < rows / 2 then 0 else 1) ∧ e1 = e ∧ q = r % (rows / 2)) := by
  obtain ⟨h1, h2, h3⟩ := numaget_row r rows hrows hr
  obtain ⟨h, rfl⟩ := hrows
  rw [Nat.mul_div_cancel_left h (by decide : 0 < 2)] at *
  have hcases : inuma = 0 ∨ inuma = 1 := by omega
  constructor
  · intro heq
    have hee : e1 = e := by
      rcases Nat.lt_trichotomy e1 e with hlt | heq1 | hgt
      · have : (e1 + 1) * (2 * h) ≤ e * (2 * h) := Nat.mul_le_mul_right _ hlt
        rw [Nat.add_mul, Nat.one_mul] at this
        rcases hcases with h0 | h0 <;> subst h0 <;> omega
      · exact heq1
      · have : (e + 1) * (2 * h) ≤ e1 * (2 * h) := Nat.mul_le_mul_right _ hgt
        rw [Nat.add_mul, Nat.one_mul] at this
        omega
    subst hee
    have hir : inuma * h + q = r := by omega
    by_cases hlt : r < h
    · rw [if_pos hlt, Nat.mod_eq_of_lt hlt]
      rw [if_pos hlt] at h3
      rcases hcases with h0 | h0 <;> subst h0 <;> omega
    · rw [if_neg hlt] at h3 ⊢
      rcases hcases with h0 | h0 <;> subst h0 <;> omega
  · rintro ⟨hi, he1, hqq⟩
    subst hi he1 hqq
    omega

/-- C11 (as amended): for a weight matrix with an even number `rows` of rows per expert, a
row of `cols` elements taking `cols * ts / bs` whole bytes (`bs > 0` divides `cols * ts`),
sharded over two nodes, and for expert `e < expert_num` and row offset `r < rows`: `numaget` selects shard 0 if `r < rows/2`
and shard 1 otherwise, at the byte offset of intra-shard row `e * (rows/2) + r mod (rows/2)`;
every byte `numadist` stored in that row is the byte of row `e * rows + r` of the source; and
among all rows of the two shards (shard `inuma`, row `e1 * (rows/2) + q`, which holds source
row `e1 * rows + inuma * (rows/2) + q`) the one `numaget` addresses is the only one holding
row `e * rows + r`. -/
theorem C11_numaget_addresses_row (src : Buffer) (fresh : Nat → Buffer)
    (rows cols ts bs expert_num e r : Nat) (hrows : 2 ∣ rows) (hbs : 0 < bs)
    (hdiv : bs ∣ cols * ts) (he : e < expert_num) (hr : r < rows) :
    (numaget e r rows cols ts bs).1 = (if r < rows / 2 then 0 else 1) ∧
    (numaget e r rows cols ts bs).2
      = (e * (rows / 2) + r % (rows / 2)) * (cols * ts / bs) ∧
    (∀ j, j < cols * ts / bs →
      (numadist 2 src fresh rows cols ts bs expert_num).getD (numaget e r rows cols ts bs).1
          (fun _ => 0) ((numaget e r rows cols ts bs).2 + j)
        = src ((e * rows + r) * (cols * ts / bs) + j)) ∧
    (∀ inuma e1 q, inuma < 2 → e1 < expert_num → q < rows / 2 →
      (∀ j, j < cols * ts / bs →
        (numadist 2 src fresh rows cols ts bs expert_num).getD inuma (fun _ => 0)
            ((e1 * (rows / 2) + q) * (cols * ts / bs) + j)
          = src ((e1 * rows + inuma * (rows / 2) + q) * (cols * ts / bs) + j)) ∧
      (e1 * rows + inuma * (rows / 2) + q = e * rows + r ↔
        (inuma = (numaget e r rows cols ts bs).1 ∧ e1 = e ∧ q = r % (rows / 2)))) := by
  have _ := hbs
  have hnode : (numaget e r rows cols ts bs).1 = (if r < rows / 2 then 0 else 1) := rfl
  have hoff : (numaget e r rows cols ts bs).2
      = (e * (rows / 2) + r % (rows / 2)) * (cols * ts / bs) := by
    show (e * (rows / 2) + r % (rows / 2)) * cols * ts / bs = _
    exact mul_row_bytes cols ts bs hdiv _
  obtain ⟨h1, h2, h3⟩ := numaget_row r rows hrows hr
  refine ⟨hnode, hoff, ?_, ?_⟩
  · intro j hj
    rw [hoff, hnode, numadist_shard_row 2 src fresh rows cols ts bs expert_num _ e _ j hdiv h1
      he h2 hj, Nat.add_assoc, h3]
  · intro inuma e1 q hn he1 hq
    refine ⟨fun j hj => numadist_shard_row 2 src fresh rows cols ts bs expert_num inuma e1 q j
      hdiv hn he1 hq hj _, ?_⟩
    rw [hnode]
    exact shard_row_unique rows e e1 r inuma q hrows hr hn hq

/-- Instance of C11 (as amended): 2 experts of 4 rows of 2 one-byte elements, source byte `a` at offset `a`;
for expert 1 and row offset 3 `numaget` gives shard 1 and intra-shard row `1 * 2 + 1`, and the
second byte there is byte `(1 * 4 + 3) * 2 + 1` of the source. -/
theorem C11_numaget_addresses_row_witness :
    (2 ∣ 4 ∧ 0 < 1 ∧ 1 ∣ 2 * 1 ∧ 1 < 2 ∧ 3 < 4) ∧
    (numaget 1 3 4 2 1 1).1 = (if 3 < 4 / 2 then 0 else 1) ∧
    (numaget 1 3 4 2 1 1).2 = (1 * (4 / 2) + 3 % (4 / 2)) * (2 * 1 / 1) ∧
    (numadist 2 (fun a => a) (fun _ _ => 0) 4 2 1 1 2).getD (numaget 1 3 4 2 1 1).1
        (fun _ => 0) ((numaget 1 3 4 2 1 1).2 + 1)
      = (fun a => a) ((1 * 4 + 3) * (2 * 1 / 1) + 1) :=
  ⟨by decide,
   (C11_numaget_addresses_row (fun a => a) (fun _ _ => 0) 4 2 1 1 2 1 3 (by decide)
      (by decide) (by decide) (by decide) (by decide)).1,
   (C11_numaget_addresses_row (fun a => a) (fun _ _ => 0) 4 2 1 1 2 1 3 (by decide)
      (by decide) (by decide) (by decide) (by decide)).2.1,
   (C11_numaget_addresses_row (fun a => a) (fun _ _ => 0) 4 2 1 1 2 1 3 (by decide)
      (by decide) (by decide) (by decide) (by decide)).2.2.1 1 (by decide)⟩

/-- C11 as stated fails for an odd row count: one expert of 3 rows of one byte, source byte
`100 + a` at offset `a`.  `rows / 2 = 1`, so for row offset 2 `numaget` gives shard 1 at
intra-shard row `0 * 1 + 2 mod 1 = 0`; the byte `numadist` stored there is byte 101 of source
row 1, not byte 102 of source row `0 * 3 + 2`; beyond offset 0 both shards hold only the
bytes of the fresh blocks, so source row 2 is in neither. -/
theorem C11_odd_rows_counterexample :
    (0 < 1 ∧ 1 ∣ 1 * 1 ∧ 0 < 1 ∧ 2 < 3 ∧ ¬ 2 ∣ 3) ∧
    numaget 0 2 3 1 1 1 = (1, 0) ∧
    (numadist 2 (fun a => 100 + a) (fun _ _ => 0) 3 1 1 1 1).getD (numaget 0 2 3 1 1 1).1
        (fun _ => 0) ((numaget 0 2 3 1 1 1).2 + 0) = 101 ∧
    (fun a => 100 + a) ((0 * 3 + 2) * (1 * 1 / 1) + 0) = 102 ∧
    (numadist 2 (fun a => 100 + a) (fun _ _ => 0) 3 1 1 1 1).getD (numaget 0 2 3 1 1 1).1
        (fun _ => 0) ((numaget 0 2 3 1 1 1).2 + 0)
      ≠ (fun a => 100 + a) ((0 * 3 + 2) * (1 * 1 / 1) + 0) ∧
    (∀ inuma a, inuma < 2 → 0 < a →
      (numadist 2 (fun a => 100 + a) (fun _ _ => 0) 3 1 1 1 1).getD inuma (fun _ => 0) a
        = 0) := by
  refine ⟨by decide, by decide, by decide, by decide, by decide, ?_⟩
  intro inuma a hi ha
  have hc : inuma = 0 ∨ inuma = 1 := by omega
  rcases hc with rfl | rfl
  · show (if 0 ≤ a ∧ a < 0 + 1 then _ else 0) = 0
    rw [if_neg (by omega)]
  · show (if 0 ≤ a ∧ a < 0 + 1 then _ else 0) = 0
    rw [if_neg (by omega)]

theorem list_getD_set {α : Type} (l : List α) (i j : Nat) (a d : α) :
    (l.set i a).getD j d = if i = j ∧ i < l.length then a else l.getD j d := by
  simp only [List.getD_eq_getElem?_getD, List.getElem?_set]
  by_cases hij : i = j
  · subst hij
    by_cases hl : i < l.length
    · simp [hl]
    · simp [hl, List.getElem?_eq_none (Nat.le_of_not_lt hl)]
  · simp [hij]

theorem foldl_flatMap_eq {α β γ : Type} (f : γ → β → γ) (g : α → List β) (l : List α) (s : γ) :
    (l.flatMap g).foldl f s = l.foldl (fun s i => (g i).foldl f s) s := by
  induction l generalizing s with
  | nil => rfl
  | cons x xs ih => rw [List.flatMap_cons, List.foldl_append, List.foldl_cons, ih]

theorem bucket_step_num (k : Nat) (expert_ids : Nat → Nat) (st : Buckets) (i j e : Nat)
    (h : expert_ids (i * k + j) < st.m_local_num_.length) :
    (bucket_step k expert_ids st i j).num e
      = if expert_ids (i * k + j) = e then st.num e + 1 else st.num e := by
  simp only [Buckets.num, bucket_step, list_getD_set]
  by_cases he : expert_ids (i * k + j) = e
  · subst he
    simp [h]
  · simp [he]

theorem bucket_step_pos (k : Nat) (expert_ids : Nat → Nat) (st : Buckets) (i j i1 j1 : Nat)
    (hi : i < st.m_local_pos_.length) (hj : j < (st.m_local_pos_.getD i []).length) :
    (bucket_step k expert_ids st i j).pos i1 j1
      = if i1 = i ∧ j1 = j then st.num (expert_ids (i * k + j)) else st.pos i1 j1 := by
  show ((st.m_local_pos_.set i ((st.m_local_pos_.getD i []).set j
      (st.m_local_num_.getD (expert_ids (i * k + j)) 0))).getD i1 []).getD j1 0
    = if i1 = i ∧ j1 = j then st.m_local_num_.getD (expert_ids (i * k + j)) 0
      else (st.m_local_pos_.getD i1 []).getD j1 0
  rw [list_getD_set]
  by_cases h1 : i = i1
  · subst h1
    rw [if_pos ⟨rfl, hi⟩, list_getD_set]
    by_cases h2 : j = j1
    · subst h2
      rw [if_pos ⟨rfl, hj⟩, if_pos ⟨rfl, rfl⟩]
    · rw [if_neg (fun h => h2 h.1), if_neg (fun h => h2 h.2.symm)]
  · rw [if_neg (fun h => h1 h.1), if_neg (fun h => h1 h.1.symm)]

theorem bucket_step_dims (k : Nat) (expert_ids : Nat → Nat) (st : Buckets) (i j : Nat) :
    (bucket_step k expert_ids st i j).m_local_num_.length = st.m_local_num_.length ∧
    (bucket_step k expert_ids st i j).m_local_pos_.length = st.m_local_pos_.length ∧
    ∀ i1, ((bucket_step k expert_ids st i j).m_local_pos_.getD i1 []).length
      = (st.m_local_pos_.getD i1 []).length := by
  refine ⟨by simp [bucket_step], by simp [bucket_step], ?_⟩
  intro i1
  simp only [bucket_step, list_getD_set]
  by_cases h : i = i1 ∧ i < st.m_local_pos_.length
  · rw [if_pos h, List.length_set, h.1]
  · rw [if_neg h]

theorem bucket_fold_inv (k : Nat) (expert_ids : Nat → Nat) :
    ∀ (ps : List (Nat × Nat)) (st : Buckets), ps.Nodup →
      (∀ p ∈ ps, p.1 < st.m_local_pos_.length ∧ p.2 < (st.m_local_pos_.getD p.1 []).length ∧
        expert_ids (p.1 * k + p.2) < st.m_local_num_.length) →
      (∀ e, (ps.foldl (fun st p => bucket_step k expert_ids st p.1 p.2) st).num e
        = st.num e + (ps.filter (fun p => decide (expert_ids (p.1 * k + p.2) = e))).length) ∧
      (∀ e, (ps.filter (fun p => decide (expert_ids (p.1 * k + p.2) = e))).map
          (fun p => (ps.foldl (fun st p => bucket_step k expert_ids st p.1 p.2) st).pos p.1 p.2)
        = List.range' (st.num e)
            (ps.filter (fun p => decide (expert_ids (p.1 * k + p.2) = e))).length) ∧
      (∀ i j, (i, j) ∉ ps →
        (ps.foldl (fun st p => bucket_step k expert_ids st p.1 p.2) st).pos i j
          = st.pos i j) := by
  intro ps
  induction ps with
  | nil =>
    intro st _ _
    exact ⟨fun e => rfl, fun e => rfl, fun i j _ => rfl⟩
  | cons p rest ih =>
    intro st hnd hwf
    rw [List.nodup_cons] at hnd
    obtain ⟨hp1, hp2, hp3⟩ := hwf p (List.mem_cons_self _ _)
    obtain ⟨hd1, hd2, hd3⟩ := bucket_step_dims k expert_ids st p.1 p.2
    have hwf1 : ∀ q ∈ rest, q.1 < (bucket_step k expert_ids st p.1 p.2).m_local_pos_.length ∧
        q.2 < ((bucket_step k expert_ids st p.1 p.2).m_local_pos_.getD q.1 []).length ∧
        expert_ids (q.1 * k + q.2) < (bucket_step k expert_ids st p.1 p.2).m_local_num_.length := by
      intro q hq
      rw [hd1, hd2, hd3]
      exact hwf q (List.mem_cons_of_mem _ hq)
    obtain ⟨hA, hB, hC⟩ := ih (bucket_step k expert_ids st p.1 p.2) hnd.2 hwf1
    simp only [List.foldl_cons]
    refine ⟨?_, ?_, ?_⟩
    · intro e
      rw [hA e, bucket_step_num k expert_ids st p.1 p.2 e hp3, List.filter_cons]
      by_cases he : expert_ids (p.1 * k + p.2) = e
      · rw [if_pos he, if_pos (decide_eq_true he), List.length_cons]
        omega
      · rw [if_neg he, if_neg (by simpa using he)]
    · intro e
      rw [List.filter_cons]
      by_cases he : expert_ids (p.1 * k + p.2) = e
      · rw [if_pos (decide_eq_true he), List.map_cons, List.length_cons, hB e,
          bucket_step_num k expert_ids st p.1 p.2 e hp3, if_pos he, hC p.1 p.2 hnd.1,
          bucket_step_pos k expert_ids st p.1 p.2 p.1 p.2 hp1 hp2, if_pos ⟨rfl, rfl⟩, he]
        rfl
      · rw [if_neg (by simpa using he), hB e, bucket_step_num k expert_ids st p.1 p.2 e hp3,
          if_neg he]
    · intro i j hij
      rw [List.mem_cons, not_or] at hij
      rw [hC i j hij.2, bucket_step_pos k expert_ids st p.1 p.2 i j hp1 hp2]
      have : ¬ (i = p.1 ∧ j = p.2) := fun h => hij.1 (by rw [h.1, h.2])
      rw [if_neg this]

theorem sum_indicator (x : Nat) : ∀ (E : Nat),
    ((List.range E).map (fun e => if x = e then 1 else 0)).sum = if x < E then 1 else 0 := by
  intro E
  induction E with
  | zero => rfl
  | succ n ih =>
    rw [List.range_succ, List.map_append, List.sum_append, ih]
    simp only [List.map_cons, List.map_nil, List.sum_cons, List.sum_nil]
    split_ifs <;> omega

theorem sum_filter_length {α : Type} (f : α → Nat) (E : Nat) :
    ∀ (ps : List α), (∀ p ∈ ps, f p < E) →
      ((List.range E).map (fun e => (ps.filter (fun p => decide (f p = e))).length)).sum
        = ps.length := by
  intro ps
  induction ps with
  | nil => intro _; simp
  | cons p rest ih =>
    intro h
    have hfun : (fun e => ((p :: rest).filter (fun p => decide (f p = e))).length)
        = (fun e => (if f p = e then 1 else 0)
            + (rest.filter (fun p => decide (f p = e))).length) := by
      funext e
      rw [List.filter_cons]
      by_cases he : f p = e
      · rw [if_pos (decide_eq_true he), if_pos he, List.length_cons]
        omega
      · rw [if_neg (by simpa using he), if_neg he]
        omega
    rw [hfun, List.sum_map_add, sum_indicator, if_pos (h p (List.mem_cons_self _ _)),
      ih (fun q hq => h q (List.mem_cons_of_mem _ hq)), List.length_cons]
    omega

theorem mem_token_slots (qlen k i j : Nat) : (i, j) ∈ token_slots qlen k ↔ i < qlen ∧ j < k := by
  simp [token_slots, List.mem_flatMap]

theorem length_token_slots (qlen k : Nat) : (token_slots qlen k).length = qlen * k := by
  induction qlen with
  | zero => simp [token_slots]
  | succ n ih =>
    unfold token_slots at ih ⊢
    rw [List.range_succ, List.flatMap_append, List.length_append, ih]
    simp [Nat.succ_mul]

theorem nodup_token_slots (qlen k : Nat) : (token_slots qlen k).Nodup := by
  unfold token_slots
  rw [List.nodup_flatMap]
  refine ⟨?_, ?_⟩
  · intro i _
    exact (List.nodup_range k).map (fun a b h => (Prod.mk.inj h).2)
  · refine (List.nodup_range qlen).pairwise_of_forall_ne ?_
    intro a _ b _ hab
    simp only [Function.onFun, List.disjoint_left, List.mem_map, not_exists, not_and]
    rintro p ⟨j, _, rfl⟩ j1 _ h
    exact hab (Prod.mk.inj h).1.symm

theorem reset_counts (num : List Nat) : ∀ (E : Nat),
    ((List.range E).foldl (fun (num : List Nat) i => num.set i 0) num).length = num.length ∧
    ∀ e, e < E → e < num.length →
      ((List.range E).foldl (fun (num : List Nat) i => num.set i 0) num).getD e 0 = 0 := by
  intro E
  induction E with
  | zero => exact ⟨rfl, fun e he => absurd he (Nat.not_lt_zero e)⟩
  | succ n ih =>
    rw [List.range_succ, List.foldl_append]
    simp only [List.foldl_cons, List.foldl_nil]
    refine ⟨by rw [List.length_set, ih.1], ?_⟩
    intro e he hl
    rw [list_getD_set]
    by_cases h : n = e ∧ n < ((List.range n).foldl (fun (num : List Nat) i => num.set i 0)
        num).length
    · rw [if_pos h]
    · rw [if_neg h]
      have hne : e ≠ n := by
        intro h1
        subst h1
        exact h ⟨rfl, by rw [ih.1]; exact hl⟩
      exact ih.2 e (by omega) hl

theorem forward_many_buckets_fold (expert_num qlen k : Nat) (expert_ids : Nat → Nat)
    (st : Buckets) :
    forward_many_buckets expert_num qlen k expert_ids st
      = (token_slots qlen k).foldl (fun st p => bucket_step k expert_ids st p.1 p.2)
          { m_local_num_ := (List.range expert_num).foldl
              (fun (num : List Nat) i => num.set i 0) st.m_local_num_,
            m_local_pos_ := st.m_local_pos_ } := by
  unfold forward_many_buckets token_slots
  simp only [Int.toNat_ofNat]
  rw [foldl_flatMap_eq]
  congr 1
  funext s i
  rw [List.foldl_map]

/-- C12: whenever the indexing of the build loop is in bounds (`expert_num` counts, a row of
at least `k` positions for every token `i < qlen`, every `expert_ids[i*k+j] < expert_num`),
after the loop and for every expert `e < expert_num`: the pairs routed to `e` are the `(i, j)`
with `i < qlen`, `j < k`, `expert_ids[i*k+j] = e`; `m_local_num_[e]` is their number; their
values `m_local_pos_[i][j]`, listed in row-major order, are `0, 1, …, m_local_num_[e] - 1`, so
they are distinct and lie below `m_local_num_[e]`; and the counts sum to `qlen * k`. -/
theorem C12_forward_many_buckets (expert_num qlen k : Nat) (expert_ids : Nat → Nat)
    (st : Buckets) (hnum : expert_num ≤ st.m_local_num_.length)
    (hpos : ∀ i, i < qlen →
      i < st.m_local_pos_.length ∧ k ≤ (st.m_local_pos_.getD i []).length)
    (hids : ∀ i j, i < qlen → j < k → expert_ids (i * k + j) < expert_num) :
    (∀ e, e < expert_num →
      (∀ i j, (i, j) ∈ routed_to qlen k expert_ids e ↔
        (i < qlen ∧ j < k ∧ expert_ids (i * k + j) = e)) ∧
      (forward_many_buckets expert_num qlen k expert_ids st).num e
        = (routed_to qlen k expert_ids e).length ∧
      (routed_to qlen k expert_ids e).map
          (fun p => (forward_many_buckets expert_num qlen k expert_ids st).pos p.1 p.2)
        = List.range ((forward_many_buckets expert_num qlen k expert_ids st).num e) ∧
      ((routed_to qlen k expert_ids e).map
          (fun p => (forward_many_buckets expert_num qlen k expert_ids st).pos p.1 p.2)).Nodup ∧
      (∀ p ∈ routed_to qlen k expert_ids e,
        (forward_many_buckets expert_num qlen k expert_ids st).pos p.1 p.2
          < (forward_many_buckets expert_num qlen k expert_ids st).num e)) ∧
    ((List.range expert_num).map
        (fun e => (forward_many_buckets expert_num qlen k expert_ids st).num e)).sum
      = qlen * k := by
  obtain ⟨hlen, hzero⟩ := reset_counts st.m_local_num_ expert_num
  have hwf : ∀ p ∈ token_slots qlen k,
      p.1 < st.m_local_pos_.length ∧ p.2 < (st.m_local_pos_.getD p.1 []).length ∧
      expert_ids (p.1 * k + p.2) < ((List.range expert_num).foldl
        (fun (num : List Nat) i => num.set i 0) st.m_local_num_).length := by
    rintro ⟨i, j⟩ hp
    rw [mem_token_slots] at hp
    obtain ⟨h1, h2⟩ := hpos i hp.1
    have h3 := hids i j hp.1 hp.2
    rw [hlen]
    have h2' : j < (st.m_local_pos_.getD i []).length := by omega
    have h3' : expert_ids (i * k + j) < st.m_local_num_.length := by omega
    exact ⟨h1, h2', h3'⟩
  obtain ⟨hA, hB, _⟩ := bucket_fold_inv k expert_ids (token_slots qlen k)
    { m_local_num_ := (List.range expert_num).foldl
        (fun (num : List Nat) i => num.set i 0) st.m_local_num_,
      m_local_pos_ := st.m_local_pos_ } (nodup_token_slots qlen k) hwf
  rw [forward_many_buckets_fold]
  have hnum0 : ∀ e, e < expert_num →
      (Buckets.mk ((List.range expert_num).foldl
        (fun (num : List Nat) i => num.set i 0) st.m_local_num_) st.m_local_pos_).num e = 0 :=
    fun e he => hzero e he (by omega)
  have hcount : ∀ e, e < expert_num →
      ((token_slots qlen k).foldl (fun st p => bucket_step k expert_ids st p.1 p.2)
        (Buckets.mk ((List.range expert_num).foldl
          (fun (num : List Nat) i => num.set i 0) st.m_local_num_) st.m_local_pos_)).num e
        = (routed_to qlen k expert_ids e).length := by
    intro e he
    rw [hA e, hnum0 e he, Nat.zero_add]
    rfl
  have hmap : ∀ e, e < expert_num →
      (routed_to qlen k expert_ids e).map
          (fun p => ((token_slots qlen k).foldl
            (fun st p => bucket_step k expert_ids st p.1 p.2)
            (Buckets.mk ((List.range expert_num).foldl
              (fun (num : List Nat) i => num.set i 0) st.m_local_num_)
              st.m_local_pos_)).pos p.1 p.2)
        = List.range (routed_to qlen k expert_ids e).length := by
    intro e he
    have := hB e
    rw [hnum0 e he] at this
    exact this.trans (List.range_eq_range' _).symm
  refine ⟨?_, ?_⟩
  · intro e he
    refine ⟨?_, hcount e he, ?_, ?_, ?_⟩
    · intro i j
      simp [routed_to, mem_token_slots, and_assoc]
    · rw [hcount e he]
      exact hmap e he
    · rw [hmap e he]
      exact List.nodup_range _
    · intro p hp
      have hmem : (fun (p : Nat × Nat) => ((token_slots qlen k).foldl
            (fun st p => bucket_step k expert_ids st p.1 p.2)
            (Buckets.mk ((List.range expert_num).foldl
              (fun (num : List Nat) i => num.set i 0) st.m_local_num_)
              st.m_local_pos_)).pos p.1 p.2) p
          ∈ List.range (routed_to qlen k expert_ids e).length := by
        rw [← hmap e he]
        exact List.mem_map_of_mem _ hp
      rw [hcount e he]
      exact List.mem_range.mp hmem
  · have hfun : (List.range expert_num).map (fun e => ((token_slots qlen k).foldl
          (fun st p => bucket_step k expert_ids st p.1 p.2)
          (Buckets.mk ((List.range expert_num).foldl
            (fun (num : List Nat) i => num.set i 0) st.m_local_num_) st.m_local_pos_)).num e)
        = (List.range expert_num).map (fun e => ((token_slots qlen k).filter
            (fun p => decide (expert_ids (p.1 * k + p.2) = e))).length) := by
      apply List.map_congr_left
      intro e he
      exact hcount e (List.mem_range.mp he)
    rw [hfun, sum_filter_length (fun (p : Nat × Nat) => expert_ids (p.1 * k + p.2)) expert_num
      (token_slots qlen k), length_token_slots]
    rintro ⟨i, j⟩ hp
    rw [mem_token_slots] at hp
    exact hids i j hp.1 hp.2

/-- Instance of C12: 2 tokens, `k = 2`, 3 experts, routing `[1, 2, 1, 1]`, stale state: for
expert 1 the count is the number of its pairs and their positions in row-major order are
`0 .. count - 1`; the counts sum to `2 * 2`. -/
theorem C12_forward_many_buckets_witness :
    (3 ≤ buckets_example.m_local_num_.length) ∧
    (forward_many_buckets (3 : Nat) (2 : Nat) (2 : Nat) expert_ids_example buckets_example).num 1
      = (routed_to 2 2 expert_ids_example 1).length ∧
    (routed_to 2 2 expert_ids_example 1).map
        (fun p => (forward_many_buckets (3 : Nat) (2 : Nat) (2 : Nat) expert_ids_example
          buckets_example).pos p.1 p.2)
      = List.range ((forward_many_buckets (3 : Nat) (2 : Nat) (2 : Nat) expert_ids_example
          buckets_example).num 1) ∧
    ((List.range 3).map
        (fun e => (forward_many_buckets (3 : Nat) (2 : Nat) (2 : Nat) expert_ids_example
          buckets_example).num e)).sum = 2 * 2 :=
  have h := C12_forward_many_buckets 3 2 2 expert_ids_example buckets_example (by decide)
    (by decide)
    (by intro i j hi hj; interval_cases i <;> interval_cases j <;> decide)
  ⟨by decide, (h.1 1 (by decide)).2.1, (h.1 1 (by decide)).2.2.1, h.2⟩

theorem forward_many_buckets_example :
    (forward_many_buckets 3 2 2 expert_ids_example buckets_example)
      = { m_local_num_ := [0, 3, 1], m_local_pos_ := [[0, 0], [1, 2]] } := by
  decide

theorem fstore_fold {F α : Type} (addr : α → Int) (v : Int → F) :
    ∀ (l : List α) (m : FloatArray F) (x : Int),
      l.foldl (fun (m : FloatArray F) a => fstore m (addr a) (v (addr a))) m x
        = if x ∈ l.map addr then v x else m x := by
  intro l
  induction l with
  | nil => intro m x; simp
  | cons a l ih =>
    intro m x
    rw [List.foldl_cons, ih]
    by_cases h1 : x ∈ l.map addr
    · rw [if_pos h1, if_pos (by rw [List.map_cons]; exact List.mem_cons_of_mem _ h1)]
    · rw [if_neg h1]
      by_cases h2 : x = addr a
      · rw [if_pos (by rw [List.map_cons, h2]; exact List.mem_cons_self _ _)]
        simp [fstore, h2]
      · rw [if_neg (by rw [List.map_cons, List.mem_cons, not_or]; exact ⟨h2, h1⟩)]
        simp [fstore, h2]

theorem forward_one_act_loop {F : Type} (cfg : MOEConfig) (blck : ggml_type → Int)
    (tg : Target) (iqk_gate iqk_up : Bool) (act_fn : F → F) (mul : F → F → F)
    (gate_kernel up_kernel : FloatArray F → FloatArray F) (nth k task_id : Int)
    (s : OneScratch F) (i : Int)
    (hlo : (get_slice cfg.intermediate_size nth (Int.tdiv task_id k)).2 ≤ i)
    (hhi : i < (get_slice cfg.intermediate_size nth (Int.tdiv task_id k)).2
      + (get_slice cfg.intermediate_size nth (Int.tdiv task_id k)).1) :
    (forward_one_gate_up_act cfg blck tg iqk_gate iqk_up act_fn mul gate_kernel up_kernel
        nth k task_id s).s_intermediate_fp32_ (Int.tmod task_id k) i
      = mul
        (act_fn ((forward_one_gate_up_act cfg blck tg iqk_gate iqk_up act_fn mul gate_kernel
          up_kernel nth k task_id s).s_gate_output_ (Int.tmod task_id k) i))
        ((forward_one_gate_up_act cfg blck tg iqk_gate iqk_up act_fn mul gate_kernel
          up_kernel nth k task_id s).s_up_output_ (Int.tmod task_id k) i) := by
  simp only [forward_one_gate_up_act, set_row, if_true]
  rw [fstore_fold (fun (i : Int) => i)]
  rw [if_pos (by rw [List.map_id']; exact (mem_interval _ _ _).mpr ⟨hlo, hhi⟩)]

theorem forward_one_outputs {F : Type} (cfg : MOEConfig) (blck : ggml_type → Int)
    (tg : Target) (iqk_gate iqk_up : Bool) (act_fn : F → F) (mul : F → F → F)
    (gate_kernel up_kernel : FloatArray F → FloatArray F) (nth k task_id : Int)
    (s : OneScratch F) :
    (llamafile_sgemm tg iqk_gate 1 (Int.tdiv cfg.hidden_size (blck cfg.gate_type))
        (some cfg.gate_type) (some (vec_dot_type cfg.gate_type)) (some ggml_type.F32) = false →
      (forward_one_gate_up_act cfg blck tg iqk_gate iqk_up act_fn mul gate_kernel up_kernel
          nth k task_id s).s_gate_output_ (Int.tmod task_id k)
        = s.s_gate_output_ (Int.tmod task_id k)) ∧
    (llamafile_sgemm tg iqk_up 1 (Int.tdiv cfg.hidden_size (blck cfg.up_type))
        (some cfg.up_type) (some (vec_dot_type cfg.up_type)) (some ggml_type.F32) = false →
      (forward_one_gate_up_act cfg blck tg iqk_gate iqk_up act_fn mul gate_kernel up_kernel
          nth k task_id s).s_up_output_ (Int.tmod task_id k)
        = s.s_up_output_ (Int.tmod task_id k)) := by
  constructor
  · intro h
    simp only [forward_one_gate_up_act, set_row, if_true, sgemm_effect, h]
    rfl
  · intro h
    simp only [forward_one_gate_up_act, set_row, if_true, sgemm_effect, h]
    rfl

theorem many_step_other {F : Type} (cfg : MOEConfig) (blck : ggml_type → Int)
    (tg : Target) (iqk_gate iqk_up : Int → Bool) (act_fn : F → F) (mul : F → F → F)
    (gate_kernel up_kernel : Int → FloatArray F → FloatArray F) (m_local_num_ : List Nat)
    (local_stride bias_stride : Int) (s : ManyScratch F) (e e1 : Int) (h : e ≠ e1) :
    (forward_many_gate_up_act_expert cfg blck tg iqk_gate iqk_up act_fn mul gate_kernel
      up_kernel m_local_num_ local_stride bias_stride s e1).row e = s.row e := by
  simp only [ManyScratch.row, forward_many_gate_up_act_expert, set_row, if_neg h]

theorem many_step_dep {F : Type} (cfg : MOEConfig) (blck : ggml_type → Int)
    (tg : Target) (iqk_gate iqk_up : Int → Bool) (act_fn : F → F) (mul : F → F → F)
    (gate_kernel up_kernel : Int → FloatArray F → FloatArray F) (m_local_num_ : List Nat)
    (local_stride bias_stride : Int) (s s1 : ManyScratch F) (e : Int)
    (h : s.row e = s1.row e) :
    (forward_many_gate_up_act_expert cfg blck tg iqk_gate iqk_up act_fn mul gate_kernel
      up_kernel m_local_num_ local_stride bias_stride s e).row e
    = (forward_many_gate_up_act_expert cfg blck tg iqk_gate iqk_up act_fn mul gate_kernel
      up_kernel m_local_num_ local_stride bias_stride s1 e).row e := by
  simp only [ManyScratch.row, Prod.mk.injEq] at h
  obtain ⟨h1, h2, h3⟩ := h
  simp only [ManyScratch.row, forward_many_gate_up_act_expert, set_row, if_true, h1, h2, h3]

theorem many_fold_rows {F : Type} (cfg : MOEConfig) (blck : ggml_type → Int)
    (tg : Target) (iqk_gate iqk_up : Int → Bool) (act_fn : F → F) (mul : F → F → F)
    (gate_kernel up_kernel : Int → FloatArray F → FloatArray F) (m_local_num_ : List Nat)
    (local_stride bias_stride : Int) :
    ∀ (l : List Int), l.Nodup → ∀ (s : ManyScratch F) (e : Int),
      (l.foldl (forward_many_gate_up_act_expert cfg blck tg iqk_gate iqk_up act_fn mul
          gate_kernel up_kernel m_local_num_ local_stride bias_stride) s).row e
        = if e ∈ l then
            (forward_many_gate_up_act_expert cfg blck tg iqk_gate iqk_up act_fn mul
              gate_kernel up_kernel m_local_num_ local_stride bias_stride s e).row e
          else s.row e := by
  intro l
  induction l with
  | nil => intro _ s e; simp
  | cons a l ih =>
    intro hnd s e
    rw [List.nodup_cons] at hnd
    rw [List.foldl_cons, ih hnd.2]
    by_cases hea : e = a
    · subst hea
      rw [if_neg hnd.1, if_pos (List.mem_cons_self _ _)]
    · by_cases hel : e ∈ l
      · rw [if_pos hel, if_pos (List.mem_cons_of_mem _ hel)]
        exact many_step_dep cfg blck tg iqk_gate iqk_up act_fn mul gate_kernel up_kernel
          m_local_num_ local_stride bias_stride _ s e
          (many_step_other cfg blck tg iqk_gate iqk_up act_fn mul gate_kernel up_kernel
            m_local_num_ local_stride bias_stride s e a hea)
      · rw [if_neg hel, if_neg (by rw [List.mem_cons, not_or]; exact ⟨hea, hel⟩)]
        exact many_step_other cfg blck tg iqk_gate iqk_up act_fn mul gate_kernel up_kernel
          m_local_num_ local_stride bias_stride s e a hea

theorem nested_store_fold {F : Type} (I : Int) (v : Int → F) (li lj : List Int)
    (m : FloatArray F) (i j : Int) (hi : i ∈ li) (hj : j ∈ lj) :
    li.foldl (fun (m : FloatArray F) i =>
        lj.foldl (fun (m : FloatArray F) j => fstore m (i * I + j) (v (i * I + j))) m) m
      (i * I + j) = v (i * I + j) := by
  have hflat : li.foldl (fun (m : FloatArray F) i =>
        lj.foldl (fun (m : FloatArray F) j => fstore m (i * I + j) (v (i * I + j))) m) m
      = (li.flatMap (fun i => lj.map (fun j => (i, j)))).foldl
          (fun (m : FloatArray F) (p : Int × Int) =>
            fstore m (p.1 * I + p.2) (v (p.1 * I + p.2))) m := by
    rw [foldl_flatMap_eq]
    congr 1
    funext m i
    rw [List.foldl_map]
  rw [hflat, fstore_fold (fun (p : Int × Int) => p.1 * I + p.2) v, if_pos]
  exact List.mem_map.mpr ⟨(i, j),
    List.mem_flatMap.mpr ⟨i, hi, List.mem_map.mpr ⟨j, hj, rfl⟩⟩, rfl⟩

/-- C15 (as amended): `forward_one` and `forward_many` use the result of no `llamafile_sgemm`
call.  Whatever the gate and up calls return, the task goes on to the activation loop, which
reads both output slices and stores `act_fn(gate) * up` for every element of its slice (of
every row of the expert's bucket in `forward_many`); and when a call returned `false` its
output array is the one from before the call, so the activation is computed from what the
scratch held earlier. -/
theorem C15_sgemm_result_ignored {F : Type} (cfg : MOEConfig) (blck : ggml_type → Int)
    (tg : Target) (act_fn : F → F) (mul : F → F → F) :
    (∀ (iqk_gate iqk_up : Bool) (gate_kernel up_kernel : FloatArray F → FloatArray F)
        (nth k task_id : Int) (s : OneScratch F),
      (∀ i, (get_slice cfg.intermediate_size nth (Int.tdiv task_id k)).2 ≤ i →
        i < (get_slice cfg.intermediate_size nth (Int.tdiv task_id k)).2
          + (get_slice cfg.intermediate_size nth (Int.tdiv task_id k)).1 →
        (forward_one_gate_up_act cfg blck tg iqk_gate iqk_up act_fn mul gate_kernel up_kernel
            nth k task_id s).s_intermediate_fp32_ (Int.tmod task_id k) i
          = mul
            (act_fn ((forward_one_gate_up_act cfg blck tg iqk_gate iqk_up act_fn mul
              gate_kernel up_kernel nth k task_id s).s_gate_output_ (Int.tmod task_id k) i))
            ((forward_one_gate_up_act cfg blck tg iqk_gate iqk_up act_fn mul gate_kernel
              up_kernel nth k task_id s).s_up_output_ (Int.tmod task_id k) i)) ∧
      (llamafile_sgemm tg iqk_gate 1 (Int.tdiv cfg.hidden_size (blck cfg.gate_type))
          (some cfg.gate_type) (some (vec_dot_type cfg.gate_type)) (some ggml_type.F32)
          = false →
        (forward_one_gate_up_act cfg blck tg iqk_gate iqk_up act_fn mul gate_kernel up_kernel
            nth k task_id s).s_gate_output_ (Int.tmod task_id k)
          = s.s_gate_output_ (Int.tmod task_id k)) ∧
      (llamafile_sgemm tg iqk_up 1 (Int.tdiv cfg.hidden_size (blck cfg.up_type))
          (some cfg.up_type) (some (vec_dot_type cfg.up_type)) (some ggml_type.F32)
          = false →
        (forward_one_gate_up_act cfg blck tg iqk_gate iqk_up act_fn mul gate_kernel up_kernel
            nth k task_id s).s_up_output_ (Int.tmod task_id k)
          = s.s_up_output_ (Int.tmod task_id k))) ∧
    (∀ (iqk_gate iqk_up : Int → Bool)
        (gate_kernel up_kernel : Int → FloatArray F → FloatArray F) (m_local_num_ : List Nat)
        (nth task_id : Int) (s : ManyScratch F) (e : Int), 0 ≤ e → e < cfg.expert_num →
      (∀ i j, 0 ≤ i → i < ((m_local_num_.getD e.toNat 0 : Nat) : Int) →
        (get_slice cfg.intermediate_size nth task_id).2 ≤ j →
        j < (get_slice cfg.intermediate_size nth task_id).2
          + (get_slice cfg.intermediate_size nth task_id).1 →
        (forward_many_gate_up_act cfg blck tg iqk_gate iqk_up act_fn mul gate_kernel
            up_kernel m_local_num_ nth task_id s).m_local_intermediate_fp32_ptr_ e
            (i * cfg.intermediate_size + j)
          = mul
            (act_fn ((forward_many_gate_up_act cfg blck tg iqk_gate iqk_up act_fn mul
              gate_kernel up_kernel m_local_num_ nth task_id s).m_local_gate_output_ptr_ e
              (i * cfg.intermediate_size + j)))
            ((forward_many_gate_up_act cfg blck tg iqk_gate iqk_up act_fn mul gate_kernel
              up_kernel m_local_num_ nth task_id s).m_local_up_output_ptr_ e
              (i * cfg.intermediate_size + j))) ∧
      (llamafile_sgemm tg (iqk_gate e) ((m_local_num_.getD e.toNat 0 : Nat) : Int)
          (Int.tdiv cfg.hidden_size (blck cfg.gate_type))
          (some cfg.gate_type) (some (vec_dot_type cfg.gate_type)) (some ggml_type.F32)
          = false →
        (forward_many_gate_up_act cfg blck tg iqk_gate iqk_up act_fn mul gate_kernel
            up_kernel m_local_num_ nth task_id s).m_local_gate_output_ptr_ e
          = s.m_local_gate_output_ptr_ e) ∧
      (llamafile_sgemm tg (iqk_up e) ((m_local_num_.getD e.toNat 0 : Nat) : Int)
          (Int.tdiv cfg.hidden_size (blck cfg.up_type))
          (some cfg.up_type) (some (vec_dot_type cfg.up_type)) (some ggml_type.F32)
          = false →
        (forward_many_gate_up_act cfg blck tg iqk_gate iqk_up act_fn mul gate_kernel
            up_kernel m_local_num_ nth task_id s).m_local_up_output_ptr_ e
          = s.m_local_up_output_ptr_ e)) := by
  refine ⟨?_, ?_⟩
  · intro iqk_gate iqk_up gate_kernel up_kernel nth k task_id s
    exact ⟨fun i hlo hhi => forward_one_act_loop cfg blck tg iqk_gate iqk_up act_fn mul
        gate_kernel up_kernel nth k task_id s i hlo hhi,
      forward_one_outputs cfg blck tg iqk_gate iqk_up act_fn mul gate_kernel up_kernel
        nth k task_id s⟩
  · intro iqk_gate iqk_up gate_kernel up_kernel m_local_num_ nth task_id s e he0 he1
    have hrow := many_fold_rows cfg blck tg iqk_gate iqk_up act_fn mul gate_kernel up_kernel
      m_local_num_ (get_slice cfg.intermediate_size nth task_id).1
      (get_slice cfg.intermediate_size nth task_id).2 (interval 0 cfg.expert_num)
      (nodup_interval 0 cfg.expert_num) s e
    rw [if_pos ((mem_interval _ _ _).mpr ⟨he0, he1⟩)] at hrow
    simp only [ManyScratch.row, Prod.mk.injEq] at hrow
    obtain ⟨hg, hu, hm⟩ := hrow
    have hg1 : (forward_many_gate_up_act cfg blck tg iqk_gate iqk_up act_fn mul gate_kernel
        up_kernel m_local_num_ nth task_id s).m_local_gate_output_ptr_ e = _ := hg
    have hu1 : (forward_many_gate_up_act cfg blck tg iqk_gate iqk_up act_fn mul gate_kernel
        up_kernel m_local_num_ nth task_id s).m_local_up_output_ptr_ e = _ := hu
    have hm1 : (forward_many_gate_up_act cfg blck tg iqk_gate iqk_up act_fn mul gate_kernel
        up_kernel m_local_num_ nth task_id s).m_local_intermediate_fp32_ptr_ e = _ := hm
    rw [hg1, hu1, hm1]
    refine ⟨?_, ?_, ?_⟩
    · intro i j hi0 hi1 hj0 hj1
      simp only [forward_many_gate_up_act_expert, set_row, if_true]
      exact nested_store_fold cfg.intermediate_size
        (fun x => mul
          (act_fn (sgemm_effect
            (llamafile_sgemm tg (iqk_gate e) ((m_local_num_.getD e.toNat 0 : Nat) : Int)
              (Int.tdiv cfg.hidden_size (blck cfg.gate_type)) (some cfg.gate_type)
              (some (vec_dot_type cfg.gate_type)) (some ggml_type.F32))
            (gate_kernel e) (s.m_local_gate_output_ptr_ e) x))
          (sgemm_effect
            (llamafile_sgemm tg (iqk_up e) ((m_local_num_.getD e.toNat 0 : Nat) : Int)
              (Int.tdiv cfg.hidden_size (blck cfg.up_type)) (some cfg.up_type)
              (some (vec_dot_type cfg.up_type)) (some ggml_type.F32))
            (up_kernel e) (s.m_local_up_output_ptr_ e) x))
        _ _ _ i j
        ((mem_interval _ _ _).mpr ⟨hi0, hi1⟩) ((mem_interval _ _ _).mpr ⟨hj0, hj1⟩)
    · intro h
      simp only [forward_many_gate_up_act_expert, set_row, if_true, sgemm_effect, h]
      rfl
    · intro h
      simp only [forward_many_gate_up_act_expert, set_row, if_true, sgemm_effect, h]
      rfl

/-- Instance of C15 (as amended): `BF16` formats on the AVX-only build, 2 experts per token,
task 1 of `forward_one` (expert slot 1, slice `[0, 128)`); both calls return `false`, the gate
array of slot 1 is unchanged and cell 5 of the intermediate is `act_fn(gate[5]) * up[5]`. -/
theorem C15_sgemm_result_ignored_witness :
    (forward_one_gate_up_act cfg_bf16 (fun _ => 1) target_avx false false FloatTerm.act_fn
        FloatTerm.times (fun _ c => FloatTerm.product 0 c) (fun _ c => FloatTerm.product 1 c)
        1 2 1 one_scratch_stale).s_intermediate_fp32_ (Int.tmod 1 2) 5
      = FloatTerm.times
        (FloatTerm.act_fn ((forward_one_gate_up_act cfg_bf16 (fun _ => 1) target_avx false
          false FloatTerm.act_fn FloatTerm.times (fun _ c => FloatTerm.product 0 c)
          (fun _ c => FloatTerm.product 1 c) 1 2 1 one_scratch_stale).s_gate_output_
          (Int.tmod 1 2) 5))
        ((forward_one_gate_up_act cfg_bf16 (fun _ => 1) target_avx false false
          FloatTerm.act_fn FloatTerm.times (fun _ c => FloatTerm.product 0 c)
          (fun _ c => FloatTerm.product 1 c) 1 2 1 one_scratch_stale).s_up_output_
          (Int.tmod 1 2) 5) ∧
    (forward_one_gate_up_act cfg_bf16 (fun _ => 1) target_avx false false FloatTerm.act_fn
        FloatTerm.times (fun _ c => FloatTerm.product 0 c) (fun _ c => FloatTerm.product 1 c)
        1 2 1 one_scratch_stale).s_gate_output_ (Int.tmod 1 2)
      = one_scratch_stale.s_gate_output_ (Int.tmod 1 2) :=
  ⟨((C15_sgemm_result_ignored cfg_bf16 (fun _ => 1) target_avx FloatTerm.act_fn
      FloatTerm.times).1 false false (fun _ c => FloatTerm.product 0 c)
      (fun _ c => FloatTerm.product 1 c) 1 2 1 one_scratch_stale).1 5 (by decide) (by decide),
   ((C15_sgemm_result_ignored cfg_bf16 (fun _ => 1) target_avx FloatTerm.act_fn
      FloatTerm.times).1 false false (fun _ c => FloatTerm.product 0 c)
      (fun _ c => FloatTerm.product 1 c) 1 2 1 one_scratch_stale).2.1 (by decide)⟩

set_option maxRecDepth 100000 in
/-- C15 as stated fails.  `BF16` formats on the AVX-only build (no `iqk_mul_mat`, no `BF16`
kernel): the gate and up calls of `forward_one` (task 1 of 2) and of `forward_many` (expert 1
with a bucket of 3 rows) return `false`, and the task goes on: cell 5 of the single-token
intermediate and cell `2 * 128 + 5` of the batched intermediate, stale before, are
`act_fn` of the stale gate cell times the stale up cell. -/
theorem C15_continues_after_not_supported_counterexample :
    llamafile_sgemm target_avx false 1 128 (some ggml_type.BF16)
      (some (vec_dot_type ggml_type.BF16)) (some ggml_type.F32) = false ∧
    llamafile_sgemm target_avx false 3 128 (some ggml_type.BF16)
      (some (vec_dot_type ggml_type.BF16)) (some ggml_type.F32) = false ∧
    one_scratch_stale.s_intermediate_fp32_ 1 5 = FloatTerm.stale 2 5 ∧
    (forward_one_gate_up_act cfg_bf16 (fun _ => 1) target_avx false false FloatTerm.act_fn
        FloatTerm.times (fun _ c => FloatTerm.product 0 c) (fun _ c => FloatTerm.product 1 c)
        1 2 1 one_scratch_stale).s_intermediate_fp32_ 1 5
      = FloatTerm.times (FloatTerm.act_fn (FloatTerm.stale 0 5)) (FloatTerm.stale 1 5) ∧
    (forward_many_gate_up_act cfg_bf16 (fun _ => 1) target_avx (fun _ => false)
        (fun _ => false) FloatTerm.act_fn FloatTerm.times
        (fun _ _ c => FloatTerm.product 0 c) (fun _ _ c => FloatTerm.product 1 c) [0, 3, 1, 0]
        1 0 many_scratch_stale).m_local_intermediate_fp32_ptr_ 1 (2 * 128 + 5)
      = FloatTerm.times (FloatTerm.act_fn (FloatTerm.stale 0 (2 * 128 + 5)))
          (FloatTerm.stale 1 (2 * 128 + 5)) := by
  decide

theorem run_calls_forward_one_map (USE_NUMA : Bool) (thread_num k : Int)
    (a b c d a1 b1 c1 d1 : Nat → Int) : ∀ (l : List Nat),
    run_calls USE_NUMA thread_num
        (l.map (fun (i : Nat) => MoeCall.forward_one k (a i) (b i) (c i) (d i)))
      = run_calls USE_NUMA thread_num
        (l.map (fun (i : Nat) => MoeCall.forward_one k (a1 i) (b1 i) (c1 i) (d1 i))) := by
  intro l
  induction l with
  | nil => rfl
  | cons x xs ih =>
    simp only [List.map_cons, run_calls, call_run]
    rw [ih]

theorem forward_run_indep (USE_NUMA : Bool) (thread_num : Int) (cfg cfg1 : MOEConfig)
    (ts bs ts1 bs1 : Int) (hmin : cfg1.group_min_len = cfg.group_min_len)
    (hmax : cfg1.group_max_len = cfg.group_max_len) :
    ∀ (fuel : Nat) (qlen k e w i o e1 w1 i1 o1 : Int),
      (forward cfg1 ts1 bs1 fuel qlen k e1 w1 i1 o1).map (run_calls USE_NUMA thread_num)
        = (forward cfg ts bs fuel qlen k e w i o).map (run_calls USE_NUMA thread_num) := by
  intro fuel
  induction fuel with
  | zero => intros; rfl
  | succ n ih =>
    intro qlen k e w i o e1 w1 i1 o1
    unfold forward
    rw [hmin, hmax]
    by_cases hq : qlen < cfg.group_min_len
    · rw [if_pos hq, if_pos hq]
      simp only [Option.map_some']
      rw [run_calls_forward_one_map USE_NUMA thread_num k]
    · rw [if_neg hq, if_neg hq]
      have := ih (qlen - min cfg.group_max_len qlen) k
        (e + min cfg.group_max_len qlen * k) (w + min cfg.group_max_len qlen * k)
        (i + row_offset cfg ts bs (min cfg.group_max_len qlen))
        (o + row_offset cfg ts bs (min cfg.group_max_len qlen))
        (e1 + min cfg.group_max_len qlen * k) (w1 + min cfg.group_max_len qlen * k)
        (i1 + row_offset cfg1 ts1 bs1 (min cfg.group_max_len qlen))
        (o1 + row_offset cfg1 ts1 bs1 (min cfg.group_max_len qlen))
      simp only []
      cases h1 : forward cfg1 ts1 bs1 n (qlen - min cfg.group_max_len qlen) k
          (e1 + min cfg.group_max_len qlen * k) (w1 + min cfg.group_max_len qlen * k)
          (i1 + row_offset cfg1 ts1 bs1 (min cfg.group_max_len qlen))
          (o1 + row_offset cfg1 ts1 bs1 (min cfg.group_max_len qlen)) with
      | none =>
        rw [h1] at this
        cases h2 : forward cfg ts bs n (qlen - min cfg.group_max_len qlen) k
            (e + min cfg.group_max_len qlen * k) (w + min cfg.group_max_len qlen * k)
            (i + row_offset cfg ts bs (min cfg.group_max_len qlen))
            (o + row_offset cfg ts bs (min cfg.group_max_len qlen)) with
        | none => rfl
        | some r2 => rw [h2] at this; simp at this
      | some r1 =>
        rw [h1] at this
        cases h2 : forward cfg ts bs n (qlen - min cfg.group_max_len qlen) k
            (e + min cfg.group_max_len qlen * k) (w + min cfg.group_max_len qlen * k)
            (i + row_offset cfg ts bs (min cfg.group_max_len qlen))
            (o + row_offset cfg ts bs (min cfg.group_max_len qlen)) with
        | none => rw [h2] at this; simp at this
        | some r2 =>
          rw [h2] at this
          simp only [Option.map_some', Option.some.injEq] at this
          simp only [Option.map_some', run_calls, call_run, this]

theorem run_calls_no_numa (thread_num : Int) : ∀ (calls : List MoeCall),
    (run_calls false thread_num calls).exited = false := by
  intro calls
  induction calls with
  | nil => rfl
  | cons c cs ih =>
    have hc : (call_run false thread_num c).exited = false := by
      cases c <;> simp [call_run, forward_one_run, forward_many_run]
    simp only [run_calls, hc, Bool.false_eq_true, if_false]
    exact ih

/-- C16 (as amended): neither the `MOE` constructor nor `forward` tests `hidden_size` or
`intermediate_size`.  The constructor builds an object for every configuration; the
dispatches of `forward` and whether it exits are the same whatever the two sizes are; the
only fatal test is `thread_num % (2 * k) != 0` in `forward_one` under `USE_NUMA`
(`forward_many` has none), so without `USE_NUMA` no run of `forward` exits. -/
theorem C16_sizes_not_validated :
    (∀ (cfg : MOEConfig), (MOE.new cfg).config_ = cfg) ∧
    (∀ (USE_NUMA : Bool) (thread_num : Int) (cfg : MOEConfig) (hidden intermediate : Int)
        (ts bs ts1 bs1 : Int) (fuel : Nat) (qlen k : Int),
      (MOE.new { cfg with hidden_size := hidden, intermediate_size := intermediate }).forward_run
          USE_NUMA thread_num ts1 bs1 fuel qlen k
        = (MOE.new cfg).forward_run USE_NUMA thread_num ts bs fuel qlen k) ∧
    (∀ (USE_NUMA : Bool) (thread_num k : Int),
      (forward_one_run USE_NUMA thread_num k).exited = true ↔
        (USE_NUMA = true ∧ Int.tmod thread_num (2 * k) ≠ 0)) ∧
    (∀ (thread_num qlen : Int), (forward_many_run thread_num qlen).exited = false) ∧
    (∀ (thread_num : Int) (calls : List MoeCall),
      (run_calls false thread_num calls).exited = false) := by
  refine ⟨fun _ => rfl, ?_, ?_, fun _ _ => rfl, run_calls_no_numa⟩
  · intro USE_NUMA thread_num cfg hidden intermediate ts bs ts1 bs1 fuel qlen k
    simp only [MOE.forward_run, MOE.new]
    exact forward_run_indep USE_NUMA thread_num cfg
      { cfg with hidden_size := hidden, intermediate_size := intermediate } ts bs ts1 bs1
      rfl rfl fuel qlen k 0 0 0 0 0 0 0 0
  · intro USE_NUMA thread_num k
    unfold forward_one_run
    by_cases h : USE_NUMA = true ∧ Int.tmod thread_num (2 * k) ≠ 0
    · rw [if_pos h]
      exact ⟨fun _ => h, fun _ => rfl⟩
    · rw [if_neg h]
      exact ⟨fun h1 => by simp at h1, fun h1 => absurd h1 h⟩

/-- Instance of C16 (as amended): with sizes 100 instead of 128 the run of `forward` on 3
tokens with 4 threads is the same. -/
theorem C16_sizes_not_validated_witness :
    (MOE.new { cfg_example 2 4 with hidden_size := 100, intermediate_size := 100 }).forward_run
        false 4 4 1 3 3 2
      = (MOE.new (cfg_example 2 4)).forward_run false 4 4 1 3 3 2 :=
  C16_sizes_not_validated.2.1 false 4 (cfg_example 2 4) 100 100 4 1 4 1 3 3 2

/-- C16 as stated fails: for `hidden_size = intermediate_size = 100` (not a multiple of 128)
the constructor builds the object, and with 4 threads `forward` on 1 token (the `forward_one`
path, `k = 2`) dispatches 4 and 4 tasks, `forward` on 2 tokens (the `forward_many` path)
dispatches 2, 4, 4, 4 and 2 tasks, and neither run exits. -/
theorem C16_invalid_sizes_accepted_counterexample :
    Int.tmod cfg_invalid.hidden_size 128 ≠ 0 ∧
    Int.tmod cfg_invalid.intermediate_size 128 ≠ 0 ∧
    (MOE.new cfg_invalid).config_ = cfg_invalid ∧
    (MOE.new cfg_invalid).forward_run false 4 4 1 3 1 2
      = some { dispatches := [4, 4], exited := false } ∧
    (MOE.new cfg_invalid).forward_run false 4 4 1 3 2 2
      = some { dispatches := [2, 4, 4, 4, 2], exited := false } := by
  decide

/-- C17: in NUMA mode with `thread_num % (2 * k) != 0` the fatal test is made by
`forward_one` only.  On the `forward_one` path with at least one token the run exits before
any dispatch, as claimed; on the `forward_many` path (`qlen >= group_min_len`) a run that
returns has first dispatched the five jobs of `forward_many`
(`forward_len, thread_num, thread_num, thread_num, forward_len` tasks), whatever
`thread_num` is. -/
theorem C17_numa_thread_check_forward_one_only (thread_num : Int) (cfg : MOEConfig)
    (ts bs : Int) (qlen k : Int) :
    (∀ (fuel : Nat), Int.tmod thread_num (2 * k) ≠ 0 → 0 < qlen →
      qlen < cfg.group_min_len →
      (MOE.new cfg).forward_run true thread_num ts bs (fuel + 1) qlen k
        = some { dispatches := [], exited := true }) ∧
    (∀ (fuel : Nat) (r : Run), ¬ qlen < cfg.group_min_len →
      (MOE.new cfg).forward_run true thread_num ts bs fuel qlen k = some r →
      ∃ rest, r.dispatches
        = [min cfg.group_max_len qlen, thread_num, thread_num, thread_num,
            min cfg.group_max_len qlen] ++ rest) := by
  refine ⟨?_, ?_⟩
  · intro fuel hmod hpos hlt
    obtain ⟨n, hn⟩ : ∃ n : Nat, qlen.toNat = n + 1 :=
      ⟨qlen.toNat - 1, by have : 0 < qlen.toNat := by omega
                          omega⟩
    simp only [MOE.forward_run, MOE.new]
    unfold forward
    rw [if_pos hlt, hn, List.range_succ_eq_map]
    simp only [List.map_cons, Option.map_some', run_calls, call_run, forward_one_run]
    simp [hmod]
  · intro fuel r hge h
    simp only [MOE.forward_run, MOE.new] at h
    cases fuel with
    | zero => simp [forward] at h
    | succ n =>
      unfold forward at h
      rw [if_neg hge] at h
      simp only [] at h
      cases h1 : forward cfg ts bs n (qlen - min cfg.group_max_len qlen) k
          (0 + min cfg.group_max_len qlen * k) (0 + min cfg.group_max_len qlen * k)
          (0 + row_offset cfg ts bs (min cfg.group_max_len qlen))
          (0 + row_offset cfg ts bs (min cfg.group_max_len qlen)) with
      | none => rw [h1] at h; simp at h
      | some rest =>
        rw [h1] at h
        simp only [Option.map_some', Option.some.injEq] at h
        refine ⟨(run_calls true thread_num rest).dispatches, ?_⟩
        rw [← h]
        simp [run_calls, call_run, forward_many_run]

/-- Instance of C17 at the failing input: `USE_NUMA`, 3 threads, `k = 1` (`3 % 2 != 0`),
`group_min_len = 1`, 1 token: `forward` takes the `forward_many` path, dispatches
`1, 3, 3, 3, 1` tasks and returns without exiting; with `group_min_len = 2` the same call
takes the `forward_one` path and exits before any dispatch. -/
theorem C17_numa_thread_check_forward_one_only_witness :
    (Int.tmod 3 (2 * 1) ≠ 0 ∧ ¬ (1 : Int) < (cfg_example 1 4).group_min_len) ∧
    (MOE.new (cfg_example 1 4)).forward_run true 3 4 1 2 1 1
      = some { dispatches := [1, 3, 3, 3, 1], exited := false } ∧
    (MOE.new (cfg_example 2 4)).forward_run true 3 4 1 (0 + 1) 1 1
      = some { dispatches := [], exited := true } ∧
    (∃ rest, ({ dispatches := [1, 3, 3, 3, 1], exited := false } : Run).dispatches
      = [min (cfg_example 1 4).group_max_len 1, 3, 3, 3,
          min (cfg_example 1 4).group_max_len 1] ++ rest) :=
  ⟨by decide, by decide,
   (C17_numa_thread_check_forward_one_only 3 (cfg_example 2 4) 4 1 1 1).1 0 (by decide)
     (by decide) (by decide),
   (C17_numa_thread_check_forward_one_only 3 (cfg_example 1 4) 4 1 1 1).2 2 _ (by decide)
     (by decide)⟩

/-- C21 (as amended): `forward(group_max_len + 1, …)` makes exactly one `forward_many` call on
the first `group_max_len` tokens followed by exactly one `forward_one` call on the last token
when `2 <= group_min_len <= group_max_len + 1`.  With `group_min_len = 1` (and
`group_max_len >= 1`) the last token is below no threshold: the calls are
`forward_many(group_max_len, …)` and `forward_many(1, …)`, and there is no `forward_one`. -/
theorem C21_boundary_max_plus_one (cfg : MOEConfig) (ts bs k e w input output : Int)
    (fuel : Nat) :
    (2 ≤ cfg.group_min_len → cfg.group_min_len ≤ cfg.group_max_len + 1 →
      forward cfg ts bs (fuel + 2) (cfg.group_max_len + 1) k e w input output
        = some [MoeCall.forward_many cfg.group_max_len k e w input output,
            MoeCall.forward_one k (e + cfg.group_max_len * k) (w + cfg.group_max_len * k)
              (input + row_offset cfg ts bs cfg.group_max_len)
              (output + row_offset cfg ts bs cfg.group_max_len)]) ∧
    (cfg.group_min_len = 1 → 1 ≤ cfg.group_max_len →
      forward cfg ts bs (fuel + 3) (cfg.group_max_len + 1) k e w input output
        = some [MoeCall.forward_many cfg.group_max_len k e w input output,
            MoeCall.forward_many 1 k (e + cfg.group_max_len * k) (w + cfg.group_max_len * k)
              (input + row_offset cfg ts bs cfg.group_max_len)
              (output + row_offset cfg ts bs cfg.group_max_len)]) := by
  have hmin : min cfg.group_max_len (cfg.group_max_len + 1) = cfg.group_max_len := by omega
  have hsub : cfg.group_max_len + 1 - cfg.group_max_len = 1 := by omega
  have hrow0 : row_offset cfg ts bs ((0 : Nat) : Int) = 0 := by simp [row_offset]
  refine ⟨?_, ?_⟩
  · intro h2 hle
    have hge : ¬ cfg.group_max_len + 1 < cfg.group_min_len := by omega
    have hlt : (1 : Int) < cfg.group_min_len := by omega
    rw [forward, if_neg hge]
    simp only [hmin, hsub]
    rw [forward, if_pos hlt]
    have hr1 : List.range (1 : Int).toNat = [0] := rfl
    simp only [hr1, List.map_cons, List.map_nil, hrow0, Option.map_some']
    simp
  · intro h1 hmax
    have hge : ¬ cfg.group_max_len + 1 < cfg.group_min_len := by omega
    have hge1 : ¬ (1 : Int) < cfg.group_min_len := by omega
    have hlt0 : (0 : Int) < cfg.group_min_len := by omega
    have hmin1 : min cfg.group_max_len 1 = 1 := by omega
    rw [forward, if_neg hge]
    simp only [hmin, hsub]
    rw [forward, if_neg hge1]
    simp only [hmin1, sub_self]
    rw [forward, if_pos hlt0]
    simp

/-- Instance of C21 (as amended): `group_min_len = 2`, `group_max_len = 3`, 4 tokens. -/
theorem C21_boundary_max_plus_one_witness :
    ((2 : Int) ≤ (cfg_example 2 3).group_min_len ∧
      (cfg_example 2 3).group_min_len ≤ (cfg_example 2 3).group_max_len + 1) ∧
    forward (cfg_example 2 3) 4 1 (0 + 2) ((cfg_example 2 3).group_max_len + 1) 2 0 0 0 0
      = some [MoeCall.forward_many (cfg_example 2 3).group_max_len 2 0 0 0 0,
          MoeCall.forward_one 2 (0 + (cfg_example 2 3).group_max_len * 2)
            (0 + (cfg_example 2 3).group_max_len * 2)
            (0 + row_offset (cfg_example 2 3) 4 1 (cfg_example 2 3).group_max_len)
            (0 + row_offset (cfg_example 2 3) 4 1 (cfg_example 2 3).group_max_len)] :=
  ⟨by decide,
   (C21_boundary_max_plus_one (cfg_example 2 3) 4 1 2 0 0 0 0 0).1 (by decide) (by decide)⟩

/-- C21 as stated fails for `group_min_len = 1`: with `group_max_len = 3`, `forward(4, …)`
(`k = 2`, rows of 512 bytes) calls `forward_many` on the first 3 tokens and `forward_many`
again on the last token; no `forward_one` call is made. -/
theorem C21_min_len_one_counterexample :
    forward (cfg_example 1 3) 4 1 5 4 2 0 0 0 0
      = some [MoeCall.forward_many 3 2 0 0 0 0, MoeCall.forward_many 1 2 6 6 1536 1536] := by
  decide

theorem forward_call_lens (cfg : MOEConfig) (ts bs k : Int)
    (hmin : 1 ≤ cfg.group_min_len) (hle : cfg.group_min_len ≤ cfg.group_max_len) :
    ∀ (fuel : Nat) (qlen e w input output : Int) (calls : List MoeCall),
      forward cfg ts bs fuel qlen k e w input output = some calls →
      (∀ c ∈ calls, c.is_forward_one = false →
        cfg.group_min_len ≤ call_len c ∧ call_len c ≤ cfg.group_max_len) ∧
      ((calls.filter (fun c => c.is_forward_one)).length : Int) < cfg.group_min_len := by
  intro fuel
  induction fuel with
  | zero =>
    intro qlen e w input output calls h
    simp [forward] at h
  | succ n ih =>
    intro qlen e w input output calls h
    rw [forward] at h
    by_cases hlt : qlen < cfg.group_min_len
    · rw [if_pos hlt] at h
      simp only [Option.some.injEq] at h
      subst h
      refine ⟨?_, ?_⟩
      · intro c hc hone
        rw [List.mem_map] at hc
        obtain ⟨i, _, rfl⟩ := hc
        simp [MoeCall.is_forward_one] at hone
      · rw [List.filter_eq_self.mpr]
        · rw [List.length_map, List.length_range]
          omega
        · intro c hc
          rw [List.mem_map] at hc
          obtain ⟨i, _, rfl⟩ := hc
          rfl
    · rw [if_neg hlt] at h
      simp only [] at h
      cases hrec : forward cfg ts bs n (qlen - min cfg.group_max_len qlen) k
          (e + min cfg.group_max_len qlen * k) (w + min cfg.group_max_len qlen * k)
          (input + row_offset cfg ts bs (min cfg.group_max_len qlen))
          (output + row_offset cfg ts bs (min cfg.group_max_len qlen)) with
      | none => rw [hrec] at h; simp at h
      | some rest =>
        rw [hrec] at h
        simp only [Option.some.injEq] at h
        subst h
        obtain ⟨h1, h2⟩ := ih _ _ _ _ _ rest hrec
        refine ⟨?_, ?_⟩
        · intro c hc hone
          rw [List.mem_cons] at hc
          rcases hc with rfl | hc
          · simp only [call_len]
            omega
          · exact h1 c hc hone
        · rw [List.filter_cons]
          simpa [MoeCall.is_forward_one] using h2

/-- C24: for `1 <= group_min_len <= group_max_len` and `qlen >= 0`, `forward(qlen, …)` returns
(with `qlen + 1` units of fuel, and with the same calls for any fuel that suffices); every
`forward_many` call it makes has a length `len` with
`group_min_len <= len <= group_max_len`, and the `forward_one` calls (one per token of the
tail) are fewer than `group_min_len`. -/
theorem C24_forward_many_lengths (cfg : MOEConfig) (ts bs qlen k e w input output : Int)
    (hmin : 1 ≤ cfg.group_min_len) (hle : cfg.group_min_len ≤ cfg.group_max_len)
    (hq : 0 ≤ qlen) :
    (∃ calls, forward cfg ts bs (qlen.toNat + 1) qlen k e w input output = some calls) ∧
    (∀ (fuel : Nat) (calls : List MoeCall),
      forward cfg ts bs fuel qlen k e w input output = some calls →
      (∀ len k1 e1 w1 i1 o1, MoeCall.forward_many len k1 e1 w1 i1 o1 ∈ calls →
        cfg.group_min_len ≤ len ∧ len ≤ cfg.group_max_len) ∧
      ((calls.filter (fun c => c.is_forward_one)).length : Int) < cfg.group_min_len) := by
  have _ := hq
  refine ⟨?_, ?_⟩
  · obtain ⟨calls, hc, _⟩ := forward_returns cfg ts bs k e w hmin (by omega) qlen.toNat
      qlen 0 input output (le_refl _)
    simp only [zero_mul, add_zero] at hc
    exact ⟨calls, hc⟩
  · intro fuel calls h
    obtain ⟨h1, h2⟩ := forward_call_lens cfg ts bs k hmin hle fuel qlen e w input output calls h
    refine ⟨?_, h2⟩
    intro len k1 e1 w1 i1 o1 hmem
    exact h1 _ hmem rfl

/-- Instance of C24: `group_min_len = 2`, `group_max_len = 3`, 7 tokens: the calls are
`forward_many` on 3, 3 tokens and `forward_one` on the last. -/
theorem C24_forward_many_lengths_witness :
    ((1 : Int) ≤ (cfg_example 2 3).group_min_len ∧
      (cfg_example 2 3).group_min_len ≤ (cfg_example 2 3).group_max_len ∧ (0 : Int) ≤ 7) ∧
    (∃ calls, forward (cfg_example 2 3) 4 1 ((7 : Int).toNat + 1) 7 2 0 0 0 0 = some calls) ∧
    ((∀ len k1 e1 w1 i1 o1, MoeCall.forward_many len k1 e1 w1 i1 o1 ∈
        [MoeCall.forward_many 3 2 0 0 0 0, MoeCall.forward_many 3 2 6 6 1536 1536,
          MoeCall.forward_one 2 12 12 3072 3072] →
        (cfg_example 2 3).group_min_len ≤ len ∧ len ≤ (cfg_example 2 3).group_max_len) ∧
      ((([MoeCall.forward_many 3 2 0 0 0 0, MoeCall.forward_many 3 2 6 6 1536 1536,
          MoeCall.forward_one 2 12 12 3072 3072].filter
            (fun c => c.is_forward_one)).length : Int) < (cfg_example 2 3).group_min_len)) :=
  ⟨by decide,
   (C24_forward_many_lengths (cfg_example 2 3) 4 1 7 2 0 0 0 0 (by decide) (by decide)
      (by decide)).1,
   (C24_forward_many_lengths (cfg_example 2 3) 4 1 7 2 0 0 0 0 (by decide) (by decide)
      (by decide)).2 8 _ (by decide)⟩

theorem count_map_compute (l : List Int) (e : Event) (h : ∀ t, e ≠ Event.compute t) :
    (l.map Event.compute).count e = 0 := by
  rw [List.count_eq_zero]
  intro hmem
  rw [List.mem_map] at hmem
  obtain ⟨t, _, ht⟩ := hmem
  exact h t ht.symm

/-- C23: the events of `process_tasks(thread_id)` are, in this order: `init(thread_id)` if
`init_func_` is not null; the compute calls, which are the single `compute(thread_id)` in
one-shot mode and `compute(t)` for `t = curr, curr + 1, …, end - 1` in increasing order in
striped mode; `finalize(thread_id)` if `finalize_func_` is not null; the store of `WAITING`.
So `init` and `finalize` occur at most once, the store of `WAITING` occurs once and is the
last event, after every compute call, and the worker's status is `WAITING` afterwards. -/
theorem C23_process_tasks_event_order (b : Backend) (thread_id : Nat) :
    (process_tasks b thread_id).2
      = (if b.init_func_ then [Event.init thread_id] else [])
        ++ (if b.one_shot_mode then [Event.compute thread_id]
            else (interval (b.state thread_id).curr (b.state thread_id).end_).map
              Event.compute)
        ++ (if b.finalize_func_ then [Event.finalize thread_id] else [])
        ++ [Event.store_waiting thread_id] ∧
    (process_tasks b thread_id).2.count (Event.init thread_id) ≤ 1 ∧
    (process_tasks b thread_id).2.count (Event.finalize thread_id) ≤ 1 ∧
    (process_tasks b thread_id).2.count (Event.store_waiting thread_id) = 1 ∧
    (process_tasks b thread_id).2.getLast? = some (Event.store_waiting thread_id) ∧
    (thread_id < b.thread_state_.length →
      ((process_tasks b thread_id).1.state thread_id).status = ThreadStatus.WAITING) := by
  have hev : (process_tasks b thread_id).2
      = (if b.init_func_ then [Event.init thread_id] else [])
        ++ (if b.one_shot_mode then [Event.compute thread_id]
            else (interval (b.state thread_id).curr (b.state thread_id).end_).map
              Event.compute)
        ++ (if b.finalize_func_ then [Event.finalize thread_id] else [])
        ++ [Event.store_waiting thread_id] := by
    unfold process_tasks
    by_cases h1 : b.one_shot_mode = true
    · simp only [h1, if_true]
    · simp only [h1, Bool.false_eq_true, if_false]
      rw [fetch_loop_fst _ _ _ rfl]
  have hc : ∀ (e : Event), (∀ t, e ≠ Event.compute t) →
      (if b.one_shot_mode then [Event.compute (thread_id : Int)]
        else (interval (b.state thread_id).curr (b.state thread_id).end_).map
          Event.compute).count e = 0 := by
    intro e he
    by_cases h1 : b.one_shot_mode = true
    · rw [if_pos h1, List.count_eq_zero]
      intro hmem
      rw [List.mem_singleton] at hmem
      exact he _ hmem
    · rw [if_neg h1]
      exact count_map_compute _ e he
  have hi := hc (Event.init thread_id) (fun t h => Event.noConfusion h)
  have hf := hc (Event.finalize thread_id) (fun t h => Event.noConfusion h)
  have hw := hc (Event.store_waiting thread_id) (fun t h => Event.noConfusion h)
  refine ⟨hev, ?_, ?_, ?_, ?_, ?_⟩
  · rw [hev]
    simp only [List.count_append, hi]
    cases b.init_func_ <;> cases b.finalize_func_ <;> simp
  · rw [hev]
    simp only [List.count_append, hf]
    cases b.init_func_ <;> cases b.finalize_func_ <;> simp
  · rw [hev]
    simp only [List.count_append, hw]
    cases b.init_func_ <;> cases b.finalize_func_ <;> simp
  · rw [hev]
    simp
  · intro hlt
    unfold process_tasks Backend.state
    simp only []
    rw [store_status_getD]
    by_cases h1 : b.one_shot_mode = true
    · simp only [h1, if_true]
      rw [if_pos ⟨trivial, hlt⟩]
    · simp only [h1, Bool.false_eq_true, if_false]
      rw [if_pos ⟨trivial, by simp [store_curr]; exact hlt⟩]

/-- Instance of C23: after a striped dispatch of 5 tasks to 2 workers with both callbacks,
worker 1 (tasks 3 and 4) produces `init(1), compute(3), compute(4), finalize(1)` and the
store of `WAITING`, and is `WAITING` afterwards. -/
theorem C23_process_tasks_event_order_witness :
    (1 < (do_work_stealing_job false (Backend.new 2) 5 true true).thread_state_.length) ∧
    (process_tasks (do_work_stealing_job false (Backend.new 2) 5 true true) 1).2
      = [Event.init 1, Event.compute 3, Event.compute 4, Event.finalize 1,
          Event.store_waiting 1] ∧
    ((process_tasks (do_work_stealing_job false (Backend.new 2) 5 true true) 1).1.state
      1).status = ThreadStatus.WAITING :=
  ⟨by decide,
   (C23_process_tasks_event_order (do_work_stealing_job false (Backend.new 2) 5 true true)
      1).1.trans (by decide),
   (C23_process_tasks_event_order (do_work_stealing_job false (Backend.new 2) 5 true true)
      1).2.2.2.2.2 (by decide)⟩

theorem forward_many_offsets_fold (num : List Nat) : ∀ (n : Nat),
    (List.range n).foldl
        (fun (acc : List Nat × Nat) i => (acc.1 ++ [acc.2], acc.2 + num.getD i 0)) ([], 0)
      = ((List.range n).map (fun e => ((List.range e).map (fun i => num.getD i 0)).sum),
          ((List.range n).map (fun i => num.getD i 0)).sum) := by
  intro n
  induction n with
  | zero => rfl
  | succ n ih =>
    rw [List.range_succ, List.foldl_append, ih]
    simp [List.range_succ]

theorem prefix_sum_mono (f : Nat → Nat) : ∀ (a b : Nat), a ≤ b →
    ((List.range a).map f).sum ≤ ((List.range b).map f).sum := by
  intro a b hab
  induction b with
  | zero =>
    have : a = 0 := by omega
    subst this
    exact le_refl _
  | succ n ih =>
    by_cases h : a = n + 1
    · subst h
      exact le_refl _
    · have := ih (by omega)
      rw [List.range_succ, List.map_append, List.sum_append]
      omega

theorem buckets_pos_lt (expert_num qlen k : Nat) (expert_ids : Nat → Nat)
    (st : Buckets) (hnum : expert_num ≤ st.m_local_num_.length)
    (hpos : ∀ i, i < qlen →
      i < st.m_local_pos_.length ∧ k ≤ (st.m_local_pos_.getD i []).length)
    (hids : ∀ i j, i < qlen → j < k → expert_ids (i * k + j) < expert_num) :
    (∀ i j, i < qlen → j < k →
      (forward_many_buckets expert_num qlen k expert_ids st).pos i j
        < (forward_many_buckets expert_num qlen k expert_ids st).num
            (expert_ids (i * k + j))) ∧
    ((List.range expert_num).map
        (fun e => (forward_many_buckets expert_num qlen k expert_ids st).num e)).sum
      = qlen * k := by
  obtain ⟨hlen, hzero⟩ := reset_counts st.m_local_num_ expert_num
  have hwf : ∀ p ∈ token_slots qlen k,
      p.1 < st.m_local_pos_.length ∧ p.2 < (st.m_local_pos_.getD p.1 []).length ∧
      expert_ids (p.1 * k + p.2) < ((List.range expert_num).foldl
        (fun (num : List Nat) i => num.set i 0) st.m_local_num_).length := by
    rintro ⟨i, j⟩ hp
    rw [mem_token_slots] at hp
    obtain ⟨h1, h2⟩ := hpos i hp.1
    have h3 := hids i j hp.1 hp.2
    rw [hlen]
    have h2' : j < (st.m_local_pos_.getD i []).length := by omega
    have h3' : expert_ids (i * k + j) < st.m_local_num_.length := by omega
    exact ⟨h1, h2', h3'⟩
  obtain ⟨hA, hB, _⟩ := bucket_fold_inv k expert_ids (token_slots qlen k)
    { m_local_num_ := (List.range expert_num).foldl
        (fun (num : List Nat) i => num.set i 0) st.m_local_num_,
      m_local_pos_ := st.m_local_pos_ } (nodup_token_slots qlen k) hwf
  rw [forward_many_buckets_fold]
  have hnum0 : ∀ e, e < expert_num →
      (Buckets.mk ((List.range expert_num).foldl
        (fun (num : List Nat) i => num.set i 0) st.m_local_num_) st.m_local_pos_).num e = 0 :=
    fun e he => hzero e he (by omega)
  refine ⟨?_, ?_⟩
  · intro i j hi hj
    have he := hids i j hi hj
    have hmem : (i, j) ∈ (token_slots qlen k).filter
        (fun p => decide (expert_ids (p.1 * k + p.2) = expert_ids (i * k + j))) := by
      rw [List.mem_filter]
      exact ⟨(mem_token_slots qlen k i j).mpr ⟨hi, hj⟩, by simp⟩
    have hB1 := hB (expert_ids (i * k + j))
    rw [hnum0 _ he] at hB1
    have hin := List.mem_map_of_mem
      (fun (p : Nat × Nat) => ((token_slots qlen k).foldl
        (fun st p => bucket_step k expert_ids st p.1 p.2)
        (Buckets.mk ((List.range expert_num).foldl
          (fun (num : List Nat) i => num.set i 0) st.m_local_num_)
          st.m_local_pos_)).pos p.1 p.2) hmem
    rw [hB1, List.mem_range'_1] at hin
    have hin2 : ((token_slots qlen k).foldl
        (fun st p => bucket_step k expert_ids st p.1 p.2)
        (Buckets.mk ((List.range expert_num).foldl
          (fun (num : List Nat) i => num.set i 0) st.m_local_num_)
          st.m_local_pos_)).pos i j
        < 0 + ((token_slots qlen k).filter
          (fun p => decide (expert_ids (p.1 * k + p.2) = expert_ids (i * k + j)))).length :=
      hin.2
    rw [hA, hnum0 _ he]
    exact hin2
  · have hfun : (List.range expert_num).map (fun e => ((token_slots qlen k).foldl
          (fun st p => bucket_step k expert_ids st p.1 p.2)
          (Buckets.mk ((List.range expert_num).foldl
            (fun (num : List Nat) i => num.set i 0) st.m_local_num_) st.m_local_pos_)).num e)
        = (List.range expert_num).map (fun e => ((token_slots qlen k).filter
            (fun p => decide (expert_ids (p.1 * k + p.2) = e))).length) := by
      apply List.map_congr_left
      intro e he
      rw [hA e, hnum0 e (List.mem_range.mp he), Nat.zero_add]
    rw [hfun, sum_filter_length (fun (p : Nat × Nat) => expert_ids (p.1 * k + p.2)) expert_num
      (token_slots qlen k), length_token_slots]
    rintro ⟨i, j⟩ hp
    rw [mem_token_slots] at hp
    exact hids i j hp.1 hp.2

theorem forward_many_offsets_eq (expert_num : Nat) (num : List Nat) :
    forward_many_offsets expert_num num
      = ((List.range expert_num).map
          (fun e => ((List.range e).map (fun i => num.getD i 0)).sum),
          ((List.range expert_num).map (fun i => num.getD i 0)).sum) := by
  unfold forward_many_offsets
  simp only [Int.toNat_ofNat]
  exact forward_many_offsets_fold num expert_num

theorem forward_many_offsets_getD (expert_num : Nat) (num : List Nat) (e : Nat)
    (he : e < expert_num) :
    (forward_many_offsets expert_num num).1.getD e 0
      = ((List.range e).map (fun i => num.getD i 0)).sum := by
  rw [forward_many_offsets_eq]
  simp [List.getD_eq_getElem?_getD, List.getElem?_map, List.getElem?_range he]

/-- C25: whenever the indexing of the build loop is in bounds (as in C12), the offset with
which the pointers of expert `e` are formed is the exclusive prefix sum
`m_local_num_[0] + … + m_local_num_[e-1]`; the queue of expert `e + 1` starts where the
queue of `e` ends, queues of different experts do not overlap, and the last one ends at
`qlen * k`; every packed row index `offset[expert_ids[i*k+j]] + m_local_pos_[i][j]` is below
`qlen * k`, which is at most `routed_expert_num * group_max_len` (the rows of the `m_local_*`
scratch) when `qlen <= group_max_len` and `k <= routed_expert_num`. -/
theorem C25_forward_many_offsets (expert_num qlen k : Nat) (expert_ids : Nat → Nat)
    (st : Buckets) (hnum : expert_num ≤ st.m_local_num_.length)
    (hpos : ∀ i, i < qlen →
      i < st.m_local_pos_.length ∧ k ≤ (st.m_local_pos_.getD i []).length)
    (hids : ∀ i j, i < qlen → j < k → expert_ids (i * k + j) < expert_num) :
    (∀ e, e < expert_num →
      (forward_many_offsets expert_num
          (forward_many_buckets expert_num qlen k expert_ids st).m_local_num_).1.getD e 0
        = ((List.range e).map
            (fun i => (forward_many_buckets expert_num qlen k expert_ids st).num i)).sum) ∧
    (∀ e, e + 1 < expert_num →
      (forward_many_offsets expert_num
          (forward_many_buckets expert_num qlen k expert_ids st).m_local_num_).1.getD (e + 1) 0
        = (forward_many_offsets expert_num
            (forward_many_buckets expert_num qlen k expert_ids st).m_local_num_).1.getD e 0
          + (forward_many_buckets expert_num qlen k expert_ids st).num e) ∧
    (∀ e1 e2, e1 < e2 → e2 < expert_num →
      (forward_many_offsets expert_num
          (forward_many_buckets expert_num qlen k expert_ids st).m_local_num_).1.getD e1 0
          + (forward_many_buckets expert_num qlen k expert_ids st).num e1
        ≤ (forward_many_offsets expert_num
            (forward_many_buckets expert_num qlen k expert_ids st).m_local_num_).1.getD e2 0) ∧
    (forward_many_offsets expert_num
        (forward_many_buckets expert_num qlen k expert_ids st).m_local_num_).2 = qlen * k ∧
    (∀ i j, i < qlen → j < k →
      (forward_many_offsets expert_num
          (forward_many_buckets expert_num qlen k expert_ids st).m_local_num_).1.getD
          (expert_ids (i * k + j)) 0
        + (forward_many_buckets expert_num qlen k expert_ids st).pos i j < qlen * k) ∧
    (∀ (cfg : MOEConfig), (qlen : Int) ≤ cfg.group_max_len →
      (k : Int) ≤ cfg.routed_expert_num →
      ((qlen * k : Nat) : Int) ≤ cfg.routed_expert_num * cfg.group_max_len) := by
  obtain ⟨hlt, hsum⟩ := buckets_pos_lt expert_num qlen k expert_ids st hnum hpos hids
  have hoff : ∀ e, e < expert_num →
      (forward_many_offsets expert_num
          (forward_many_buckets expert_num qlen k expert_ids st).m_local_num_).1.getD e 0
        = ((List.range e).map
            (fun i => (forward_many_buckets expert_num qlen k expert_ids st).num i)).sum :=
    fun e he => forward_many_offsets_getD expert_num _ e he
  have hstep : ∀ e, ((List.range (e + 1)).map
      (fun i => (forward_many_buckets expert_num qlen k expert_ids st).num i)).sum
      = ((List.range e).map
          (fun i => (forward_many_buckets expert_num qlen k expert_ids st).num i)).sum
        + (forward_many_buckets expert_num qlen k expert_ids st).num e := by
    intro e
    rw [List.range_succ, List.map_append, List.sum_append]
    simp
  have hfin : (forward_many_offsets expert_num
      (forward_many_buckets expert_num qlen k expert_ids st).m_local_num_).2 = qlen * k := by
    rw [forward_many_offsets_eq]
    exact hsum
  refine ⟨hoff, ?_, ?_, hfin, ?_, ?_⟩
  · intro e he
    rw [hoff (e + 1) he, hoff e (by omega), hstep]
  · intro e1 e2 h12 he2
    rw [hoff e1 (by omega), hoff e2 he2, ← hstep]
    exact prefix_sum_mono _ (e1 + 1) e2 h12
  · intro i j hi hj
    have he := hids i j hi hj
    have h1 := hlt i j hi hj
    rw [hoff _ he]
    have h2 := prefix_sum_mono
      (fun i => (forward_many_buckets expert_num qlen k expert_ids st).num i)
      (expert_ids (i * k + j) + 1) expert_num he
    rw [hstep, hsum] at h2
    omega
  · intro cfg h1 h2
    push_cast
    have hq : (0 : Int) ≤ qlen := Int.ofNat_nonneg _
    have hk : (0 : Int) ≤ k := Int.ofNat_nonneg _
    calc (qlen : Int) * k ≤ cfg.group_max_len * cfg.routed_expert_num :=
          mul_le_mul h1 h2 hk (le_trans hq h1)
      _ = cfg.routed_expert_num * cfg.group_max_len := mul_comm _ _

/-- Instance of C25: 2 tokens, `k = 2`, 3 experts, routing `[1, 2, 1, 1]`: the counts are
`[0, 3, 1]`, the offsets `[0, 0, 3]`; the pair `(0, 1)` (expert 2, position 0) is packed at
row 3, below `2 * 2`. -/
theorem C25_forward_many_offsets_witness :
    (3 ≤ buckets_example.m_local_num_.length) ∧
    (forward_many_offsets (3 : Nat)
        (forward_many_buckets (3 : Nat) (2 : Nat) (2 : Nat) expert_ids_example
          buckets_example).m_local_num_).1 = [0, 0, 3] ∧
    (forward_many_offsets (3 : Nat)
        (forward_many_buckets (3 : Nat) (2 : Nat) (2 : Nat) expert_ids_example
          buckets_example).m_local_num_).1.getD (expert_ids_example (0 * 2 + 1)) 0
      + (forward_many_buckets (3 : Nat) (2 : Nat) (2 : Nat) expert_ids_example
          buckets_example).pos 0 1 < 2 * 2 :=
  ⟨by decide, by decide,
   (C25_forward_many_offsets 3 2 2 expert_ids_example buckets_example (by decide)
      (by decide)
      (by intro i j hi hj; interval_cases i <;> interval_cases j <;> decide)).2.2.2.2.1 0 1
      (by decide) (by decide)⟩

theorem range'_split (l r m : Nat) (h1 : l ≤ r) (h2 : r ≤ m) :
    List.range' l (r - l) ++ List.range' r (m - r) = List.range' l (m - l) := by
  obtain ⟨a, rfl⟩ := Nat.exists_eq_add_of_le h1
  obtain ⟨b, rfl⟩ := Nat.exists_eq_add_of_le h2
  have e1 : l + a - l = a := by omega
  have e2 : l + a + b - (l + a) = b := by omega
  have e3 : l + a + b - l = a + b := by omega
  rw [e1, e2, e3, List.range'_append_1, Nat.add_comm]

theorem f8_matmul_ranges_returns (bias_m m : Nat) : ∀ (fuel l : Nat), m - l ≤ fuel →
    ∃ ranges, f8_matmul_ranges bias_m m fuel l = some ranges := by
  intro fuel
  induction fuel with
  | zero =>
    intro l h
    have hl : ¬ l < m := by omega
    exact ⟨[], by simp [f8_matmul_ranges, hl]⟩
  | succ n ih =>
    intro l h
    by_cases hl : l < m
    · obtain ⟨rest, h1⟩ := ih (min (((l + bias_m) / 128 + 1) * 128 - bias_m) m) (by omega)
      exact ⟨(l, min (((l + bias_m) / 128 + 1) * 128 - bias_m) m) :: rest, by
        simp only [f8_matmul_ranges, if_pos hl, BLOCK_SIZE, h1, Option.map_some']⟩
    · exact ⟨[], by simp [f8_matmul_ranges, hl]⟩

theorem f8_matmul_ranges_spec (bias_m m : Nat) : ∀ (fuel l : Nat) (ranges : List (Nat × Nat)),
    f8_matmul_ranges bias_m m fuel l = some ranges →
      ranges.flatMap (fun p => List.range' p.1 (p.2 - p.1)) = List.range' l (m - l) ∧
      ∀ p ∈ ranges, l ≤ p.1 ∧ p.1 < p.2 ∧ p.2 ≤ m ∧
        p.2 = min (((p.1 + bias_m) / 128 + 1) * 128 - bias_m) m := by
  intro fuel
  induction fuel with
  | zero =>
    intro l ranges h
    by_cases hl : l < m
    · simp [f8_matmul_ranges, hl] at h
    · simp only [f8_matmul_ranges, if_neg hl, Option.some.injEq] at h
      subst h
      have : m - l = 0 := by omega
      simp [this]
  | succ n ih =>
    intro l ranges h
    by_cases hl : l < m
    · have hr1 : l < min (((l + bias_m) / 128 + 1) * 128 - bias_m) m := by omega
      have hr2 : min (((l + bias_m) / 128 + 1) * 128 - bias_m) m ≤ m := by omega
      simp only [f8_matmul_ranges, if_pos hl, BLOCK_SIZE] at h
      cases hrec : f8_matmul_ranges bias_m m n
          (min (((l + bias_m) / 128 + 1) * 128 - bias_m) m) with
      | none => rw [hrec] at h; simp at h
      | some rest =>
        rw [hrec] at h
        simp only [Option.map_some', Option.some.injEq] at h
        subst h
        obtain ⟨h2, h3⟩ := ih _ rest hrec
        refine ⟨?_, ?_⟩
        · rw [List.flatMap_cons, h2]
          exact range'_split l _ m (by omega) hr2
        · intro p hp
          rw [List.mem_cons] at hp
          rcases hp with rfl | hp
          · exact ⟨le_refl _, hr1, hr2, rfl⟩
          · obtain ⟨a, b, c, d⟩ := h3 p hp
            exact ⟨by omega, b, c, d⟩
    · simp only [f8_matmul_ranges, if_neg hl, Option.some.injEq] at h
      subst h
      have : m - l = 0 := by omega
      simp [this]

theorem scale_pointer_row (e I bias i m0 H ll : Nat) (hI : 128 ∣ I) (hH : 128 ∣ H)
    (hrow : (m0 + last_block_offset bias) / 128 = (bias + i) / 128 - bias / 128) :
    inv_ptr_offset e I bias H + f8_scale_index H bias m0 ll
      = ((e * I + bias + i) / 128) * (H / 128) + ll / 128 := by
  obtain ⟨I1, rfl⟩ := hI
  obtain ⟨H1, rfl⟩ := hH
  unfold inv_ptr_offset f8_scale_index
  rw [hrow]
  have h1 : e * (128 * I1) / 128 = e * I1 := by
    rw [Nat.mul_left_comm, Nat.mul_div_cancel_left _ (by decide : 0 < 128)]
  have h2 : (e * I1 + bias / 128) * (128 * H1) / 128 = (e * I1 + bias / 128) * H1 := by
    rw [Nat.mul_left_comm, Nat.mul_div_cancel_left _ (by decide : 0 < 128)]
  have h3 : 128 * H1 / 128 = H1 := Nat.mul_div_cancel_left _ (by decide : 0 < 128)
  have h4 : (e * (128 * I1) + bias + i) / 128 = e * I1 + (bias + i) / 128 := by
    have : e * (128 * I1) + bias + i = bias + i + 128 * (e * I1) := by ring
    rw [this, Nat.add_mul_div_left _ _ (by decide : 0 < 128)]
    omega
  have h5 : bias / 128 ≤ (bias + i) / 128 := Nat.div_le_div_right (by omega)
  rw [h1, h2, h3, h4]
  obtain ⟨d, hd⟩ := Nat.exists_eq_add_of_le h5
  rw [hd, Nat.add_sub_cancel_left]
  ring

/-- C26: for every `m` and `bias_m` the loop of the `F8_E4M3` `matmul` terminates (within `m`
iterations); its ranges `[l, r)` are non-empty, have
`r = min((floor((l + bias_m) / 128) + 1) * 128 - bias_m, m)` and, concatenated in order, are
`0, 1, …, m - 1`; all absolute rows `bias_m + i` of one range lie in the same 128-row block;
for `m0` and `i` in one range the scale row `(m0 + bias_m mod 128) / 128` that `gemv` and
`gemm` use is `floor((bias_m + i) / 128) - floor(bias_m / 128)`; and for sizes that are
multiples of 128, added to the offset of the scale pointer the orchestrator passes it gives
the scale of block row `floor((expert * rows + bias_m + i) / 128)`. -/
theorem C26_f8_scale_block_alignment (m bias_m : Nat) :
    (∃ ranges, f8_matmul_ranges bias_m m m 0 = some ranges) ∧
    (∀ (fuel : Nat) (ranges : List (Nat × Nat)),
      f8_matmul_ranges bias_m m fuel 0 = some ranges →
      ranges.flatMap (fun p => List.range' p.1 (p.2 - p.1)) = List.range m ∧
      ∀ p ∈ ranges, p.1 < p.2 ∧ p.2 ≤ m ∧
        p.2 = min (((p.1 + bias_m) / BLOCK_SIZE + 1) * BLOCK_SIZE - bias_m) m ∧
        ∀ m0 i, p.1 ≤ m0 → m0 < p.2 → p.1 ≤ i → i < p.2 →
          (bias_m + i) / 128 = (bias_m + p.1) / 128 ∧
          (m0 + last_block_offset bias_m) / 128 = (bias_m + i) / 128 - bias_m / 128 ∧
          ∀ expert rows cols ll, 128 ∣ rows → 128 ∣ cols →
            inv_ptr_offset expert rows bias_m cols + f8_scale_index cols bias_m m0 ll
              = ((expert * rows + bias_m + i) / 128) * (cols / 128) + ll / 128) := by
  refine ⟨f8_matmul_ranges_returns bias_m m m 0 (by omega), ?_⟩
  intro fuel ranges h
  obtain ⟨h1, h2⟩ := f8_matmul_ranges_spec bias_m m fuel 0 ranges h
  refine ⟨?_, ?_⟩
  · rw [h1, List.range_eq_range']
    rfl
  · intro p hp
    obtain ⟨_, hlt, hle, hr⟩ := h2 p hp
    refine ⟨hlt, hle, hr, ?_⟩
    intro m0 i hm0 hm1 hi0 hi1
    have hb : ∀ x, p.1 ≤ x → x < p.2 → (bias_m + x) / 128 = (bias_m + p.1) / 128 := by
      intro x hx0 hx1
      omega
    have hrow : (m0 + last_block_offset bias_m) / 128
        = (bias_m + i) / 128 - bias_m / 128 := by
      have e1 := hb m0 hm0 hm1
      have e2 := hb i hi0 hi1
      unfold last_block_offset BLOCK_SIZE
      omega
    exact ⟨hb i hi0 hi1, hrow,
      fun expert rows cols ll hI hH => scale_pointer_row expert rows bias_m i m0 cols ll hI hH
        hrow⟩

theorem f8_matmul_ranges_example :
    f8_matmul_ranges 100 300 300 0 = some [(0, 28), (28, 156), (156, 284), (284, 300)] := by
  decide

/-- Instance of C26: `m = 300`, `bias_m = 100`: the ranges are `[0, 28)`, `[28, 156)`,
`[156, 284)`, `[284, 300)`; in the second one, with `m0 = 28` and `i = 155`, the scale row is
`(28 + 100) / 128 = (100 + 155) / 128 - 100 / 128`. -/
theorem C26_f8_scale_block_alignment_witness :
    (28, 156) ∈ [(0, 28), (28, 156), (156, 284), (284, 300)] ∧
    ((100 + 155) / 128 = (100 + ((28, 156) : Nat × Nat).1) / 128 ∧
      (28 + last_block_offset 100) / 128 = (100 + 155) / 128 - 100 / 128 ∧
      ∀ expert rows cols ll, 128 ∣ rows → 128 ∣ cols →
        inv_ptr_offset expert rows 100 cols + f8_scale_index cols 100 28 ll
          = ((expert * rows + 100 + 155) / 128) * (cols / 128) + ll / 128) :=
  ⟨by decide,
   (((C26_f8_scale_block_alignment 300 100).2 300 _ f8_matmul_ranges_example).2 (28, 156)
      (by decide)).2.2.2 28 155 (by decide) (by decide) (by decide) (by decide)⟩

theorem f8_mnpack_gemv_none (m0 m n0 n : Nat) (hn : n - n0 = 1)
    (h : f8_gemv_switch (min (m - m0) 10) = none) : f8_mnpack m0 m n0 n = [] := by
  rw [f8_mnpack, dif_pos hn]
  split
  · rfl
  · rename_i mc h1
    rw [h] at h1
    exact Option.noConfusion h1

theorem f8_mnpack_gemv_some (m0 m n0 n mc : Nat) (hn : n - n0 = 1)
    (h : f8_gemv_switch (min (m - m0) 10) = some mc) :
    f8_mnpack m0 m n0 n
      = F8Call.gemv mc m0 m n0 ::
          (f8_mnpack (m0 + (m - m0) / mc * mc) m n0 (n0 + (n - n0) / 1 * 1) ++
            f8_mnpack m0 m (n0 + (n - n0) / 1 * 1) n) := by
  rw [f8_mnpack, dif_pos hn]
  split
  · rename_i h1
    rw [h] at h1
    exact Option.noConfusion h1
  · rename_i mc1 h1
    rw [h] at h1
    simp only [Option.some.injEq] at h1
    subst h1
    rfl

theorem f8_mnpack_no_columns (m0 m n0 n : Nat) (hn : n - n0 = 0) :
    f8_mnpack m0 m n0 n = [] := by
  have key : ∀ a, a < 6 → mnpack_tile ((a <<< 4) ||| 0) = none := by decide
  have hk : mnpack_tile (mnpack_key m0 m n0 n) = none := by
    unfold mnpack_key
    rw [hn]
    exact key (min (m - m0) 5) (by omega)
  rw [f8_mnpack, dif_neg (by omega)]
  split
  · rfl
  · rename_i mc nc h1
    rw [hk] at h1
    exact Option.noConfusion h1

theorem f8_gemv_switch_val : ∀ a, a < 11 →
    f8_gemv_switch a
      = if a = 0 then none else some (if 10 ≤ a then 10 else if 2 ≤ a then 2 else 1) := by
  decide

theorem f8_gemv_cells (T m0 m n0 : Nat) :
    f8_gemv T m0 m n0 = (List.range' m0 ((m - m0) / T * T)).map (fun row => (row, n0)) := by
  unfold f8_gemv
  generalize (m - m0) / T = q
  induction q with
  | zero => simp
  | succ q ih =>
    have hsplit : List.range' m0 ((q + 1) * T)
        = List.range' m0 (q * T) ++ List.range' (m0 + q * T) T := by
      rw [List.range'_append_1, Nat.succ_mul, Nat.add_comm]
    rw [List.range_succ, List.flatMap_append, ih, hsplit, List.map_append]
    congr 1
    simp only [List.flatMap_cons, List.flatMap_nil, List.append_nil]
    rw [List.range'_eq_map_range, List.map_map]
    rfl

theorem f8_mnpack_gemv_spec (nth ith n0 : Nat) : ∀ (r m0 m : Nat), m - m0 = r →
    (∀ c ∈ f8_mnpack m0 m n0 (n0 + 1), ∃ r0, m0 ≤ r0 ∧ r0 < m ∧
      c = F8Call.gemv (if 10 ≤ m - r0 then 10 else if 2 ≤ m - r0 then 2 else 1) r0 m n0) ∧
    (f8_mnpack m0 m n0 (n0 + 1)).flatMap (F8Call.cells nth ith)
      = (List.range' m0 (m - m0)).map (fun row => (row, n0)) := by
  intro r
  induction r using Nat.strong_induction_on with
  | _ r ih =>
    intro m0 m hr
    have hn : n0 + 1 - n0 = 1 := by omega
    by_cases h0 : m - m0 = 0
    · have hs : f8_gemv_switch (min (m - m0) 10) = none := by
        rw [h0]
        rfl
      rw [f8_mnpack_gemv_none m0 m n0 (n0 + 1) hn hs, h0]
      exact ⟨fun c hc => absurd hc (List.not_mem_nil c), rfl⟩
    · have hsw := f8_gemv_switch_val (min (m - m0) 10) (by omega)
      rw [if_neg (by omega)] at hsw
      have hmc : (if 10 ≤ min (m - m0) 10 then 10 else if 2 ≤ min (m - m0) 10 then 2 else 1)
          = (if 10 ≤ m - m0 then 10 else if 2 ≤ m - m0 then 2 else 1) := by
        split_ifs <;> omega
      rw [hmc] at hsw
      have hmc1 : 1 ≤ (if 10 ≤ m - m0 then 10 else if 2 ≤ m - m0 then 2 else 1) := by
        split_ifs <;> omega
      have hmc2 : (if 10 ≤ m - m0 then 10 else if 2 ≤ m - m0 then 2 else 1) ≤ m - m0 := by
        split_ifs <;> omega
      generalize hmcdef : (if 10 ≤ m - m0 then 10 else if 2 ≤ m - m0 then 2 else 1) = mc
        at hsw hmc1 hmc2
      have hq1 : mc ≤ (m - m0) / mc * mc := by
        have := Nat.div_pos hmc2 (by omega)
        nlinarith
      have hq2 : (m - m0) / mc * mc ≤ m - m0 := Nat.div_mul_le_self _ _
      have hstep : n0 + (n0 + 1 - n0) / 1 * 1 = n0 + 1 := by
        rw [hn]
      rw [f8_mnpack_gemv_some m0 m n0 (n0 + 1) mc hn hsw, hstep,
        f8_mnpack_no_columns m0 m (n0 + 1) (n0 + 1) (by omega), List.append_nil]
      obtain ⟨ih1, ih2⟩ := ih (m - (m0 + (m - m0) / mc * mc)) (by omega)
        (m0 + (m - m0) / mc * mc) m rfl
      refine ⟨?_, ?_⟩
      · intro c hc
        rw [List.mem_cons] at hc
        rcases hc with rfl | hc
        · exact ⟨m0, le_refl _, by omega, by rw [hmcdef]⟩
        · obtain ⟨r0, h1, h2, h3⟩ := ih1 c hc
          exact ⟨r0, by omega, h2, h3⟩
      · rw [List.flatMap_cons, ih2]
        show f8_gemv mc m0 m n0 ++ _ = _
        rw [f8_gemv_cells, ← List.map_append]
        congr 1
        have hs := range'_split m0 (m0 + (m - m0) / mc * mc) m (by omega) (by omega)
        rw [Nat.add_sub_cancel_left] at hs
        exact hs

/-- C27: for `n - n0 = 1` and every row range `[m0, m)` the `F8_E4M3` `mnpack` (a total
function: its recursion terminates) makes only `gemv` calls, each on the rows `[r0, m)` that
remain, with `TILESZ = 10` when at least 10 rows remain, `2` when 2 to 9 remain and `1` when
exactly one remains; the cells of `C` stored, in program order, are
`(m0, n0), (m0 + 1, n0), …, (m - 1, n0)`: every row of the range once, nothing else. -/
theorem C27_f8_gemv_coverage (nth ith m0 m n0 : Nat) :
    (∀ c ∈ f8_mnpack m0 m n0 (n0 + 1), ∃ r0, m0 ≤ r0 ∧ r0 < m ∧
      c = F8Call.gemv (if 10 ≤ m - r0 then 10 else if 2 ≤ m - r0 then 2 else 1) r0 m n0) ∧
    (f8_mnpack m0 m n0 (n0 + 1)).flatMap (F8Call.cells nth ith)
      = (List.range' m0 (m - m0)).map (fun row => (row, n0)) ∧
    (∀ row, m0 ≤ row → row < m →
      ((f8_mnpack m0 m n0 (n0 + 1)).flatMap (F8Call.cells nth ith)).count (row, n0) = 1) ∧
    (∀ cell ∈ (f8_mnpack m0 m n0 (n0 + 1)).flatMap (F8Call.cells nth ith),
      cell.2 = n0 ∧ m0 ≤ cell.1 ∧ cell.1 < m) := by
  obtain ⟨h1, h2⟩ := f8_mnpack_gemv_spec nth ith n0 (m - m0) m0 m rfl
  refine ⟨h1, h2, ?_, ?_⟩
  · intro row hlo hhi
    rw [h2]
    apply count_eq_one_of_nodup_mem
    · exact (List.nodup_range' m0 (m - m0)).map (fun a b h => (Prod.mk.inj h).1)
    · exact List.mem_map.mpr ⟨row, List.mem_range'_1.mpr ⟨hlo, by omega⟩, rfl⟩
  · intro cell hc
    rw [h2, List.mem_map] at hc
    obtain ⟨row, hrow, rfl⟩ := hc
    rw [List.mem_range'_1] at hrow
    exact ⟨rfl, hrow.1, by omega⟩

theorem f8_mnpack_example :
    f8_mnpack 0 25 0 1 = [F8Call.gemv 10 0 25 0, F8Call.gemv 2 20 25 0, F8Call.gemv 1 24 25 0] := by
  have e1 : f8_mnpack 0 25 0 1
      = F8Call.gemv 10 0 25 0 :: (f8_mnpack 20 25 0 1 ++ f8_mnpack 0 25 1 1) :=
    f8_mnpack_gemv_some 0 25 0 1 10 (by decide) (by decide)
  have e2 : f8_mnpack 20 25 0 1
      = F8Call.gemv 2 20 25 0 :: (f8_mnpack 24 25 0 1 ++ f8_mnpack 20 25 1 1) :=
    f8_mnpack_gemv_some 20 25 0 1 2 (by decide) (by decide)
  have e3 : f8_mnpack 24 25 0 1
      = F8Call.gemv 1 24 25 0 :: (f8_mnpack 25 25 0 1 ++ f8_mnpack 24 25 1 1) :=
    f8_mnpack_gemv_some 24 25 0 1 1 (by decide) (by decide)
  have e4 : f8_mnpack 25 25 0 1 = [] := f8_mnpack_gemv_none 25 25 0 1 (by decide) (by decide)
  rw [e1, e2, e3, e4, f8_mnpack_no_columns 0 25 1 1 (by decide),
    f8_mnpack_no_columns 20 25 1 1 (by decide), f8_mnpack_no_columns 24 25 1 1 (by decide)]
  rfl

/-- Instance of C27: rows `[0, 25)`, column 0: the stored cells are `(0, 0), …, (24, 0)` in
order and row 24 is stored once. -/
theorem C27_f8_gemv_coverage_witness :
    (f8_mnpack 0 25 0 (0 + 1)).flatMap (F8Call.cells 1 0)
      = (List.range' 0 (25 - 0)).map (fun row => (row, 0)) ∧
    ((f8_mnpack 0 25 0 (0 + 1)).flatMap (F8Call.cells 1 0)).count (24, 0) = 1 :=
  ⟨(C27_f8_gemv_coverage 1 0 0 25 0).2.1,
   (C27_f8_gemv_coverage 1 0 0 25 0).2.2.1 24 (by decide) (by decide)⟩

theorem slice_unique (size nth : Int) (hs : 0 ≤ size) (hn : 1 ≤ nth)
    (hnth : nth < 2147483648) (hov : nth * size < 2147483648) :
    (∀ x : Int, 0 ≤ x → x < size →
      ∃! i : Int, 0 ≤ i ∧ i < nth ∧ (get_slice size nth i).2 ≤ x ∧
        x < (get_slice size nth i).2 + (get_slice size nth i).1) ∧
    (∀ i x : Int, 0 ≤ i → i < nth → (get_slice size nth i).2 ≤ x →
      x < (get_slice size nth i).2 + (get_slice size nth i).1 → 0 ≤ x ∧ x < size) := by
  have hex := fun i h0 h1 => get_slice_exact size nth i hs hn hnth hov h0 h1
  have hmono : ∀ a b : Int, a ≤ b → a * size / nth ≤ b * size / nth := by
    intro a b hab
    exact Int.ediv_le_ediv (by omega) (by nlinarith)
  have hBn : nth * size / nth = size := Int.mul_ediv_cancel_left _ (by omega)
  have hnonneg : ∀ a : Int, 0 ≤ a → 0 ≤ a * size / nth := by
    intro a ha
    exact Int.ediv_nonneg (by positivity) (by omega)
  refine ⟨?_, ?_⟩
  · intro x hx0 hx1
    have hlt : x < ((nth.toNat : Nat) : Int) * size / nth := by
      rw [Int.toNat_of_nonneg (by omega), hBn]
      exact hx1
    obtain ⟨i, hi, h1, h2⟩ := slice_bound_exists size nth x hx0 nth.toNat hlt
    refine ⟨(i : Int), ⟨by omega, by omega, ?_, ?_⟩, ?_⟩
    · rw [hex i (by omega) (by omega)]
      exact h1
    · rw [hex i (by omega) (by omega)]
      simp only
      omega
    · rintro j ⟨h0j, h1j, h2j, h3j⟩
      rw [hex j h0j h1j] at h2j h3j
      simp only at h2j h3j
      have h4j : x < (j + 1) * size / nth := by omega
      by_contra hne
      rcases lt_or_gt_of_ne hne with hlt1 | hgt1
      · have := hmono (j + 1) i (by omega)
        omega
      · have := hmono ((i : Int) + 1) j (by omega)
        omega
  · intro i x h0 h1 h2 h3
    rw [hex i h0 h1] at h2 h3
    simp only at h2 h3
    have ha := hnonneg i h0
    have hb := hmono (i + 1) nth (by omega)
    rw [hBn] at hb
    omega

theorem mem_forward_one_act_cells (intermediate_size nth k task_id e i : Int) :
    (e, i) ∈ forward_one_act_cells intermediate_size nth k task_id ↔
      (Int.tmod task_id k = e ∧
        (get_slice intermediate_size nth (Int.tdiv task_id k)).2 ≤ i ∧
        i < (get_slice intermediate_size nth (Int.tdiv task_id k)).2
          + (get_slice intermediate_size nth (Int.tdiv task_id k)).1) := by
  unfold forward_one_act_cells
  simp only [List.mem_map, mem_interval, Prod.mk.injEq]
  constructor
  · rintro ⟨x, ⟨h1, h2⟩, h3, rfl⟩
    exact ⟨h3, h1, h2⟩
  · rintro ⟨h1, h2, h3⟩
    exact ⟨i, ⟨h2, h3⟩, h1, rfl⟩

theorem task_id_split (k nth : Int) (hk : 1 ≤ k) :
    (∀ task_id, 0 ≤ task_id → task_id < nth * k →
      0 ≤ Int.tmod task_id k ∧ Int.tmod task_id k < k ∧
      0 ≤ Int.tdiv task_id k ∧ Int.tdiv task_id k < nth) ∧
    (∀ e ith, 0 ≤ e → e < k → 0 ≤ ith → ith < nth →
      ∃! task_id, 0 ≤ task_id ∧ task_id < nth * k ∧
        Int.tmod task_id k = e ∧ Int.tdiv task_id k = ith) := by
  refine ⟨?_, ?_⟩
  · intro t h0 h1
    rw [Int.tmod_eq_emod h0 (by omega), Int.tdiv_eq_ediv h0 (by omega)]
    refine ⟨Int.emod_nonneg _ (by omega), Int.emod_lt_of_pos _ (by omega),
      Int.ediv_nonneg h0 (by omega), ?_⟩
    exact (Int.ediv_lt_iff_lt_mul (by omega)).mpr h1
  · intro e ith he0 he1 hi0 hi1
    have hnn : 0 ≤ ith * k + e := by positivity
    have hd : (ith * k + e) / k = ith := by
      rw [Int.add_comm, Int.add_mul_ediv_right _ _ (by omega), Int.ediv_eq_zero_of_lt he0 he1]
      omega
    have hm : (ith * k + e) % k = e := by
      rw [Int.add_comm, Int.add_mul_emod_self, Int.emod_eq_of_lt he0 he1]
    refine ⟨ith * k + e, ⟨hnn, ?_, ?_, ?_⟩, ?_⟩
    · have : (ith + 1) * k ≤ nth * k := by nlinarith
      nlinarith
    · rw [Int.tmod_eq_emod hnn (by omega), hm]
    · rw [Int.tdiv_eq_ediv hnn (by omega), hd]
    · rintro t ⟨h0, _, h2, h3⟩
      rw [Int.tmod_eq_emod h0 (by omega)] at h2
      rw [Int.tdiv_eq_ediv h0 (by omega)] at h3
      have := Int.ediv_add_emod t k
      rw [h2, h3] at this
      rw [← this]
      ring

/-- The overflow of `get_slice` inside `forward_one`: with 4 threads, `k = 1` (`nth = 4`)
and `intermediate_size = 2^30` (a multiple of 128) the slice of task 3 comes out as
`(local, bias) = (2^28, -2^28)`; element `3 * 2^28` of expert slot 0 is written by none of
the 4 tasks, and task 3 writes the element of index `-1`, which is outside the buffer. -/
theorem forward_one_act_overflow_example :
    forward_one_nth 4 1 = 4 ∧ Int.tmod 1073741824 128 = 0 ∧
    get_slice 1073741824 4 (Int.tdiv 3 1) = (268435456, -268435456) ∧
    (∀ task_id, 0 ≤ task_id → task_id < forward_one_nth 4 1 * 1 →
      ((0 : Int), (805306368 : Int)) ∉
        forward_one_act_cells 1073741824 (forward_one_nth 4 1) 1 task_id) ∧
    ((0 : Int), (-1 : Int)) ∈ forward_one_act_cells 1073741824 (forward_one_nth 4 1) 1 3 := by
  refine ⟨by decide, by decide, by decide, ?_, ?_⟩
  · intro t h0 h1 hmem
    rw [mem_forward_one_act_cells] at hmem
    have h4 : forward_one_nth 4 1 = 4 := by decide
    rw [h4] at h1 hmem
    have hc : t = 0 ∨ t = 1 ∨ t = 2 ∨ t = 3 := by omega
    rcases hc with rfl | rfl | rfl | rfl
    · exact absurd hmem (by decide)
    · exact absurd hmem (by decide)
    · exact absurd hmem (by decide)
    · exact absurd hmem (by decide)
  · rw [mem_forward_one_act_cells]
    decide

/-- C28: for `k >= 1` and `nth = max(1, thread_num / k)`, task ids `0 <= task_id < nth * k`
map one-to-one onto the pairs `(expert_idx, ith) = (task_id mod k, task_id div k)` of
`[0, k) × [0, nth)`; and as long as the product `nth * intermediate_size` fits a 32-bit
`int`, every element `s_intermediate_fp32_[expert_idx][i]` with `expert_idx` in `[0, k)` and
`i` in `[0, intermediate_size)` is written by exactly one task, and no task writes outside
these ranges.  Beyond that range the products inside `get_slice` overflow: with 4 threads,
`k = 1` and `intermediate_size = 2^30` the slice of task 3 is `(2^28, -2^28)`, element
`3 * 2^28` of expert slot 0 is written by no task and task 3 writes the element of index
`-1`. -/
theorem C28_forward_one_act_coverage :
    (∀ (thread_num k intermediate_size : Int), 1 ≤ k → 0 ≤ intermediate_size →
      forward_one_nth thread_num k < 2147483648 →
      forward_one_nth thread_num k * intermediate_size < 2147483648 →
      (∀ task_id, 0 ≤ task_id → task_id < forward_one_nth thread_num k * k →
        0 ≤ Int.tmod task_id k ∧ Int.tmod task_id k < k ∧
        0 ≤ Int.tdiv task_id k ∧ Int.tdiv task_id k < forward_one_nth thread_num k) ∧
      (∀ e ith, 0 ≤ e → e < k → 0 ≤ ith → ith < forward_one_nth thread_num k →
        ∃! task_id, 0 ≤ task_id ∧ task_id < forward_one_nth thread_num k * k ∧
          Int.tmod task_id k = e ∧ Int.tdiv task_id k = ith) ∧
      (∀ e i, 0 ≤ e → e < k → 0 ≤ i → i < intermediate_size →
        ∃! task_id, 0 ≤ task_id ∧ task_id < forward_one_nth thread_num k * k ∧
          (e, i) ∈ forward_one_act_cells intermediate_size (forward_one_nth thread_num k) k
            task_id) ∧
      (∀ task_id e i, 0 ≤ task_id → task_id < forward_one_nth thread_num k * k →
        (e, i) ∈ forward_one_act_cells intermediate_size (forward_one_nth thread_num k) k
          task_id →
        0 ≤ e ∧ e < k ∧ 0 ≤ i ∧ i < intermediate_size)) ∧
    (forward_one_nth 4 1 * 1073741824 ≥ 2147483648 ∧
      get_slice 1073741824 (forward_one_nth 4 1) (Int.tdiv 3 1) = (268435456, -268435456) ∧
      (∀ task_id, 0 ≤ task_id → task_id < forward_one_nth 4 1 * 1 →
        ((0 : Int), (805306368 : Int)) ∉
          forward_one_act_cells 1073741824 (forward_one_nth 4 1) 1 task_id) ∧
      ((0 : Int), (-1 : Int)) ∈
        forward_one_act_cells 1073741824 (forward_one_nth 4 1) 1 3) := by
  refine ⟨?_, by decide, by decide, forward_one_act_overflow_example.2.2.2.1,
    forward_one_act_overflow_example.2.2.2.2⟩
  intro thread_num k intermediate_size hk hI hnth hov
  have hn1 : 1 ≤ forward_one_nth thread_num k := le_max_left _ _
  obtain ⟨hsplit, hbij⟩ := task_id_split k (forward_one_nth thread_num k) hk
  obtain ⟨huniq, hinside⟩ := slice_unique intermediate_size (forward_one_nth thread_num k)
    hI hn1 hnth hov
  refine ⟨hsplit, hbij, ?_, ?_⟩
  · intro e i he0 he1 hi0 hi1
    obtain ⟨ith, ⟨hs0, hs1, hs2, hs3⟩, hsu⟩ := huniq i hi0 hi1
    obtain ⟨t, ⟨ht0, ht1, ht2, ht3⟩, htu⟩ := hbij e ith he0 he1 hs0 hs1
    refine ⟨t, ⟨ht0, ht1, ?_⟩, ?_⟩
    · rw [mem_forward_one_act_cells, ht3]
      exact ⟨ht2, hs2, hs3⟩
    · rintro t1 ⟨h0, h1, h2⟩
      rw [mem_forward_one_act_cells] at h2
      obtain ⟨a, b, c, d⟩ := hsplit t1 h0 h1
      have hith := hsu (Int.tdiv t1 k) ⟨c, d, h2.2.1, h2.2.2⟩
      exact htu t1 ⟨h0, h1, h2.1, hith⟩
  · intro t e i h0 h1 hmem
    rw [mem_forward_one_act_cells] at hmem
    obtain ⟨a, b, c, d⟩ := hsplit t h0 h1
    obtain ⟨hx0, hx1⟩ := hinside (Int.tdiv t k) i c d hmem.2.1 hmem.2.2
    rw [← hmem.1]
    exact ⟨a, b, hx0, hx1⟩

/-- Instance of C28: 8 threads, `k = 2` (`nth = 4`), `intermediate_size = 128`: element 100
of expert slot 1 is written by exactly one of the 8 tasks. -/
theorem C28_forward_one_act_coverage_witness :
    ((1 : Int) ≤ 2 ∧ (0 : Int) ≤ 128 ∧ forward_one_nth 8 2 < 2147483648 ∧
      forward_one_nth 8 2 * 128 < 2147483648) ∧
    (∃! task_id, 0 ≤ task_id ∧ task_id < forward_one_nth 8 2 * 2 ∧
      ((1 : Int), (100 : Int)) ∈ forward_one_act_cells 128 (forward_one_nth 8 2) 2 task_id) :=
  ⟨by decide,
   (C28_forward_one_act_coverage.1 8 2 128 (by decide) (by decide) (by decide)
      (by decide)).2.2.1 1 100 (by decide) (by decide) (by decide) (by decide)⟩

/-- The integer formula of `ceil_div` is the ceiling of the exact quotient. -/
theorem ceil_div_eq_ceil (a b : Int) (hb : 0 < b) : ceil_div a b = ⌈(a : ℚ) / (b : ℚ)⌉ := by
  unfold ceil_div
  symm
  rw [Int.ceil_eq_iff]
  have hbq : (0 : ℚ) < (b : ℚ) := by exact_mod_cast hb
  have h1 : (a + b - 1) / b * b ≤ a + b - 1 := Int.ediv_mul_le _ (by omega)
  have h2 : a + b - 1 < ((a + b - 1) / b + 1) * b := Int.lt_ediv_add_one_mul_self _ hb
  constructor
  · rw [lt_div_iff₀ hbq]
    have : ((a + b - 1) / b - 1) * b < a := by nlinarith
    exact_mod_cast this
  · rw [div_le_iff₀ hbq]
    have : a ≤ (a + b - 1) / b * b := by nlinarith
    exact_mod_cast this

theorem input_conv_stride_eq_ceil (hidden_size thread_num : Int) (ht : 0 < thread_num) :
    input_conv_stride hidden_size thread_num
      = QK_K * ⌈(1 : ℚ) * (hidden_size : ℚ) / (thread_num : ℚ) / (QK_K : ℚ)⌉ := by
  unfold input_conv_stride
  rw [ceil_div_eq_ceil _ _ (by unfold QK_K; omega)]
  congr 2
  push_cast
  rw [one_mul, div_div]

theorem input_conv_facts (hidden_size thread_num : Int) (hh : 1 ≤ hidden_size)
    (ht : 1 ≤ thread_num) :
    0 < input_conv_stride hidden_size thread_num ∧
    256 ∣ input_conv_stride hidden_size thread_num ∧
    hidden_size ≤ thread_num * input_conv_stride hidden_size thread_num ∧
    1 ≤ input_conv_nth hidden_size thread_num ∧
    input_conv_nth hidden_size thread_num ≤ thread_num ∧
    hidden_size
      ≤ input_conv_nth hidden_size thread_num * input_conv_stride hidden_size thread_num ∧
    (input_conv_nth hidden_size thread_num - 1) * input_conv_stride hidden_size thread_num
      < hidden_size := by
  have hc1 : hidden_size + thread_num * 256 - 1
      < ((hidden_size + thread_num * 256 - 1) / (thread_num * 256) + 1) * (thread_num * 256) :=
    Int.lt_ediv_add_one_mul_self _ (by omega)
  have hc0 : 1 ≤ (hidden_size + thread_num * 256 - 1) / (thread_num * 256) :=
    Int.le_ediv_of_mul_le (by omega) (by omega)
  have hS : input_conv_stride hidden_size thread_num
      = 256 * ((hidden_size + thread_num * 256 - 1) / (thread_num * 256)) := rfl
  generalize (hidden_size + thread_num * 256 - 1) / (thread_num * 256) = c at hc1 hc0 hS
  have hSpos : 0 < input_conv_stride hidden_size thread_num := by omega
  have hcover : hidden_size ≤ thread_num * input_conv_stride hidden_size thread_num := by
    rw [hS]
    nlinarith
  have hN : input_conv_nth hidden_size thread_num
      = (hidden_size + input_conv_stride hidden_size thread_num - 1)
          / input_conv_stride hidden_size thread_num := rfl
  have hn1 : (hidden_size + input_conv_stride hidden_size thread_num - 1)
      / input_conv_stride hidden_size thread_num
        * input_conv_stride hidden_size thread_num
      ≤ hidden_size + input_conv_stride hidden_size thread_num - 1 :=
    Int.ediv_mul_le _ (by omega)
  have hn2 : hidden_size + input_conv_stride hidden_size thread_num - 1
      < ((hidden_size + input_conv_stride hidden_size thread_num - 1)
          / input_conv_stride hidden_size thread_num + 1)
        * input_conv_stride hidden_size thread_num :=
    Int.lt_ediv_add_one_mul_self _ hSpos
  rw [← hN] at hn1 hn2
  generalize input_conv_nth hidden_size thread_num = N at hn1 hn2
  generalize input_conv_stride hidden_size thread_num = S at hSpos hcover hn1 hn2 hS
  refine ⟨hSpos, ⟨c, hS⟩, hcover, ?_, ?_, ?_, ?_⟩
  · by_contra hlt
    have : N ≤ 0 := by omega
    nlinarith
  · by_contra hlt
    have : thread_num + 1 ≤ N := by omega
    nlinarith
  · nlinarith
  · nlinarith

/-- C29: for `hidden_size >= 1` and `thread_num >= 1` the stripes `0, …, input_conv_nth - 1`
of the input conversion start inside the token, and all but the last end inside it; the last
stripe ends at `input_conv_nth * input_conv_stride >= hidden_size`, which is `hidden_size`
exactly when `input_conv_stride` divides `hidden_size`.  As `input_conv_stride` is a multiple
of 256, every `hidden_size` that is not a multiple of 256 (such as 128) makes the last
stripe convert elements beyond `hidden_size`. -/
theorem C29_input_conv_last_stripe (hidden_size thread_num : Int) (hh : 1 ≤ hidden_size)
    (ht : 1 ≤ thread_num) :
    (∀ ith, 0 ≤ ith → ith < input_conv_nth hidden_size thread_num →
      0 ≤ (input_conv_range hidden_size thread_num ith).1 ∧
      (input_conv_range hidden_size thread_num ith).1 < hidden_size) ∧
    (∀ ith, 0 ≤ ith → ith < input_conv_nth hidden_size thread_num - 1 →
      (input_conv_range hidden_size thread_num ith).2 ≤ hidden_size) ∧
    hidden_size ≤ (input_conv_range hidden_size thread_num
      (input_conv_nth hidden_size thread_num - 1)).2 ∧
    ((input_conv_range hidden_size thread_num
        (input_conv_nth hidden_size thread_num - 1)).2 ≤ hidden_size ↔
      input_conv_stride hidden_size thread_num ∣ hidden_size) ∧
    (¬ 256 ∣ hidden_size →
      hidden_size < (input_conv_range hidden_size thread_num
        (input_conv_nth hidden_size thread_num - 1)).2) := by
  obtain ⟨hS, h256, _, hN1, _, hcov, hlast⟩ := input_conv_facts hidden_size thread_num hh ht
  unfold input_conv_range
  simp only []
  generalize input_conv_nth hidden_size thread_num = N at *
  generalize input_conv_stride hidden_size thread_num = S at *
  have hend : (N - 1) * S + S = N * S := by ring
  have hiff : N * S ≤ hidden_size ↔ S ∣ hidden_size := by
    constructor
    · intro hle
      exact ⟨N, by nlinarith⟩
    · rintro ⟨q, hq⟩
      have hq1 : N - 1 < q := by
        by_contra hcon
        have : q ≤ N - 1 := by omega
        nlinarith
      have hq2 : q ≤ N := by
        by_contra hcon
        have : N + 1 ≤ q := by omega
        nlinarith
      have : q = N := by omega
      subst this
      nlinarith
  refine ⟨?_, ?_, ?_, ?_, ?_⟩
  · intro ith h0 h1
    refine ⟨by positivity, ?_⟩
    have : ith * S ≤ (N - 1) * S := by nlinarith
    omega
  · intro ith h0 h1
    have : (ith + 1) * S ≤ (N - 1) * S := by nlinarith
    nlinarith
  · rw [hend]
    exact hcov
  · rw [hend]
    exact hiff
  · intro hnd
    rw [hend]
    by_contra hcon
    have hle : N * S ≤ hidden_size := by omega
    exact hnd (dvd_trans h256 (hiff.mp hle))

/-- Instance of C29 at the failing input: `hidden_size = 128`, one thread:
`input_conv_stride = 256`, `input_conv_nth = 1`, and the only stripe converts the elements
`[0, 256)` of a token of 128 elements. -/
theorem C29_input_conv_last_stripe_witness :
    ((1 : Int) ≤ 128 ∧ (1 : Int) ≤ 1 ∧ ¬ (256 : Int) ∣ 128) ∧
    input_conv_stride 128 1 = 256 ∧ input_conv_nth 128 1 = 1 ∧
    input_conv_range 128 1 (input_conv_nth 128 1 - 1) = (0, 256) ∧
    (128 : Int) < (input_conv_range 128 1 (input_conv_nth 128 1 - 1)).2 :=
  ⟨by decide, by decide, by decide, by decide,
   (C29_input_conv_last_stripe 128 1 (by decide) (by decide)).2.2.2.2 (by decide)⟩

/-- C30: for `hidden_size >= 1`, `thread_num >= 1` and `k >= 1` the number of awaited
stripes `input_conv_nth` is at most `thread_num`; it is at most the number `nth * k` of
dispatched tasks when `k` divides `thread_num` (then `nth * k = thread_num`) and when
`thread_num < k` (then `nth * k = k`).  Otherwise `nth * k` can be smaller: with
`hidden_size = 768`, `thread_num = 3`, `k = 2` three stripes are awaited and two tasks are
dispatched, so no task sets `input_conv_syn[2]`. -/
theorem C30_input_conv_producers :
    (∀ (hidden_size thread_num k : Int), 1 ≤ hidden_size → 1 ≤ thread_num → 1 ≤ k →
      input_conv_nth hidden_size thread_num ≤ thread_num ∧
      (k ∣ thread_num → forward_one_nth thread_num k * k = thread_num ∧
        input_conv_nth hidden_size thread_num ≤ forward_one_nth thread_num k * k) ∧
      (thread_num < k → forward_one_nth thread_num k * k = k ∧
        input_conv_nth hidden_size thread_num ≤ forward_one_nth thread_num k * k)) ∧
    (input_conv_stride 768 3 = 256 ∧ input_conv_nth 768 3 = 3 ∧
      forward_one_nth 3 2 * 2 = 2 ∧
      ¬ input_conv_nth 768 3 ≤ forward_one_nth 3 2 * 2) := by
  refine ⟨?_, by decide⟩
  intro hidden_size thread_num k hh ht hk
  obtain ⟨_, _, _, _, hN, _, _⟩ := input_conv_facts hidden_size thread_num hh ht
  refine ⟨hN, ?_, ?_⟩
  · rintro ⟨q, hq⟩
    have hq1 : 1 ≤ q := by
      by_contra hcon
      have : q ≤ 0 := by omega
      nlinarith
    have hdiv : Int.tdiv thread_num k = q := by
      rw [Int.tdiv_eq_ediv (by omega) (by omega), hq, Int.mul_ediv_cancel_left _ (by omega)]
    have hnth : forward_one_nth thread_num k * k = thread_num := by
      unfold forward_one_nth
      rw [hdiv, max_eq_right hq1, hq]
      ring
    exact ⟨hnth, by rw [hnth]; exact hN⟩
  · intro hlt
    have hdiv : Int.tdiv thread_num k = 0 := by
      rw [Int.tdiv_eq_ediv (by omega) (by omega)]
      exact Int.ediv_eq_zero_of_lt (by omega) hlt
    have hnth : forward_one_nth thread_num k * k = k := by
      unfold forward_one_nth
      rw [hdiv]
      simp
    exact ⟨hnth, by rw [hnth]; omega⟩

/-- Instance of C30: `hidden_size = 7168`, 8 threads, `k = 2`: 8 tasks are dispatched and at
most 8 stripes awaited. -/
theorem C30_input_conv_producers_witness :
    ((1 : Int) ≤ 7168 ∧ (1 : Int) ≤ 8 ∧ (1 : Int) ≤ 2 ∧ (2 : Int) ∣ 8) ∧
    forward_one_nth 8 2 * 2 = 8 ∧
    input_conv_nth 7168 8 ≤ forward_one_nth 8 2 * 2 :=
  ⟨by decide,
   ((C30_input_conv_producers.1 7168 8 2 (by decide) (by decide) (by decide)).2.1
      (by decide)).1,
   ((C30_input_conv_producers.1 7168 8 2 (by decide) (by decide) (by decide)).2.1
      (by decide)).2⟩

theorem barrier_inv_step (stripes : Nat) (s : BarrierState) (t : Nat)
    (h1 : ∀ i, i < stripes → s.syn i ≠ 0 → s.slice_written i = true)
    (h2 : ∀ u, s.pc u = BarrierPc.written → s.slice_written u = true)
    (h3 : ∀ u j, s.pc u = BarrierPc.waiting j → ∀ i, i < j → i < stripes →
      s.slice_written i = true)
    (h4 : ∀ u, s.pc u = BarrierPc.passed → ∀ i, i < stripes → s.slice_written i = true) :
    (∀ i, i < stripes → (barrier_step stripes s t).syn i ≠ 0 →
      (barrier_step stripes s t).slice_written i = true) ∧
    (∀ u, (barrier_step stripes s t).pc u = BarrierPc.written →
      (barrier_step stripes s t).slice_written u = true) ∧
    (∀ u j, (barrier_step stripes s t).pc u = BarrierPc.waiting j → ∀ i, i < j →
      i < stripes → (barrier_step stripes s t).slice_written i = true) ∧
    (∀ u, (barrier_step stripes s t).pc u = BarrierPc.passed → ∀ i, i < stripes →
      (barrier_step stripes s t).slice_written i = true) := by
  unfold barrier_step
  cases hpc : s.pc t with
  | start =>
    simp only []
    by_cases ht : t < stripes
    · simp only [if_pos ht]
      refine ⟨?_, ?_, ?_, ?_⟩
      · intro i hi hne
        by_cases hit : i = t
        · subst hit
          simp at hne
        · rw [Function.update_noteq hit] at hne
          exact h1 i hi hne
      · intro u hu
        by_cases hut : u = t
        · subst hut
          simp at hu
        · rw [Function.update_noteq hut] at hu
          exact h2 u hu
      · intro u j hu i hij hi
        by_cases hut : u = t
        · subst hut
          simp at hu
        · rw [Function.update_noteq hut] at hu
          exact h3 u j hu i hij hi
      · intro u hu i hi
        by_cases hut : u = t
        · subst hut
          simp at hu
        · rw [Function.update_noteq hut] at hu
          exact h4 u hu i hi
    · simp only [if_neg ht]
      refine ⟨h1, ?_, ?_, ?_⟩
      · intro u hu
        by_cases hut : u = t
        · subst hut
          simp at hu
        · rw [Function.update_noteq hut] at hu
          exact h2 u hu
      · intro u j hu i hij hi
        by_cases hut : u = t
        · subst hut
          simp only [Function.update_same, BarrierPc.waiting.injEq] at hu
          omega
        · rw [Function.update_noteq hut] at hu
          exact h3 u j hu i hij hi
      · intro u hu i hi
        by_cases hut : u = t
        · subst hut
          simp at hu
        · rw [Function.update_noteq hut] at hu
          exact h4 u hu i hi
  | zeroed =>
    simp only []
    have hmono : ∀ i, s.slice_written i = true →
        Function.update s.slice_written t true i = true := by
      intro i hi
      by_cases hit : i = t
      · subst hit
        simp
      · rw [Function.update_noteq hit]
        exact hi
    refine ⟨fun i hi hne => hmono i (h1 i hi hne), ?_, ?_, ?_⟩
    · intro u hu
      by_cases hut : u = t
      · subst hut
        simp
      · rw [Function.update_noteq hut] at hu
        exact hmono u (h2 u hu)
    · intro u j hu i hij hi
      by_cases hut : u = t
      · subst hut
        simp at hu
      · rw [Function.update_noteq hut] at hu
        exact hmono i (h3 u j hu i hij hi)
    · intro u hu i hi
      by_cases hut : u = t
      · subst hut
        simp at hu
      · rw [Function.update_noteq hut] at hu
        exact hmono i (h4 u hu i hi)
  | written =>
    simp only []
    refine ⟨?_, ?_, ?_, ?_⟩
    · intro i hi hne
      by_cases hit : i = t
      · subst hit
        exact h2 i hpc
      · rw [Function.update_noteq hit] at hne
        exact h1 i hi hne
    · intro u hu
      by_cases hut : u = t
      · subst hut
        simp at hu
      · rw [Function.update_noteq hut] at hu
        exact h2 u hu
    · intro u j hu i hij hi
      by_cases hut : u = t
      · subst hut
        simp only [Function.update_same, BarrierPc.waiting.injEq] at hu
        omega
      · rw [Function.update_noteq hut] at hu
        exact h3 u j hu i hij hi
    · intro u hu i hi
      by_cases hut : u = t
      · subst hut
        simp at hu
      · rw [Function.update_noteq hut] at hu
        exact h4 u hu i hi
  | waiting c =>
    simp only []
    by_cases hc : c < stripes
    · simp only [if_pos hc]
      by_cases hsyn : s.syn c ≠ 0
      · simp only [if_pos hsyn]
        refine ⟨h1, ?_, ?_, ?_⟩
        · intro u hu
          by_cases hut : u = t
          · subst hut
            simp at hu
          · rw [Function.update_noteq hut] at hu
            exact h2 u hu
        · intro u j hu i hij hi
          by_cases hut : u = t
          · subst hut
            simp only [Function.update_same, BarrierPc.waiting.injEq] at hu
            by_cases hic : i = c
            · subst hic
              exact h1 i hi hsyn
            · exact h3 u c hpc i (by omega) hi
          · rw [Function.update_noteq hut] at hu
            exact h3 u j hu i hij hi
        · intro u hu i hi
          by_cases hut : u = t
          · subst hut
            simp at hu
          · rw [Function.update_noteq hut] at hu
            exact h4 u hu i hi
      · simp only [if_neg hsyn]
        exact ⟨h1, h2, h3, h4⟩
    · simp only [if_neg hc]
      refine ⟨h1, ?_, ?_, ?_⟩
      · intro u hu
        by_cases hut : u = t
        · subst hut
          simp at hu
        · rw [Function.update_noteq hut] at hu
          exact h2 u hu
      · intro u j hu i hij hi
        by_cases hut : u = t
        · subst hut
          simp at hu
        · rw [Function.update_noteq hut] at hu
          exact h3 u j hu i hij hi
      · intro u hu i hi
        by_cases hut : u = t
        · subst hut
          exact h3 u c hpc i (by omega) hi
        · rw [Function.update_noteq hut] at hu
          exact h4 u hu i hi
  | passed =>
    simp only []
    exact ⟨h1, h2, h3, h4⟩

theorem barrier_inv_run (stripes : Nat) : ∀ (schedule : List Nat) (s : BarrierState),
    (∀ i, i < stripes → s.syn i ≠ 0 → s.slice_written i = true) →
    (∀ u, s.pc u = BarrierPc.written → s.slice_written u = true) →
    (∀ u j, s.pc u = BarrierPc.waiting j → ∀ i, i < j → i < stripes →
      s.slice_written i = true) →
    (∀ u, s.pc u = BarrierPc.passed → ∀ i, i < stripes → s.slice_written i = true) →
    ∀ u, (schedule.foldl (barrier_step stripes) s).pc u = BarrierPc.passed →
      ∀ i, i < stripes → (schedule.foldl (barrier_step stripes) s).slice_written i = true := by
  intro schedule
  induction schedule with
  | nil =>
    intro s _ _ _ h4
    exact h4
  | cons t rest ih =>
    intro s h1 h2 h3 h4
    obtain ⟨g1, g2, g3, g4⟩ := barrier_inv_step stripes s t h1 h2 h3 h4
    exact ih (barrier_step stripes s t) g1 g2 g3 g4

/-- C22: the barrier gives the claimed guarantee only for a kernel that starts with the
awaited flags at 0: then, in every interleaving, a task that has passed the barrier finds
the slice of every stripe written in this kernel.  But a kernel leaves the flags at 1 and
nothing resets them: in the next kernel (2 stripes, flags `1, 1` left by a complete run of
the kernel before) task 0 can run alone through its six steps, read the stale 1 of stripe 1
and pass the barrier while task 1 has not started and its slice is not written. -/
theorem C22_barrier_stale_flags :
    (∀ (stripes : Nat) (syn : Nat → Nat) (schedule : List Nat),
      (∀ i, i < stripes → syn i = 0) →
      ∀ t, (barrier_run stripes syn schedule).pc t = BarrierPc.passed →
        ∀ i, i < stripes → (barrier_run stripes syn schedule).slice_written i = true) ∧
    ((barrier_run 2 (fun _ => 0) [0, 0, 0, 1, 1, 1, 0, 0, 0, 1, 1, 1]).pc 0 = BarrierPc.passed ∧
      (barrier_run 2 (fun _ => 0) [0, 0, 0, 1, 1, 1, 0, 0, 0, 1, 1, 1]).pc 1
        = BarrierPc.passed ∧
      (barrier_run 2 (fun _ => 0) [0, 0, 0, 1, 1, 1, 0, 0, 0, 1, 1, 1]).syn 0 = 1 ∧
      (barrier_run 2 (fun _ => 0) [0, 0, 0, 1, 1, 1, 0, 0, 0, 1, 1, 1]).syn 1 = 1) ∧
    ((barrier_run 2 (barrier_run 2 (fun _ => 0) [0, 0, 0, 1, 1, 1, 0, 0, 0, 1, 1, 1]).syn
        [0, 0, 0, 0, 0, 0]).pc 0 = BarrierPc.passed ∧
      (barrier_run 2 (barrier_run 2 (fun _ => 0) [0, 0, 0, 1, 1, 1, 0, 0, 0, 1, 1, 1]).syn
        [0, 0, 0, 0, 0, 0]).pc 1 = BarrierPc.start ∧
      (barrier_run 2 (barrier_run 2 (fun _ => 0) [0, 0, 0, 1, 1, 1, 0, 0, 0, 1, 1, 1]).syn
        [0, 0, 0, 0, 0, 0]).slice_written 1 = false) := by
  refine ⟨?_, by decide, by decide⟩
  intro stripes syn schedule hzero
  apply barrier_inv_run stripes schedule (BarrierState.init syn)
  · intro i hi hne
    exact absurd (hzero i hi) hne
  · intro u hu
    simp [BarrierState.init] at hu
  · intro u j hu
    simp [BarrierState.init] at hu
  · intro u hu
    simp [BarrierState.init] at hu

/-- Instance of C22 for a kernel that starts with the flags at 0: after a complete run of 2
tasks, task 0 has passed and the slice of stripe 1 is written. -/
theorem C22_barrier_stale_flags_witness :
    (∀ i, i < 2 → (fun (_ : Nat) => 0) i = 0) ∧
    (barrier_run 2 (fun _ => 0) [0, 0, 0, 1, 1, 1, 0, 0, 0, 1, 1, 1]).slice_written 1 = true :=
  ⟨fun _ _ => rfl,
   C22_barrier_stale_flags.1 2 (fun _ => 0) [0, 0, 0, 1, 1, 1, 0, 0, 0, 1, 1, 1]
     (fun _ _ => rfl) 0 (by decide) 1 (by decide)⟩

/-! ## The pool step by step -/

theorem store_status_status (ts : List ThreadState) (i j : Nat) (s : ThreadStatus) :
    ((store_status ts i s).getD j default).status
      = if i = j ∧ i < ts.length then s else (ts.getD j default).status := by
  rw [store_status_getD]
  split_ifs <;> rfl

theorem store_curr_length (ts : List ThreadState) (i : Nat) (c : Int) :
    (store_curr ts i c).length = ts.length := by
  simp [store_curr]

theorem store_end_length (ts : List ThreadState) (i : Nat) (e : Int) :
    (store_end ts i e).length = ts.length := by
  simp [store_end]

theorem stripe_step_length (base remain : Int) (ts : List ThreadState) (i : Nat) :
    (stripe_step base remain ts i).length = ts.length := by
  unfold stripe_step
  simp only [store_status_length, store_end_length, store_curr_length]

theorem stripe_step_status_eq (base remain : Int) (ts : List ThreadState) (i j : Nat) :
    ((stripe_step base remain ts i).getD j default).status
      = if i = j ∧ i < ts.length then ThreadStatus.WORKING else (ts.getD j default).status := by
  unfold stripe_step
  simp only [store_status_status, store_end_length, store_curr_length, store_end_getD,
    store_curr_getD]

/-- The stores for worker `i` write `WORKING` into entry `i` and no other status, and leave
the other fields of the pool as they are. -/
theorem dispatch_store_facts (b : Backend) (task_num : Int) (i : Nat) :
    (∀ j, ((dispatch_store b task_num i).state j).status
      = if i = j ∧ i < b.thread_state_.length then ThreadStatus.WORKING
        else (b.state j).status) ∧
    (dispatch_store b task_num i).thread_state_.length = b.thread_state_.length ∧
    (dispatch_store b task_num i).thread_num_ = b.thread_num_ ∧
    (dispatch_store b task_num i).max_thread_num_ = b.max_thread_num_ ∧
    (dispatch_store b task_num i).one_shot_mode = b.one_shot_mode := by
  unfold dispatch_store Backend.state
  cases b.one_shot_mode
  · by_cases hi : i = 0
    · subst hi
      simp only [Bool.false_eq_true, if_false, if_true, store_status_status,
        store_status_length, store_end_length, store_curr_length, store_end_getD,
        store_curr_getD, and_self, implies_true]
    · simp only [Bool.false_eq_true, if_false, hi, stripe_step_status_eq, stripe_step_length,
        and_self, implies_true]
  · simp only [if_true, store_status_status, store_status_length, and_self, implies_true]

theorem destroy_store_facts (b : Backend) (i : Nat) :
    (∀ j, ((destroy_store b i).state j).status
      = if i = j ∧ i < b.thread_state_.length then ThreadStatus.EXIT
        else (b.state j).status) ∧
    (destroy_store b i).thread_state_.length = b.thread_state_.length ∧
    (destroy_store b i).thread_num_ = b.thread_num_ ∧
    (destroy_store b i).max_thread_num_ = b.max_thread_num_ := by
  unfold destroy_store Backend.state
  simp only [store_status_status, store_status_length, and_self, implies_true]

/-- The function `process_tasks(thread_id)` writes `WAITING` into entry `thread_id` and no
other status, and leaves the other fields of the pool as they are. -/
theorem process_tasks_facts (b : Backend) (thread_id : Nat) :
    (∀ j, ((process_tasks b thread_id).1.state j).status
      = if thread_id = j ∧ thread_id < b.thread_state_.length then ThreadStatus.WAITING
        else (b.state j).status) ∧
    (process_tasks b thread_id).1.thread_state_.length = b.thread_state_.length ∧
    (process_tasks b thread_id).1.thread_num_ = b.thread_num_ ∧
    (process_tasks b thread_id).1.max_thread_num_ = b.max_thread_num_ ∧
    (process_tasks b thread_id).1.one_shot_mode = b.one_shot_mode := by
  unfold process_tasks Backend.state
  cases b.one_shot_mode
  · simp only [Bool.false_eq_true, if_false, store_status_status, store_status_length,
      store_curr_length, store_curr_getD, and_self, implies_true]
  · simp only [if_true, store_status_status, store_status_length, and_self, implies_true]

theorem state_status_of_length_le (b : Backend) (j : Nat) (h : b.thread_state_.length ≤ j) :
    (b.state j).status = ThreadStatus.WAITING := by
  unfold Backend.state
  rw [List.getD_eq_getElem?_getD, List.getElem?_eq_none (by omega)]
  rfl

theorem pool_inv_new (max_thread_num : Int) : pool_inv (Pool.new max_thread_num) := by
  refine ⟨by simp [Pool.new, Backend.new], ?_, ?_⟩
  · intro j
    show ((List.replicate max_thread_num.toNat
      (⟨ThreadStatus.WAITING, 0, 0⟩ : ThreadState)).getD j default).status = ThreadStatus.WAITING
    rw [List.getD_eq_getElem?_getD]
    by_cases h : j < max_thread_num.toNat
    · rw [List.getElem?_replicate, if_pos h]
      rfl
    · rw [List.getElem?_eq_none (by simpa using h)]
      rfl
  · intro t h
    exact WorkerPc.noConfusion h

theorem dispatch_stores_lt (b : Backend) (task_num : Int) (i : Nat)
    (hi : i < dispatch_stores b task_num) (hlen : i < b.thread_state_.length)
    (hl : b.thread_state_.length = b.max_thread_num_.toNat)
    (hf : b.one_shot_mode = false → b.thread_num_ = b.max_thread_num_) :
    i < b.thread_num_.toNat := by
  unfold dispatch_stores at hi
  cases hm : b.one_shot_mode
  · rw [← hf hm] at hl
    omega
  · rw [hm] at hi
    simp only [if_true] at hi
    omega

/-- Every step of the pool keeps the invariant. -/
theorem pool_step_inv (USE_NUMA : Bool) (p : Pool) (a : PoolAction) (h : pool_inv p) :
    pool_inv (pool_step USE_NUMA p a) := by
  obtain ⟨b, o, w⟩ := p
  obtain ⟨hlen, hown, hwrk⟩ := h
  simp only at hlen hown hwrk
  cases a with
  | owner_call task_num init_func finalize_func =>
    cases o with
    | idle =>
      refine ⟨hlen, ⟨fun j => Or.inl (hown j), ?_⟩, hwrk⟩
      intro hos
      show (if USE_NUMA = true then b.max_thread_num_ else min b.max_thread_num_ task_num)
        = b.max_thread_num_
      have hos1 : decide (task_num ≤ b.max_thread_num_) = false := hos
      have hlt : ¬ task_num ≤ b.max_thread_num_ := by simpa using hos1
      split_ifs
      · rfl
      · omega
    | dispatching _ _ => exact ⟨hlen, hown, hwrk⟩
    | waiting _ => exact ⟨hlen, hown, hwrk⟩
    | destroying _ => exact ⟨hlen, hown, hwrk⟩
    | joining => exact ⟨hlen, hown, hwrk⟩
  | owner_destroy =>
    cases o with
    | idle =>
      refine ⟨hlen, ?_, hwrk⟩
      intro j hj
      have hj1 : (b.state j).status = ThreadStatus.WORKING := hj
      rw [hown j] at hj1
      exact ThreadStatus.noConfusion hj1
    | dispatching _ _ => exact ⟨hlen, hown, hwrk⟩
    | waiting _ => exact ⟨hlen, hown, hwrk⟩
    | destroying _ => exact ⟨hlen, hown, hwrk⟩
    | joining => exact ⟨hlen, hown, hwrk⟩
  | owner_step =>
    cases o with
    | idle => exact ⟨hlen, hown, hwrk⟩
    | dispatching task_num i =>
      obtain ⟨hst, hf⟩ := hown
      by_cases hi : i < dispatch_stores b task_num
      · simp only [pool_step, owner_step, hi, if_true]
        obtain ⟨f1, f2, f3, f4, f5⟩ := dispatch_store_facts b task_num i
        refine ⟨by rw [f2, f4]; exact hlen, ⟨?_, ?_⟩, ?_⟩
        · intro j
          rw [f1 j, f3]
          split_ifs with hc
          · right
            obtain ⟨rfl, hl⟩ := hc
            exact ⟨rfl, dispatch_stores_lt b task_num i hi hl hlen hf⟩
          · exact hst j
        · rw [f5, f3, f4]
          exact hf
        · intro t ht
          rw [f1 t]
          split_ifs
          · rfl
          · exact hwrk t ht
      · simp only [pool_step, owner_step, hi, if_false]
        exact ⟨hlen, ⟨hst, fun j hj => absurd hj (Nat.not_lt_zero j)⟩, hwrk⟩
    | waiting i =>
      obtain ⟨hst, hseen⟩ := hown
      by_cases hi : (i : Int) < b.thread_num_
      · by_cases hs : (b.state i).status = ThreadStatus.WORKING
        · simp only [pool_step, owner_step, hi, hs, if_true]
          exact ⟨hlen, ⟨hst, hseen⟩, hwrk⟩
        · simp only [pool_step, owner_step, hi, hs, if_true, if_false]
          refine ⟨hlen, ⟨hst, ?_⟩, hwrk⟩
          intro j hj
          by_cases hji : j = i
          · subst hji
            rcases hst j with h1 | h1
            · exact h1
            · exact absurd h1.1 hs
          · exact hseen j (by omega)
      · simp only [pool_step, owner_step, hi, if_false]
        refine ⟨hlen, ?_, hwrk⟩
        intro j
        rcases hst j with h1 | h1
        · exact h1
        · exact hseen j (by omega)
    | destroying i =>
      by_cases hi : (i : Int) < b.max_thread_num_
      · simp only [pool_step, owner_step, hi, if_true]
        obtain ⟨f1, f2, f3, f4⟩ := destroy_store_facts b i
        refine ⟨by rw [f2, f4]; exact hlen, ?_, ?_⟩
        · intro j
          rw [f1 j]
          split_ifs
          · exact fun h => ThreadStatus.noConfusion h
          · exact hown j
        · intro t ht
          exact absurd (hwrk t ht) (hown t)
      · simp only [pool_step, owner_step, hi, if_false]
        exact ⟨hlen, hown, hwrk⟩
    | joining => exact ⟨hlen, hown, hwrk⟩
  | worker_load t =>
    simp only [pool_step, worker_load]
    cases hw : w t with
    | at_load =>
      simp only []
      cases hs : (b.state t).status with
      | WORKING =>
        refine ⟨hlen, hown, ?_⟩
        intro t1 ht1
        by_cases h1 : t1 = t
        · subst h1
          exact hs
        · simp only [Function.update_noteq h1] at ht1
          exact hwrk t1 ht1
      | WAITING => exact ⟨hlen, hown, hwrk⟩
      | EXIT =>
        refine ⟨hlen, hown, ?_⟩
        intro t1 ht1
        by_cases h1 : t1 = t
        · subst h1
          simp only [Function.update_same] at ht1
          exact WorkerPc.noConfusion ht1
        · simp only [Function.update_noteq h1] at ht1
          exact hwrk t1 ht1
    | in_process_tasks => exact ⟨hlen, hown, hwrk⟩
    | returned => exact ⟨hlen, hown, hwrk⟩
  | worker_finish t =>
    simp only [pool_step, worker_finish]
    cases hw : w t with
    | at_load => exact ⟨hlen, hown, hwrk⟩
    | returned => exact ⟨hlen, hown, hwrk⟩
    | in_process_tasks =>
      simp only []
      obtain ⟨f1, f2, f3, f4, f5⟩ := process_tasks_facts b t
      have hts := hwrk t hw
      refine ⟨by rw [f2, f4]; exact hlen, ?_, ?_⟩
      · cases o with
        | idle =>
          rw [hown t] at hts
          exact ThreadStatus.noConfusion hts
        | dispatching task_num i =>
          obtain ⟨hst, hf⟩ := hown
          refine ⟨?_, by rw [f5, f3, f4]; exact hf⟩
          intro j
          rw [f1 j, f3]
          split_ifs
          · left; rfl
          · exact hst j
        | waiting i =>
          obtain ⟨hst, hseen⟩ := hown
          refine ⟨?_, ?_⟩
          · intro j
            rw [f1 j, f3]
            split_ifs
            · left; rfl
            · exact hst j
          · intro j hj
            rw [f1 j]
            split_ifs
            · rfl
            · exact hseen j hj
        | destroying i => exact absurd hts (hown t)
        | joining => exact absurd hts (hown t)
      · intro t1 ht1
        by_cases h1 : t1 = t
        · subst h1
          simp only [Function.update_same] at ht1
          exact WorkerPc.noConfusion ht1
        · simp only [Function.update_noteq h1] at ht1
          rw [f1 t1, if_neg (fun hc => h1 hc.1.symm)]
          exact hwrk t1 ht1

theorem pool_fold_inv (USE_NUMA : Bool) (schedule : List PoolAction) :
    ∀ p, pool_inv p → pool_inv (schedule.foldl (pool_step USE_NUMA) p) := by
  induction schedule with
  | nil => exact fun p h => h
  | cons a l ih => exact fun p h => ih _ (pool_step_inv USE_NUMA p a h)

/-- Every pool a run reaches satisfies the invariant. -/
theorem pool_run_inv (USE_NUMA : Bool) (max_thread_num : Int) (schedule : List PoolAction) :
    pool_inv (pool_run USE_NUMA max_thread_num schedule) :=
  pool_fold_inv USE_NUMA schedule _ (pool_inv_new max_thread_num)

/-- What one step of a pool that satisfies the invariant does to the status of worker `j`:
nothing, or one of the three transitions, each with its writer. -/
theorem pool_step_status (USE_NUMA : Bool) (p : Pool) (a : PoolAction) (j : Nat)
    (h : pool_inv p) :
    (pool_step USE_NUMA p a).status j = p.status j ∨
    (p.status j = ThreadStatus.WAITING ∧
      (pool_step USE_NUMA p a).status j = ThreadStatus.WORKING ∧
      a = PoolAction.owner_step ∧ ∃ task_num, p.owner = OwnerPc.dispatching task_num j) ∨
    (p.status j = ThreadStatus.WORKING ∧
      (pool_step USE_NUMA p a).status j = ThreadStatus.WAITING ∧
      a = PoolAction.worker_finish j ∧ p.worker j = WorkerPc.in_process_tasks) ∨
    (p.status j = ThreadStatus.WAITING ∧
      (pool_step USE_NUMA p a).status j = ThreadStatus.EXIT ∧
      a = PoolAction.owner_step ∧ p.owner = OwnerPc.destroying j) := by
  obtain ⟨b, o, w⟩ := p
  obtain ⟨hlen, hown, hwrk⟩ := h
  simp only at hlen hown hwrk
  unfold Pool.status
  cases a with
  | owner_call task_num init_func finalize_func =>
    left
    cases o <;> rfl
  | owner_destroy =>
    left
    cases o <;> rfl
  | owner_step =>
    cases o with
    | idle => left; rfl
    | joining => left; rfl
    | dispatching task_num i =>
      obtain ⟨hst, hf⟩ := hown
      by_cases hi : i < dispatch_stores b task_num
      · simp only [pool_step, owner_step, hi, if_true]
        rw [(dispatch_store_facts b task_num i).1 j]
        split_ifs with hc
        · obtain ⟨rfl, hl⟩ := hc
          rcases hst i with h1 | h1
          · right; left
            refine ⟨h1, ?_, ?_, task_num, ?_⟩ <;> first | rfl | trivial
          · left
            exact h1.1.symm
        · left; rfl
      · simp only [pool_step, owner_step, hi, if_false]
        left; trivial
    | waiting i =>
      left
      simp only [pool_step, owner_step]
      split_ifs <;> rfl
    | destroying i =>
      by_cases hi : (i : Int) < b.max_thread_num_
      · simp only [pool_step, owner_step, hi, if_true]
        rw [(destroy_store_facts b i).1 j]
        split_ifs with hc
        · obtain ⟨rfl, hl⟩ := hc
          cases hs : (b.state i).status with
          | WORKING => exact absurd hs (hown i)
          | WAITING =>
            right; right; right
            refine ⟨?_, ?_, ?_, ?_⟩ <;> first | rfl | trivial
          | EXIT => left; trivial
        · left; rfl
      · simp only [pool_step, owner_step, hi, if_false]
        left; trivial
  | worker_load t =>
    left
    simp only [pool_step, worker_load]
    cases w t with
    | at_load =>
      simp only []
      cases (b.state t).status <;> rfl
    | in_process_tasks => rfl
    | returned => rfl
  | worker_finish t =>
    simp only [pool_step, worker_finish]
    cases hw : w t with
    | at_load => left; rfl
    | returned => left; rfl
    | in_process_tasks =>
      simp only []
      rw [(process_tasks_facts b t).1 j]
      split_ifs with hc
      · obtain ⟨rfl, hl⟩ := hc
        right; right; left
        refine ⟨hwrk t hw, ?_, ?_, hw⟩ <;> rfl
      · left; rfl

theorem dispatch_fold_one_shot (task_num : Int) (l : List Nat) :
    ∀ b : Backend, b.one_shot_mode = true →
      l.foldl (fun b i => dispatch_store b task_num i) b
        = { b with thread_state_ :=
              l.foldl (fun ts i => store_status ts i ThreadStatus.WORKING) b.thread_state_ } := by
  induction l with
  | nil => exact fun b _ => rfl
  | cons a l ih =>
    intro b hb
    have h1 : dispatch_store b task_num a
        = { b with thread_state_ := store_status b.thread_state_ a ThreadStatus.WORKING } := by
      simp only [dispatch_store, hb, if_true]
    rw [List.foldl_cons]
    show List.foldl (fun b i => dispatch_store b task_num i) (dispatch_store b task_num a) l = _
    rw [h1]
    exact ih { b with thread_state_ := store_status b.thread_state_ a ThreadStatus.WORKING } hb

theorem dispatch_fold_striped (task_num : Int) (l : List Nat) :
    ∀ b : Backend, b.one_shot_mode = false → (∀ i ∈ l, i ≠ 0) →
      l.foldl (fun b i => dispatch_store b task_num i) b
        = { b with thread_state_ :=
              l.foldl (stripe_step (Int.tdiv task_num b.thread_num_)
                (Int.tmod task_num b.thread_num_)) b.thread_state_ } := by
  induction l with
  | nil => exact fun b _ _ => rfl
  | cons a l ih =>
    intro b hb hl
    have ha : a ≠ 0 := hl a (List.mem_cons_self a l)
    have h1 : dispatch_store b task_num a
        = { b with thread_state_ := (stripe_step (Int.tdiv task_num b.thread_num_)
              (Int.tmod task_num b.thread_num_) b.thread_state_ a) } := by
      simp only [dispatch_store, hb, Bool.false_eq_true, if_false, ha]
    rw [List.foldl_cons]
    show List.foldl (fun b i => dispatch_store b task_num i) (dispatch_store b task_num a) l = _
    rw [h1]
    exact ih { b with thread_state_ := (stripe_step (Int.tdiv task_num b.thread_num_)
      (Int.tmod task_num b.thread_num_) b.thread_state_ a) } hb
      (fun i hi => hl i (List.mem_cons_of_mem a hi))

/-- The stores of the dispatch loops, taken one worker after the other, are those of
`do_work_stealing_job`. -/
theorem dispatch_stores_eq (USE_NUMA : Bool) (b : Backend) (task_num : Int)
    (init_func finalize_func : Bool) :
    (List.range (dispatch_stores (dispatch_begin USE_NUMA b task_num init_func finalize_func)
        task_num)).foldl (fun b i => dispatch_store b task_num i)
        (dispatch_begin USE_NUMA b task_num init_func finalize_func)
      = do_work_stealing_job USE_NUMA b task_num init_func finalize_func := by
  by_cases hos : task_num ≤ b.max_thread_num_
  · have hm : (dispatch_begin USE_NUMA b task_num init_func finalize_func).one_shot_mode
        = true := by simp [dispatch_begin, hos]
    rw [dispatch_fold_one_shot task_num _ _ hm]
    simp only [dispatch_stores, hm, if_true]
    simp only [dispatch_begin, do_work_stealing_job, hos, decide_True, if_true]
  · have hm : (dispatch_begin USE_NUMA b task_num init_func finalize_func).one_shot_mode
        = false := by simp [dispatch_begin, hos]
    have hr : ∀ n, List.range (1 + n) = 0 :: List.range' 1 n := by
      intro n
      rw [List.range_eq_range', Nat.add_comm]
      rfl
    simp only [dispatch_stores, hm, Bool.false_eq_true, if_false, hr, List.foldl_cons]
    rw [dispatch_fold_striped task_num _
      (dispatch_store (dispatch_begin USE_NUMA b task_num init_func finalize_func) task_num 0)
      (by rw [(dispatch_store_facts _ _ _).2.2.2.2]; exact hm)
      (fun i hi => by
        rw [List.mem_range'_1] at hi
        omega)]
    simp only [dispatch_store, dispatch_begin, do_work_stealing_job, hos, decide_False,
      Bool.false_eq_true, if_false, if_true]

theorem destroy_fold (l : List Nat) :
    ∀ b : Backend, l.foldl destroy_store b
      = { b with thread_state_ :=
            l.foldl (fun ts i => store_status ts i ThreadStatus.EXIT) b.thread_state_ } := by
  induction l with
  | nil => exact fun b => rfl
  | cons a l ih =>
    intro b
    rw [List.foldl_cons, ih]
    rfl

/-- The stores of the first loop of the destructor, taken one after the other, are those of
`Backend.destroy`. -/
theorem destroy_stores_eq (b : Backend) :
    (List.range b.max_thread_num_.toNat).foldl destroy_store b = b.destroy := by
  rw [destroy_fold]
  rfl

theorem dispatch_stores_store (b : Backend) (task_num : Int) (i : Nat) :
    dispatch_stores (dispatch_store b task_num i) task_num = dispatch_stores b task_num := by
  obtain ⟨_, _, f3, _, f5⟩ := dispatch_store_facts b task_num i
  unfold dispatch_stores
  rw [f3, f5]

/-- The owner, left alone, runs through the dispatch loops. -/
theorem owner_steps_dispatch (USE_NUMA : Bool) (task_num : Int) (w : Nat → WorkerPc) (n : Nat) :
    ∀ (k : Nat) (b : Backend), k + n ≤ dispatch_stores b task_num →
      (List.replicate n PoolAction.owner_step).foldl (pool_step USE_NUMA)
          { b := b, owner := OwnerPc.dispatching task_num k, worker := w }
        = { b := (List.range' k n).foldl (fun b i => dispatch_store b task_num i) b,
            owner := OwnerPc.dispatching task_num (k + n), worker := w } := by
  induction n with
  | zero => exact fun k b _ => rfl
  | succ n ih =>
    intro k b hk
    have hlt : k < dispatch_stores b task_num := by omega
    rw [List.replicate_succ, List.foldl_cons, List.range'_succ, List.foldl_cons]
    have h1 : pool_step USE_NUMA
        { b := b, owner := OwnerPc.dispatching task_num k, worker := w } PoolAction.owner_step
        = { b := dispatch_store b task_num k, owner := OwnerPc.dispatching task_num (k + 1),
            worker := w } := by
      simp only [pool_step, owner_step, hlt, if_true]
    rw [h1, ih (k + 1) _ (by rw [dispatch_stores_store]; omega)]
    have : k + 1 + n = k + (n + 1) := by omega
    rw [this]

/-- The owner, left alone, runs through the first loop of the destructor. -/
theorem owner_steps_destroy (USE_NUMA : Bool) (w : Nat → WorkerPc) (n : Nat) :
    ∀ (k : Nat) (b : Backend), k + n ≤ b.max_thread_num_.toNat →
      (List.replicate n PoolAction.owner_step).foldl (pool_step USE_NUMA)
          { b := b, owner := OwnerPc.destroying k, worker := w }
        = { b := (List.range' k n).foldl destroy_store b,
            owner := OwnerPc.destroying (k + n), worker := w } := by
  induction n with
  | zero => exact fun k b _ => rfl
  | succ n ih =>
    intro k b hk
    have hlt : (k : Int) < b.max_thread_num_ := by omega
    rw [List.replicate_succ, List.foldl_cons, List.range'_succ, List.foldl_cons]
    have h1 : pool_step USE_NUMA
        { b := b, owner := OwnerPc.destroying k, worker := w } PoolAction.owner_step
        = { b := destroy_store b k, owner := OwnerPc.destroying (k + 1), worker := w } := by
      simp only [pool_step, owner_step, hlt, if_true]
    rw [h1, ih (k + 1) _ (by rw [(destroy_store_facts b k).2.2.2]; omega)]
    have : k + 1 + n = k + (n + 1) := by omega
    rw [this]

/-- C18 (as amended): the only status the caller (`do_work_stealing_job`) writes is `WORKING`;
the only status a worker writes is `WAITING`, into its own entry and after it has read
`WORKING` there; `EXIT` is written by the destructor `~Backend` of the pool's owner, into every
entry, and a worker that reads `EXIT` returns without writing.  In every run of a pool whose
owner calls `do_work_stealing_job` one call after the other and then the destructor, the
status of every worker starts as `WAITING`, and a step of any thread either leaves it as it
is or takes it from `WAITING` to `WORKING` (the owner, at the stores for this worker in
`do_work_stealing_job`), from `WORKING` to `WAITING` (the worker itself, at the end of
`process_tasks`) or from `WAITING` to `EXIT` (the owner, in the destructor); so it goes
`WAITING → WORKING → WAITING → … → EXIT` and never leaves `EXIT`.  The steps of the owner
inside one call make up `do_work_stealing_job`, those inside the destructor `~Backend`. -/
theorem C18_status_writers :
    (∀ (USE_NUMA : Bool) (b : Backend) (task_num : Int) (init_func finalize_func : Bool)
        (j : Nat),
      ((do_work_stealing_job USE_NUMA b task_num init_func finalize_func).state j).status
          = ThreadStatus.WORKING ∨
        ((do_work_stealing_job USE_NUMA b task_num init_func finalize_func).state j).status
          = (b.state j).status) ∧
    (∀ (b : Backend) (thread_id j : Nat),
      ((worker_thread_step b thread_id).1.state j).status = (b.state j).status ∨
        (j = thread_id ∧ (b.state j).status = ThreadStatus.WORKING ∧
          ((worker_thread_step b thread_id).1.state j).status = ThreadStatus.WAITING)) ∧
    (∀ (b : Backend) (j : Nat), j < b.thread_state_.length →
      b.thread_state_.length = b.max_thread_num_.toNat →
      (b.destroy.state j).status = ThreadStatus.EXIT) ∧
    (∀ (b : Backend) (thread_id : Nat), (b.state thread_id).status = ThreadStatus.EXIT →
      worker_thread_step b thread_id = (b, [])) ∧
    (∀ (USE_NUMA : Bool) (max_thread_num : Int) (j : Nat),
      (pool_run USE_NUMA max_thread_num []).status j = ThreadStatus.WAITING) ∧
    (∀ (USE_NUMA : Bool) (max_thread_num : Int) (schedule : List PoolAction) (a : PoolAction)
        (j : Nat),
      (pool_run USE_NUMA max_thread_num (schedule ++ [a])).status j
          = (pool_run USE_NUMA max_thread_num schedule).status j ∨
      ((pool_run USE_NUMA max_thread_num schedule).status j = ThreadStatus.WAITING ∧
        (pool_run USE_NUMA max_thread_num (schedule ++ [a])).status j = ThreadStatus.WORKING ∧
        a = PoolAction.owner_step ∧
        ∃ task_num, (pool_run USE_NUMA max_thread_num schedule).owner
          = OwnerPc.dispatching task_num j) ∨
      ((pool_run USE_NUMA max_thread_num schedule).status j = ThreadStatus.WORKING ∧
        (pool_run USE_NUMA max_thread_num (schedule ++ [a])).status j = ThreadStatus.WAITING ∧
        a = PoolAction.worker_finish j ∧
        (pool_run USE_NUMA max_thread_num schedule).worker j = WorkerPc.in_process_tasks) ∨
      ((pool_run USE_NUMA max_thread_num schedule).status j = ThreadStatus.WAITING ∧
        (pool_run USE_NUMA max_thread_num (schedule ++ [a])).status j = ThreadStatus.EXIT ∧
        a = PoolAction.owner_step ∧
        (pool_run USE_NUMA max_thread_num schedule).owner = OwnerPc.destroying j)) ∧
    (∀ (USE_NUMA : Bool) (p : Pool) (task_num : Int) (init_func finalize_func : Bool),
      p.owner = OwnerPc.idle →
      (List.replicate
          (dispatch_stores (dispatch_begin USE_NUMA p.b task_num init_func finalize_func)
            task_num) PoolAction.owner_step).foldl (pool_step USE_NUMA)
          (pool_step USE_NUMA p (PoolAction.owner_call task_num init_func finalize_func))
        = { b := do_work_stealing_job USE_NUMA p.b task_num init_func finalize_func,
            owner := OwnerPc.dispatching task_num
              (dispatch_stores (dispatch_begin USE_NUMA p.b task_num init_func finalize_func)
                task_num),
            worker := p.worker }) ∧
    (∀ (USE_NUMA : Bool) (p : Pool), p.owner = OwnerPc.idle →
      (List.replicate p.b.max_thread_num_.toNat PoolAction.owner_step).foldl
          (pool_step USE_NUMA) (pool_step USE_NUMA p PoolAction.owner_destroy)
        = { b := p.b.destroy, owner := OwnerPc.destroying p.b.max_thread_num_.toNat,
            worker := p.worker }) ∧
    (∀ (p : Pool) (t : Nat), p.worker t = WorkerPc.at_load →
      p.status t = ThreadStatus.EXIT →
      (worker_load p t).worker t = WorkerPc.returned ∧ (worker_load p t).b = p.b) ∧
    (∀ (p : Pool) (t : Nat), p.worker t = WorkerPc.returned →
      worker_load p t = p ∧ worker_finish p t = p) := by
  refine ⟨dispatch_status, worker_status, destroy_status, ?_, ?_, ?_, ?_, ?_, ?_, ?_⟩
  · intro b thread_id h
    simp only [worker_thread_step, h]
  · intro USE_NUMA max_thread_num j
    exact (pool_inv_new max_thread_num).2.1 j
  · intro USE_NUMA max_thread_num schedule a j
    have hrun : pool_run USE_NUMA max_thread_num (schedule ++ [a])
        = pool_step USE_NUMA (pool_run USE_NUMA max_thread_num schedule) a := by
      simp only [pool_run, List.foldl_append, List.foldl_cons, List.foldl_nil]
    rw [hrun]
    exact pool_step_status USE_NUMA _ a j (pool_run_inv USE_NUMA max_thread_num schedule)
  · intro USE_NUMA p task_num init_func finalize_func ho
    obtain ⟨b, o, w⟩ := p
    simp only at ho
    subst ho
    have h1 : pool_step USE_NUMA { b := b, owner := OwnerPc.idle, worker := w }
        (PoolAction.owner_call task_num init_func finalize_func)
        = { b := dispatch_begin USE_NUMA b task_num init_func finalize_func,
            owner := OwnerPc.dispatching task_num 0, worker := w } := rfl
    rw [h1, owner_steps_dispatch USE_NUMA task_num w _ 0 _ (Nat.le_of_eq (Nat.zero_add _)), Nat.zero_add,
      ← List.range_eq_range', dispatch_stores_eq]
  · intro USE_NUMA p ho
    obtain ⟨b, o, w⟩ := p
    simp only at ho
    subst ho
    have h1 : pool_step USE_NUMA { b := b, owner := OwnerPc.idle, worker := w }
        PoolAction.owner_destroy
        = { b := b, owner := OwnerPc.destroying 0, worker := w } := rfl
    rw [h1, owner_steps_destroy USE_NUMA w _ 0 _ (Nat.le_of_eq (Nat.zero_add _)), Nat.zero_add,
      ← List.range_eq_range', destroy_stores_eq]
  · intro p t hw hs
    unfold Pool.status at hs
    simp only [worker_load, hw, hs, Function.update_same, and_self]
  · intro p t hw
    simp only [worker_load, worker_finish, hw, and_self]

/-- Instance of C18 (as amended) on a pool of 2 workers.  The destructor stores `EXIT` into
worker 1, which then returns without an event.  Along the run `schedule_example` the status of
each worker goes `WAITING`, `WORKING`, `WAITING`, `EXIT`; both workers have returned at its
end; its second step is the owner taking worker 0 from `WAITING` to `WORKING`. -/
theorem C18_status_writers_witness :
    ((Backend.new 2).destroy.state 1).status = ThreadStatus.EXIT ∧
    worker_thread_step (Backend.new 2).destroy 1 = ((Backend.new 2).destroy, []) ∧
    status_trace false 2 schedule_example 0
      = [ThreadStatus.WAITING, ThreadStatus.WAITING, ThreadStatus.WORKING, ThreadStatus.WORKING,
         ThreadStatus.WORKING, ThreadStatus.WAITING, ThreadStatus.WAITING, ThreadStatus.WAITING,
         ThreadStatus.WAITING, ThreadStatus.WAITING, ThreadStatus.WAITING, ThreadStatus.WAITING,
         ThreadStatus.WAITING, ThreadStatus.WAITING, ThreadStatus.EXIT, ThreadStatus.EXIT,
         ThreadStatus.EXIT, ThreadStatus.EXIT, ThreadStatus.EXIT] ∧
    status_trace false 2 schedule_example 1
      = [ThreadStatus.WAITING, ThreadStatus.WAITING, ThreadStatus.WAITING, ThreadStatus.WAITING,
         ThreadStatus.WORKING, ThreadStatus.WORKING, ThreadStatus.WORKING, ThreadStatus.WORKING,
         ThreadStatus.WORKING, ThreadStatus.WORKING, ThreadStatus.WAITING, ThreadStatus.WAITING,
         ThreadStatus.WAITING, ThreadStatus.WAITING, ThreadStatus.WAITING, ThreadStatus.EXIT,
         ThreadStatus.EXIT, ThreadStatus.EXIT, ThreadStatus.EXIT] ∧
    (pool_run false 2 schedule_example).worker 0 = WorkerPc.returned ∧
    (pool_run false 2 schedule_example).worker 1 = WorkerPc.returned ∧
    (pool_run false 2 schedule_example).owner = OwnerPc.joining ∧
    ((pool_run false 2 ([PoolAction.owner_call 2 false false] ++ [PoolAction.owner_step])).status
          0
        = (pool_run false 2 [PoolAction.owner_call 2 false false]).status 0 ∨
      ((pool_run false 2 [PoolAction.owner_call 2 false false]).status 0
          = ThreadStatus.WAITING ∧
        (pool_run false 2
            ([PoolAction.owner_call 2 false false] ++ [PoolAction.owner_step])).status 0
          = ThreadStatus.WORKING ∧
        PoolAction.owner_step = PoolAction.owner_step ∧
        ∃ task_num, (pool_run false 2 [PoolAction.owner_call 2 false false]).owner
          = OwnerPc.dispatching task_num 0) ∨
      ((pool_run false 2 [PoolAction.owner_call 2 false false]).status 0
          = ThreadStatus.WORKING ∧
        (pool_run false 2
            ([PoolAction.owner_call 2 false false] ++ [PoolAction.owner_step])).status 0
          = ThreadStatus.WAITING ∧
        PoolAction.owner_step = PoolAction.worker_finish 0 ∧
        (pool_run false 2 [PoolAction.owner_call 2 false false]).worker 0
          = WorkerPc.in_process_tasks) ∨
      ((pool_run false 2 [PoolAction.owner_call 2 false false]).status 0
          = ThreadStatus.WAITING ∧
        (pool_run false 2
            ([PoolAction.owner_call 2 false false] ++ [PoolAction.owner_step])).status 0
          = ThreadStatus.EXIT ∧
        PoolAction.owner_step = PoolAction.owner_step ∧
        (pool_run false 2 [PoolAction.owner_call 2 false false]).owner
          = OwnerPc.destroying 0)) :=
  ⟨C18_status_writers.2.2.1 (Backend.new 2) 1 (by decide) (by decide),
   C18_status_writers.2.2.2.1 (Backend.new 2).destroy 1 (by decide),
   by decide, by decide, by decide, by decide, by decide,
   C18_status_writers.2.2.2.2.2.1 false 2 [PoolAction.owner_call 2 false false]
     PoolAction.owner_step 0⟩

/-- C18 as stated fails for `EXIT`: on a pool of 2 idle workers no worker step changes the
status of worker 0, yet after the destructor it is `EXIT`; the writer is `~Backend`, not the
worker. -/
theorem C18_exit_written_by_destructor_counterexample :
    ((Backend.new 2).state 0).status = ThreadStatus.WAITING ∧
    ((worker_thread_step (Backend.new 2) 0).1.state 0).status = ThreadStatus.WAITING ∧
    ((worker_thread_step (Backend.new 2) 1).1.state 0).status = ThreadStatus.WAITING ∧
    ((Backend.new 2).destroy.state 0).status = ThreadStatus.EXIT := by
  decide

end heyi
